import Mathlib

/-!
A shallow embedding of the rope data structure from `src/support/rope/src/`
(`lib.rs` and `ops.rs`): a B+-tree-like ordered sequence container with
cumulative-offset bookkeeping, together with proofs of its specification.

Modelling conventions:
  * `ArrayVec<[X; N]>` is modelled as `List X`; the capacity bound `N` becomes
    an invariant (`≤ 2 * ORDER` etc.) that the theorems establish.
  * The element type `T` and offset type `O` stay abstract; `O` carries an
    additive commutative group structure (the `Offset` trait of the source
    requires zero, addition, negation, cloning and ordering; comparison is
    only consumed through caller-supplied comparator functions and therefore
    needs no order instance here).  `to_offset` is passed explicitly as `tf`.
  * Rust panics (out-of-range indexing, `unwrap` on `None`, `unreachable!()`)
    are modelled by `Option` results for the fallible operations
    (`get_at`, `remove_at`, `update_at_with`, the rotation helpers); for
    `insert`/`insert_sub` — whose panic branches are unreachable for every
    valid cursor, the only inputs the theorems consider — the embedding keeps
    the node unchanged on those branches.
  * The `NodeRef::Invalid` variant of `lib.rs` is never constructed by any
    code in the crate (it only exists as a placeholder for `mem::replace`
    patterns) and is omitted.
-/

namespace RopeModel

/-- `ORDER` from `lib.rs`: `1 << ORDER_SHIFT` with `ORDER_SHIFT = 3`. -/
def ORDER : Nat := 8

/-- Mirrors `NodeRef<T, O>` of `lib.rs`, with the fields of `INode<T, O>`
(`offsets`, `children`) inlined into the `internal` constructor. -/
inductive NodeRef (T O : Type) where
  | internal (offsets : List O) (children : List (NodeRef T O))
  | leaf (elements : List T)

/-- Mirrors `Cursor` of `lib.rs`: the `indices` path (the padding field and
the `u8`/depth-16 representation limits are irrelevant to the semantics). -/
abbrev Cursor : Type := List Nat

/-- Membership from an `getElem?` equation (helper for termination proofs). -/
theorem mem_of_getElemEq {α : Type _} {l : List α} {i : Nat} {a : α}
    (h : l[i]? = some a) : a ∈ l := by
  obtain ⟨hi, rfl⟩ := List.getElem?_eq_some.mp h
  exact List.getElem_mem hi

/-- Membership from a `getLast?` equation (helper for termination proofs). -/
theorem mem_of_getLastEq {α : Type _} {l : List α} {a : α}
    (h : l.getLast? = some a) : a ∈ l := by
  obtain ⟨h', he⟩ := List.mem_getLast?_eq_getLast (Option.mem_def.mpr h)
  exact he ▸ List.getLast_mem h'

/-- Mirrors `Rope<T, O>` of `lib.rs`. -/
structure Rope (T O : Type) where
  root : NodeRef T O
  len : O

variable {T O : Type}

/-- Mirrors `NodeRef::len` of `lib.rs`: the number of the node's children. -/
def NodeRef.len : NodeRef T O → Nat
  | .internal _ cs => cs.length
  | .leaf es => es.length

/-- Mirrors `NodeRef::is_internal` of `lib.rs`. -/
def NodeRef.is_internal : NodeRef T O → Bool
  | .internal _ _ => true
  | .leaf _ => false

/-- Mirrors `NodeRef::is_leaf` of `lib.rs`. -/
def NodeRef.is_leaf : NodeRef T O → Bool
  | .internal _ _ => false
  | .leaf _ => true

mutual
/-- Modelled from the spec: iteration (`iter.rs` is not among the provided
sources) "produces a lazy, finite, restartable bidirectional sequence of
element references, front-to-back …, by walking leaves in tree order".
`toList` is that front-to-back walk. -/
def NodeRef.toList : NodeRef T O → List T
  | .leaf es => es
  | .internal _ cs => NodeRef.toListAll cs

/-- Front-to-back elements of a list of sibling nodes (see `NodeRef.toList`). -/
def NodeRef.toListAll : List (NodeRef T O) → List T
  | [] => []
  | c :: cs => c.toList ++ NodeRef.toListAll cs
end

/-- Elements of a rope, front to back. -/
def Rope.toList (r : Rope T O) : List T :=
  r.root.toList

section Ops

variable [AddCommGroup O] (tf : T → O)

/-- Total offset of the elements of a list (the value the source computes by
folding `to_offset` with `O::zero()` and `+`). -/
def offSum (l : List T) : O :=
  (l.map tf).sum

/-- Total offset of a node's elements. -/
def NodeRef.offsetOf (n : NodeRef T O) : O :=
  offSum tf n.toList

/-- Mirrors `Rope::new` of `lib.rs`. -/
def Rope.new : Rope T O :=
  { root := .leaf [], len := 0 }

/-- Mirrors `Rope::offset_len` of `lib.rs`. -/
def Rope.offset_len (r : Rope T O) : O :=
  r.len

/-- Mirrors `Rope::is_empty` of `lib.rs`. -/
def Rope.is_empty (r : Rope T O) : Bool :=
  match r.root with
  | .leaf l => l.isEmpty
  | _ => false

mutual
/-- Mirrors `Rope::end_generic` of `ops.rs` (the descent along last
children): push `children.len() - 1` and recurse into the last child
(`children.last().unwrap()`, realised by the structural walk
`end_genericL`; its panic on an empty `children` is unreachable for
well-formed trees and yields the empty tail here). -/
def NodeRef.end_generic (past_end : Bool) : NodeRef T O → Cursor
  | .internal _ cs => (cs.length - 1) :: NodeRef.end_genericL past_end cs
  | .leaf es => [es.length - (if past_end then 0 else 1)]

/-- The `children.last().unwrap()` step of `end_generic`: recurse into the
last node of the list. -/
def NodeRef.end_genericL (past_end : Bool) : List (NodeRef T O) → Cursor
  | [] => []
  | [c] => NodeRef.end_generic past_end c
  | _ :: c :: cs => NodeRef.end_genericL past_end (c :: cs)
end

/-- Mirrors `Rope::last_cursor` of `ops.rs`. -/
def Rope.last_cursor (r : Rope T O) : Cursor :=
  r.root.end_generic false

/-- Mirrors `Rope::end` of `ops.rs` (`end` is reserved in Lean). -/
def Rope.end_cursor (r : Rope T O) : Cursor :=
  r.root.end_generic true

/-- Mirrors `Rope::begin` of `ops.rs`.  The `children.first().unwrap()`
panic is unreachable for well-formed trees; the embedding stops there. -/
def NodeRef.begin : NodeRef T O → Cursor
  | .internal _ (c :: _) => 0 :: NodeRef.begin c
  | .internal _ [] => [0]
  | .leaf _ => [0]

/-- Mirrors `Rope::begin` of `ops.rs`. -/
def Rope.begin (r : Rope T O) : Cursor :=
  r.root.begin

/-- The `for offset in inode.offsets[i..] { *offset += d }` loops of
`insert_sub`, `update_at_with` and `remove_sub`: add `d` to every entry of
`offs` from index `i` on. -/
def add_from (offs : List O) (i : Nat) (d : O) : List O :=
  offs.take i ++ (offs.drop i).map (· + d)

/-- The scan loop of `search_by` over an internal node's `offsets` array:
starting with cumulative offset `base` at the node's left edge and current
result offset `cur`, return the index of the chosen child together with the
cumulative offset at that child's left edge. -/
def iScan (f : O → Bool) (base : O) : O → List O → Nat × O
  | cur, [] => (0, cur)
  | cur, o :: rest =>
    if f (base + o) then (0, cur)
    else
      let r := iScan f base (base + o) rest
      (r.1 + 1, r.2)

/-- The scan loop of `search_by` over a leaf's elements: note the
`i + 1 < elements.len()` bound, which clamps the result to the last
element. -/
def leafScan (f : O → Bool) : O → List T → Nat × O
  | off, [] => (0, off)
  | off, [_] => (0, off)
  | off, e :: rest =>
    if f (off + tf e) then (0, off)
    else
      let r := leafScan f (off + tf e) rest
      (r.1 + 1, r.2)

mutual
/-- The descent loop of `Rope::search_by` of `ops.rs`: scan the offsets to
choose child `i`, then descend into `children[i]` (realised by the
structural walk `search_goL`; its out-of-range case — the indexing panic of
the source — is unreachable, the scan index being at most
`offsets.len() < children.len()` for well-formed nodes, and stops the
descent here). -/
def NodeRef.search_go (f : O → Bool) : NodeRef T O → O → Cursor × O
  | .leaf es, off =>
    let r := leafScan tf f off es
    ([r.1], r.2)
  | .internal offs cs, off =>
    let r := iScan f off off offs
    match NodeRef.search_goL f cs r.1 r.2 with
    | some q => (r.1 :: q.1, q.2)
    | none => ([r.1], r.2)

/-- The `children[i]` descent step of `search_go`. -/
def NodeRef.search_goL (f : O → Bool) : List (NodeRef T O) → Nat → O → Option (Cursor × O)
  | [], _, _ => none
  | c :: _, 0, off => some (NodeRef.search_go f c off)
  | _ :: cs, i + 1, off => NodeRef.search_goL f cs i off
end

/-- Mirrors `Rope::search_by` of `ops.rs`. -/
def Rope.search_by (r : Rope T O) (f : O → Bool) : Option (Cursor × O) :=
  if f 0 then none
  else if ¬ f r.len then some (r.end_cursor, r.len)
  else some (r.root.search_go tf f 0)

/-- Mirrors `Rope::inclusive_lower_bound_by` of `ops.rs`. -/
def Rope.inclusive_lower_bound_by (r : Rope T O) (f : O → Ordering) :
    Option (Cursor × O) :=
  r.search_by tf (fun offset => f offset == Ordering.gt)

/-- Mirrors `Rope::inclusive_upper_bound_by` of `ops.rs`. -/
def Rope.inclusive_upper_bound_by (r : Rope T O) (f : O → Ordering) :
    Option (Cursor × O) :=
  r.search_by tf (fun offset => f offset != Ordering.lt)

/-- Mirrors `Rope::get_at` of `ops.rs`; `none` models the panics on an
invalid cursor. -/
def NodeRef.get_at : Cursor → NodeRef T O → Option T
  | i :: rest, .internal _ cs =>
    match cs[i]? with
    | some c => NodeRef.get_at rest c
    | none => none
  | i :: _, .leaf es => es[i]?
  | [], _ => none
termination_by structural p => p

/-- Mirrors `Rope::get_at` of `ops.rs`. -/
def Rope.get_at (r : Rope T O) (at_ : Cursor) : Option T :=
  r.root.get_at at_

/-- Mirrors `Rope::insert_sub` of `ops.rs`.  The result is the updated node
together with `some (new_sibling, new_len)` when the node was split (`new_len`
is the new total offset of the updated node).  The `unreachable!()`/indexing
panic branches (empty path, path shape not matching the tree, out-of-range
index) leave the node unchanged; they are unreachable for the valid cursors
the theorems consider. -/
def insert_sub : Cursor → NodeRef T O → T → O → NodeRef T O × Option (NodeRef T O × O)
  | [], node, _, _ => (node, none)
  | _ :: _ :: _, .leaf es, _, _ => (.leaf es, none)
  | [_], .internal offs cs, _, _ => (.internal offs cs, none)
  | [i], .leaf es, x, _ =>
    if es.length = 2 * ORDER then
      -- Full; split the leaf into two at `mid = capacity / 2`.
      let mid := ORDER
      let first := es.take mid
      let second := es.drop mid
      if mid ≤ i then
        -- The new element belongs to the newly created leaf.
        (.leaf first, some (.leaf (second.insertIdx (i - mid) x), offSum tf first))
      else
        -- The new element belongs to the current leaf.
        (.leaf (first.insertIdx i x), some (.leaf second, offSum tf (first.insertIdx i x)))
    else
      (.leaf (es.insertIdx i x), none)
  | i :: r0 :: rtail, .internal offs cs, x, x_len =>
    match cs[i]? with
    | none => (.internal offs cs, none)
    | some c =>
      let offs1 := add_from offs i x_len
      let res := insert_sub (r0 :: rtail) c x x_len
      let cs1 := cs.set i res.1
      match res.2 with
      | none => (.internal offs1 cs1, none)
      | some (new_sibling, new_len) =>
        if cs.length = 2 * ORDER then
          -- Full; split the current internal node into two.
          let mid := ORDER
          let shc := cs1.drop mid
          let first_half_len := offs1.getD (mid - 1) 0
          let sho := ((offs1.drop mid).map (· + -first_half_len))
          if mid ≤ i then
            -- `children[i]` and `new_sibling` belong to the second half.
            let new_children := (shc.take (i + 1 - mid)) ++ new_sibling :: shc.drop (i + 1 - mid)
            let ins :=
              match (sho.take (i - mid)).getLast? with
              | some prev_len => prev_len + new_len
              | none => new_len
            let new_offsets := (sho.take (i - mid)) ++ ins :: sho.drop (i - mid)
            (.internal (offs1.take (mid - 1)) (cs1.take mid),
              some (.internal new_offsets new_children, first_half_len))
          else
            -- `children[i]` and `new_sibling` belong to the first half.
            let cur_children := (cs1.take mid).insertIdx (i + 1) new_sibling
            let ins := if i = 0 then new_len else offs1.getD (i - 1) 0 + new_len
            let cur_offsets := (offs1.take (mid - 1)).insertIdx i ins
            (.internal cur_offsets cur_children, some (.internal sho shc, first_half_len))
        else
          -- Not full.
          let ins := if i = 0 then new_len else offs1.getD (i - 1) 0 + new_len
          (.internal (offs1.insertIdx i ins) (cs1.insertIdx (i + 1) new_sibling), none)
termination_by structural p => p

/-- Mirrors `Rope::insert` of `ops.rs`. -/
def Rope.insert (r : Rope T O) (x : T) (at_ : Cursor) : Rope T O :=
  let len := tf x
  let res := insert_sub tf at_ r.root x len
  match res.2 with
  | some (new_sibling, new_len) =>
    { root := .internal [new_len] [res.1, new_sibling], len := r.len + len }
  | none => { root := res.1, len := r.len + len }

/-- Mirrors `Rope::push_back` of `lib.rs`. -/
def Rope.push_back (r : Rope T O) (x : T) : Rope T O :=
  r.insert tf x r.end_cursor

/-- Mirrors `Rope::push_front` of `lib.rs`. -/
def Rope.push_front (r : Rope T O) (x : T) : Rope T O :=
  r.insert tf x r.begin

/-- Modelled from the spec: "constructible from any finite source sequence of
`T` (by repeated `push_back`)" (the `FromIterator` impl is not among the
provided sources). -/
def Rope.fromList (l : List T) : Rope T O :=
  l.foldl (fun r x => r.push_back tf x) Rope.new

/-- Mirrors `Rope::update_at_with` of `ops.rs`, first pass: descend to the
addressed element, update it with `f` (modelled as returning the new element
and the result value), and compute the offset delta.  `none` models the
panics on an invalid cursor. -/
def update_elem {R : Type} : Cursor → NodeRef T O → (T → T × R) →
    Option (NodeRef T O × R × O)
  | i :: r0 :: rtail, .internal offs cs, f =>
    match cs[i]? with
    | some c =>
      match update_elem (r0 :: rtail) c f with
      | some (c', res, d) => some (.internal offs (cs.set i c'), res, d)
      | none => none
    | none => none
  | i :: _, .leaf es, f =>
    match es[i]? with
    | some e =>
      let fr := f e
      some (.leaf (es.set i fr.1), fr.2, tf fr.1 + -tf e)
    | none => none
  | _, _, _ => none
termination_by structural p => p

/-- Mirrors `Rope::update_at_with` of `ops.rs`, second pass: add `delta` to
`offsets[i..]` of every internal node along the cursor's path. -/
def adjust_offsets (delta : O) : Cursor → NodeRef T O → NodeRef T O
  | i :: rest, .internal offs cs =>
    let offs' := add_from offs i delta
    match cs[i]? with
    | some c => .internal offs' (cs.set i (adjust_offsets delta rest c))
    | none => .internal offs' cs
  | _ :: _, .leaf es => .leaf es
  | [], n => n

/-- Mirrors `Rope::update_at_with` of `ops.rs`. -/
def Rope.update_at_with {R : Type} (r : Rope T O) (at_ : Cursor)
    (f : T → T × R) : Option (R × Rope T O) :=
  match update_elem tf at_ r.root f with
  | none => none
  | some (root1, res, delta) =>
    some (res, { root := adjust_offsets delta at_ root1, len := r.len + delta })

/-- Mirrors `Rope::rotate_right` of `ops.rs`: move the last child of `left`
to the front of `right`; returns the updated nodes and the offset of the
moved child.  `none` models the `unwrap`/`unreachable!()` panics. -/
def rotate_right (left right : NodeRef T O) (left_len : O) :
    Option (NodeRef T O × NodeRef T O × O) :=
  match left, right with
  | .leaf es1, .leaf es2 =>
    match es1.getLast? with
    | some e => some (.leaf es1.dropLast, .leaf (e :: es2), tf e)
    | none => none
  | .internal o1 c1, .internal o2 c2 =>
    match o1.getLast?, c1.getLast? with
    | some ol, some cl =>
      let len := left_len + -ol
      some (.internal o1.dropLast c1.dropLast,
        .internal (len :: o2.map (· + len)) (cl :: c2), len)
    | _, _ => none
  | _, _ => none

/-- Mirrors `Rope::rotate_left` of `ops.rs`: move the first child of `right`
to the back of `left`; returns the updated nodes and the offset of the moved
child.  `none` models the panics. -/
def rotate_left (left right : NodeRef T O) (left_len : O) :
    Option (NodeRef T O × NodeRef T O × O) :=
  match left, right with
  | .leaf es1, .leaf es2 =>
    match es2 with
    | e :: rest => some (.leaf (es1 ++ [e]), .leaf rest, tf e)
    | [] => none
  | .internal o1 c1, .internal o2 c2 =>
    match c2, o2 with
    | e :: crest, len :: orest =>
      some (.internal (o1 ++ [left_len]) (c1 ++ [e]),
        .internal (orest.map (· + -len)) crest, len)
    | _, _ => none
  | _, _ => none

/-- Mirrors `Rope::rotate_left_full` of `ops.rs`: move all children of
`right` to the back of `left` (the merge step). -/
def rotate_left_full (left right : NodeRef T O) (left_len : O) :
    Option (NodeRef T O) :=
  match left, right with
  | .leaf es1, .leaf es2 => some (.leaf (es1 ++ es2))
  | .internal o1 c1, .internal o2 c2 =>
    some (.internal (o1 ++ left_len :: o2.map (· + left_len)) (c1 ++ c2))
  | _, _ => none

/-- The rebalancing step of `remove_sub` (the body of its `if underflow`
branch in `ops.rs`): child `i` of the node `(offs1, cs1)` ran under the
minimum, choose rotation or merge against a sibling.  Returns the node's new
offsets and children and the new underflow flag; `none` models the panics
(no sibling, mixed node kinds, empty rotation source). -/
def rebalance (offs1 : List O) (cs1 : List (NodeRef T O)) (i : Nat) :
    Option (List O × List (NodeRef T O) × Bool) :=
  let has_left : Bool := decide (0 < i)
  let has_right : Bool := decide (i + 1 < cs1.length)
  -- Prefer rotation to merging.
  let p : Bool × Bool :=
    if has_right ∧ ORDER < (cs1.getD (i + 1) (.leaf [])).len then (false, true)
    else if has_left ∧ ORDER < (cs1.getD (i - 1) (.leaf [])).len then (has_left, true)
    else (has_left, false)
  let use_left := p.1
  let rot := p.2
  let k := i - (if use_left then 1 else 0)
  match cs1[k]?, cs1[k + 1]? with
  | some left, some right =>
    let left_len := if k = 0 then offs1.getD 0 0 else offs1.getD k 0 + -offs1.getD (k - 1) 0
    if rot then
      match (if use_left then
          (rotate_right tf left right left_len).map (fun q => (q.1, q.2.1, -q.2.2))
        else
          (rotate_left tf left right left_len).map (fun q => (q.1, q.2.1, q.2.2))) with
      | none => none
      | some (left', right', displacement) =>
        some (offs1.set k (offs1.getD k 0 + displacement),
          (cs1.set k left').set (k + 1) right', false)
    else
      match rotate_left_full left right left_len with
      | none => none
      | some left' =>
        let cs2 := (cs1.set k left').eraseIdx (k + 1)
        some (offs1.eraseIdx k, cs2, decide (cs2.length < ORDER))
  | _, _ => none

/-- Mirrors `Rope::remove_sub` of `ops.rs`.  Returns the updated node, the
removed element, its offset, and the underflow flag; `none` models the
panics on an invalid cursor. -/
def remove_sub : Cursor → NodeRef T O → Option (NodeRef T O × T × O × Bool)
  | [i], .leaf es =>
    match es[i]? with
    | some e =>
      some (.leaf (es.eraseIdx i), e, tf e, decide ((es.eraseIdx i).length < ORDER))
    | none => none
  | i :: r0 :: rtail, .internal offs cs =>
    match cs[i]? with
    | none => none
    | some c =>
      match remove_sub (r0 :: rtail) c with
      | none => none
      | some (c', e, len, uf) =>
        let cs1 := cs.set i c'
        let offs1 := add_from offs i (-len)
        if uf then
          match rebalance tf offs1 cs1 i with
          | none => none
          | some (offs2, cs2, uf2) => some (.internal offs2 cs2, e, len, uf2)
        else
          some (.internal offs1 cs1, e, len, uf)
  | _, _ => none
termination_by structural p => p

/-- Mirrors `Rope::flatten_root_if_needed` of `ops.rs`.  The
`pop().unwrap()` panic (an internal root with no children) is modelled by
leaving the node unchanged; it is unreachable. -/
def flatten_root_if_needed : NodeRef T O → NodeRef T O
  | .internal offs cs =>
    if 2 ≤ cs.length then .internal offs cs
    else
      match cs.getLast? with
      | some c => c
      | none => .internal offs cs
  | .leaf es => .leaf es

/-- Mirrors `Rope::remove_at` of `ops.rs`. -/
def Rope.remove_at (r : Rope T O) (at_ : Cursor) : Option (T × Rope T O) :=
  match remove_sub tf at_ r.root with
  | none => none
  | some (root1, e, off, uf) =>
    let root2 := if uf then flatten_root_if_needed root1 else root1
    some (e, { root := root2, len := r.len + -off })

/-- Mirrors `Rope::pop_back` of `lib.rs`. -/
def Rope.pop_back (r : Rope T O) : Option (T × Rope T O) :=
  if r.is_empty then none else r.remove_at tf r.last_cursor

/-- Mirrors `Rope::pop_front` of `lib.rs`. -/
def Rope.pop_front (r : Rope T O) : Option (T × Rope T O) :=
  if r.is_empty then none else r.remove_at tf r.begin

/-- Mirrors `Rope::first` of `lib.rs`. -/
def Rope.first (r : Rope T O) : Option T :=
  if r.is_empty then none else r.get_at r.begin

/-- Mirrors `Rope::last` of `lib.rs`. -/
def Rope.last (r : Rope T O) : Option T :=
  if r.is_empty then none else r.get_at r.last_cursor

end Ops

/-! ## Invariants

These formalise the invariants documented in `lib.rs` (`NodeRef::Leaf`,
`INode::offsets`, `INode::children`) and §3 of the specification. -/

/-- Uniform structure: `Shape n h` says every leaf of `n` lies at depth `h`.
Since all children of an internal node share the height, they are all leaves
or all internal — the `type_constraint` of `lib.rs`. -/
inductive Shape : NodeRef T O → Nat → Prop where
  | leaf (es : List T) : Shape (.leaf es) 0
  | internal (offs : List O) (cs : List (NodeRef T O)) (h : Nat)
      (hc : ∀ c ∈ cs, Shape c h) : Shape (.internal offs cs) (h + 1)

/-- Occupancy bounds: the node holds between `mn` and `2 * ORDER`
children/elements, and every strict descendant holds between `ORDER` and
`2 * ORDER`.  The root is used with `mn = 0` (leaf) or `mn = 2` (internal),
every other node with `mn = ORDER` — the `len_contraint` of `lib.rs`. -/
inductive SizeMin : Nat → NodeRef T O → Prop where
  | leaf (mn : Nat) (es : List T) (hmin : mn ≤ es.length)
      (hmax : es.length ≤ 2 * ORDER) : SizeMin mn (.leaf es)
  | internal (mn : Nat) (offs : List O) (cs : List (NodeRef T O))
      (hmin : mn ≤ cs.length) (hmax : cs.length ≤ 2 * ORDER)
      (hc : ∀ c ∈ cs, SizeMin ORDER c) : SizeMin mn (.internal offs cs)

/-- The occupancy minimum required of a root node (§3: a leaf root may be
empty, an internal root needs two children). -/
def rootMin : NodeRef T O → Nat
  | .leaf _ => 0
  | .internal _ _ => 2

section OffsetInv

variable [AddCommGroup O] (tf : T → O)

/-- Total offset of the elements of a list of sibling nodes. -/
def allSum (cs : List (NodeRef T O)) : O :=
  offSum tf (NodeRef.toListAll cs)

/-- Offset-cache correctness: in every internal node,
`offsets.len() == children.len() - 1` and
`offsets[i] == all_elements(children[0..i + 1]).map(to_offset).sum()`
(the invariant stated on `INode::offsets` in `lib.rs`). -/
inductive OffsetsOk : NodeRef T O → Prop where
  | leaf (es : List T) : OffsetsOk (.leaf es)
  | internal (offs : List O) (cs : List (NodeRef T O))
      (hlen : offs.length + 1 = cs.length)
      (hval : ∀ (j : Nat) (hj : j < offs.length),
        offs[j] = allSum tf (cs.take (j + 1)))
      (hc : ∀ c ∈ cs, OffsetsOk c) : OffsetsOk (.internal offs cs)

/-- Full well-formedness of a rope: uniform depth, occupancy bounds, correct
offset caches, and a correct cached total `len`. -/
structure Valid (r : Rope T O) : Prop where
  shape : ∃ h, Shape r.root h
  size : SizeMin (rootMin r.root) r.root
  offsets : OffsetsOk tf r.root
  len_eq : r.len = offSum tf r.toList

end OffsetInv

/-- Number of elements under a list of sibling nodes. -/
def cntAll (cs : List (NodeRef T O)) : Nat :=
  (NodeRef.toListAll cs).length

/-- A cursor valid for insertion: it addresses either an element or (at leaf
level) the one-past-end slot; `p` is the flat front-to-back position it
addresses. -/
inductive InsPath : Cursor → NodeRef T O → Nat → Prop where
  | leaf (i : Nat) (es : List T) (hi : i ≤ es.length) : InsPath [i] (.leaf es) i
  | internal (i : Nat) (rest : Cursor) (offs : List O) (cs : List (NodeRef T O))
      (p : Nat) (hi : i < cs.length) (hrest : InsPath rest cs[i] p) :
      InsPath (i :: rest) (.internal offs cs) (cntAll (cs.take i) + p)

/-- A cursor addressing an element (`p` is its flat position). -/
inductive ElemPath : Cursor → NodeRef T O → Nat → Prop where
  | leaf (i : Nat) (es : List T) (hi : i < es.length) : ElemPath [i] (.leaf es) i
  | internal (i : Nat) (rest : Cursor) (offs : List O) (cs : List (NodeRef T O))
      (p : Nat) (hi : i < cs.length) (hrest : ElemPath rest cs[i] p) :
      ElemPath (i :: rest) (.internal offs cs) (cntAll (cs.take i) + p)

/-! ## Basic lemmas -/

@[simp] theorem toList_leaf (es : List T) :
    (NodeRef.leaf es : NodeRef T O).toList = es := by
  simp [NodeRef.toList]

@[simp] theorem toList_internal (offs : List O) (cs : List (NodeRef T O)) :
    (NodeRef.internal offs cs : NodeRef T O).toList = NodeRef.toListAll cs := by
  simp [NodeRef.toList]

@[simp] theorem toListAll_nil : NodeRef.toListAll ([] : List (NodeRef T O)) = [] := by
  simp [NodeRef.toListAll]

@[simp] theorem toListAll_cons (c : NodeRef T O) (cs : List (NodeRef T O)) :
    NodeRef.toListAll (c :: cs) = c.toList ++ NodeRef.toListAll cs := by
  simp [NodeRef.toListAll]

@[simp] theorem toListAll_append (l1 l2 : List (NodeRef T O)) :
    NodeRef.toListAll (l1 ++ l2) = NodeRef.toListAll l1 ++ NodeRef.toListAll l2 := by
  induction l1 with
  | nil => simp
  | cons c cs ih => simp [ih]

@[simp] theorem len_leaf (es : List T) : (NodeRef.leaf es : NodeRef T O).len = es.length := rfl

@[simp] theorem len_internal (offs : List O) (cs : List (NodeRef T O)) :
    (NodeRef.internal offs cs : NodeRef T O).len = cs.length := rfl

section SumLemmas

variable [AddCommGroup O] (tf : T → O)

@[simp] theorem offSum_nil : offSum (O := O) tf [] = 0 := by
  simp [offSum]

@[simp] theorem offSum_cons (x : T) (l : List T) :
    offSum (O := O) tf (x :: l) = tf x + offSum tf l := by
  simp [offSum]

@[simp] theorem offSum_append (l1 l2 : List T) :
    offSum (O := O) tf (l1 ++ l2) = offSum tf l1 + offSum tf l2 := by
  simp [offSum]

@[simp] theorem offSum_singleton (x : T) : offSum (O := O) tf [x] = tf x := by
  simp [offSum]

@[simp] theorem allSum_nil : allSum (O := O) tf [] = 0 := by
  simp [allSum]

@[simp] theorem allSum_cons (c : NodeRef T O) (cs : List (NodeRef T O)) :
    allSum tf (c :: cs) = offSum tf c.toList + allSum tf cs := by
  simp [allSum]

@[simp] theorem allSum_append (l1 l2 : List (NodeRef T O)) :
    allSum tf (l1 ++ l2) = allSum tf l1 + allSum tf l2 := by
  simp [allSum]

theorem offSum_foldl (l : List T) :
    l.foldr (fun y x => tf y + x) (0 : O) = offSum tf l := by
  induction l with
  | nil => simp
  | cons x xs ih => simp [ih]

end SumLemmas

@[simp] theorem cntAll_nil : cntAll ([] : List (NodeRef T O)) = 0 := by
  simp [cntAll]

@[simp] theorem cntAll_cons (c : NodeRef T O) (cs : List (NodeRef T O)) :
    cntAll (c :: cs) = c.toList.length + cntAll cs := by
  simp [cntAll]

@[simp] theorem cntAll_append (l1 l2 : List (NodeRef T O)) :
    cntAll (l1 ++ l2) = cntAll l1 + cntAll l2 := by
  simp [cntAll]

/-- A `SizeMin` bound can be relaxed. -/
theorem SizeMin.mono {mn mn' : Nat} {n : NodeRef T O} (h : SizeMin mn n)
    (hle : mn' ≤ mn) : SizeMin mn' n := by
  cases h with
  | leaf _ es hmin hmax => exact .leaf _ es (hle.trans hmin) hmax
  | internal _ offs cs hmin hmax hc => exact .internal _ offs cs (hle.trans hmin) hmax hc

/-- A `SizeMin` bound can be strengthened when the length is known. -/
theorem SizeMin.of_len {mn mn' : Nat} {n : NodeRef T O} (h : SizeMin mn n)
    (hle : mn' ≤ n.len) : SizeMin mn' n := by
  cases h with
  | leaf _ es hmin hmax => exact .leaf _ es (by simpa using hle) hmax
  | internal _ offs cs hmin hmax hc => exact .internal _ offs cs (by simpa using hle) hmax hc

/-- Splitting the element walk of a sibling list at child `i`. -/
theorem toListAll_decomp {cs : List (NodeRef T O)} {i : Nat} (hi : i < cs.length) :
    NodeRef.toListAll cs =
      NodeRef.toListAll (cs.take i) ++ cs[i].toList ++
        NodeRef.toListAll (cs.drop (i + 1)) := by
  conv_lhs => rw [← List.take_append_drop i cs, List.drop_eq_getElem_cons hi]
  simp only [toListAll_append, toListAll_cons, List.append_assoc]

theorem insertIdx_append_left {α : Type _} {l1 : List α} {i : Nat}
    (hi : i ≤ l1.length) (l2 : List α) (x : α) :
    (l1 ++ l2).insertIdx i x = l1.insertIdx i x ++ l2 := by
  induction l1 generalizing i with
  | nil =>
    have h0 : i = 0 := Nat.le_zero.mp (by simpa using hi)
    subst h0
    simp
  | cons a l ih =>
    cases i with
    | zero => simp [List.insertIdx_zero]
    | succ i =>
      simp only [List.cons_append, List.insertIdx_succ_cons]
      rw [ih (by simpa using hi)]

theorem insertIdx_append_right {α : Type _} (l1 l2 : List α) (k : Nat) (x : α) :
    (l1 ++ l2).insertIdx (l1.length + k) x = l1 ++ l2.insertIdx k x := by
  induction l1 with
  | nil => simp
  | cons a l ih =>
    simp only [List.cons_append, List.length_cons]
    rw [Nat.succ_add, List.insertIdx_succ_cons, ih]

theorem InsPath.le_length {path : Cursor} {n : NodeRef T O} {p : Nat}
    (h : InsPath path n p) : p ≤ n.toList.length := by
  induction h with
  | leaf i es hi => simpa using hi
  | internal i rest offs cs p hi hrest ih =>
    have hd := toListAll_decomp hi
    simp only [toList_internal, hd, List.length_append, cntAll]
    simp only [toList_internal] at ih
    omega

theorem ElemPath.lt_length {path : Cursor} {n : NodeRef T O} {p : Nat}
    (h : ElemPath path n p) : p < n.toList.length := by
  induction h with
  | leaf i es hi => simpa using hi
  | internal i rest offs cs p hi hrest ih =>
    have hd := toListAll_decomp hi
    simp only [toList_internal, hd, List.length_append, cntAll]
    simp only [toList_internal] at ih
    omega

/-- `get_at` returns the element at the cursor's flat position. -/
theorem ElemPath.get_at_eq {path : Cursor} {n : NodeRef T O} {p : Nat}
    (h : ElemPath path n p) : NodeRef.get_at path n = n.toList[p]? := by
  induction h with
  | leaf i es hi => simp [NodeRef.get_at]
  | internal i rest offs cs p hi hrest ih =>
    rw [NodeRef.get_at]
    rw [List.getElem?_eq_getElem hi]
    have hd := toListAll_decomp hi
    have hp := hrest.lt_length
    simp only [toList_internal, hd]
    rw [List.append_assoc, List.getElem?_append_right (by simp [cntAll])]
    rw [List.getElem?_append_left (by simpa [cntAll] using hp)]
    simpa [cntAll] using ih

/-- An element-addressing cursor is in particular a valid insertion cursor. -/
theorem ElemPath.toInsPath {path : Cursor} {n : NodeRef T O} {p : Nat}
    (h : ElemPath path n p) : InsPath path n p := by
  induction h with
  | leaf i es hi => exact .leaf i es hi.le
  | internal i rest offs cs p hi hrest ih => exact .internal i rest offs cs p hi ih

/-- Every non-root node of a well-formed tree holds at least one element. -/
theorem toList_ne_nil_of_sizeMin {n : NodeRef T O} {h : Nat}
    (hs : Shape n h) (hz : SizeMin ORDER n) : n.toList ≠ [] := by
  induction hs with
  | leaf es =>
    cases hz with
    | leaf _ _ hmin hmax =>
      simp only [toList_leaf]
      intro he
      rw [he] at hmin
      simp [ORDER] at hmin
  | internal offs cs ht hc ih =>
    cases hz with
    | internal _ _ _ hmin hmax hcs =>
      match hcs' : cs, hmin with
      | c :: cs', _ =>
        have hne := ih c (by simp) (hcs c (by simp))
        simp only [toList_internal, toListAll_cons]
        intro he
        exact hne (List.append_eq_nil.mp he).1

/-- `begin` addresses the first element of a non-empty well-formed tree. -/
theorem begin_elemPath {n : NodeRef T O} {h mn : Nat} (hs : Shape n h)
    (hz : SizeMin mn n) (hne : n.toList ≠ []) : ElemPath n.begin n 0 := by
  induction hs generalizing mn with
  | leaf es =>
    refine .leaf 0 es ?_
    simpa [List.length_pos_iff_ne_nil] using hne
  | internal offs cs hh hsh ih =>
    cases hz with
    | internal _ _ _ hmin hmax hcs =>
      match hcsne : cs with
      | [] =>
        subst hcsne
        simp at hne
      | c :: cs' =>
        subst hcsne
        have hc0 : SizeMin ORDER c := hcs c (by simp)
        have hcne : c.toList ≠ [] := toList_ne_nil_of_sizeMin (hsh c (by simp)) hc0
        have hrest : ElemPath c.begin c 0 := ih c (by simp) hc0 hcne
        have := ElemPath.internal 0 c.begin offs (c :: cs') 0 (by simp) (by simpa using hrest)
        simpa [NodeRef.begin] using this

/-- The structural walk `end_genericL` is the descent into the last child. -/
theorem end_genericL_eq {cs : List (NodeRef T O)} (hne : cs ≠ []) (past_end : Bool) :
    NodeRef.end_genericL past_end cs = NodeRef.end_generic past_end (cs.getLast hne) := by
  induction cs with
  | nil => exact absurd rfl hne
  | cons c cs ih =>
    cases cs with
    | nil => simp [NodeRef.end_genericL]
    | cons c2 cs2 =>
      rw [NodeRef.end_genericL, ih (by simp)]
      congr 1

/-- `end_generic true` (i.e. `end()`) addresses the one-past-end position. -/
theorem end_cursor_insPath {n : NodeRef T O} {h mn : Nat} (hs : Shape n h)
    (hz : SizeMin mn n) (hmn : n.is_internal = true → 1 ≤ mn) :
    InsPath (n.end_generic true) n n.toList.length := by
  induction hs generalizing mn with
  | leaf es =>
    rw [NodeRef.end_generic]
    simpa using InsPath.leaf es.length es le_rfl
  | internal offs cs hh hsh ih =>
    cases hz with
    | internal _ _ _ hmin hmax hcs =>
      have hlt : cs.length - 1 < cs.length := by
        have h1 : 1 ≤ mn := hmn (by simp [NodeRef.is_internal])
        omega
      have hne2 : cs ≠ [] := by
        intro he
        subst he
        simp at hlt
      rw [NodeRef.end_generic, end_genericL_eq hne2, List.getLast_eq_getElem]
      have hc0 : SizeMin ORDER cs[cs.length - 1] := hcs _ (List.getElem_mem hlt)
      have hrest := ih cs[cs.length - 1] (List.getElem_mem hlt) hc0
        (fun _ => by simp [ORDER])
      have hstep := InsPath.internal (cs.length - 1) _ offs cs _ hlt hrest
      have hcnt : cntAll (cs.take (cs.length - 1)) + cs[cs.length - 1].toList.length =
          (NodeRef.toListAll cs).length := by
        have hd := toListAll_decomp hlt
        have hdrop : cs.drop (cs.length - 1 + 1) = [] := by
          apply List.drop_eq_nil_of_le
          omega
        rw [hd, hdrop]
        simp [cntAll]
      simpa [hcnt] using hstep

/-- `end_generic false` (i.e. `last_cursor()`) addresses the last element of
a non-empty well-formed tree. -/
theorem last_cursor_elemPath {n : NodeRef T O} {h mn : Nat} (hs : Shape n h)
    (hz : SizeMin mn n) (hne : n.toList ≠ []) :
    ElemPath (n.end_generic false) n (n.toList.length - 1) := by
  induction hs generalizing mn with
  | leaf es =>
    rw [NodeRef.end_generic]
    have hpos : 0 < es.length := by
      simpa [List.length_pos_iff_ne_nil] using hne
    simpa using ElemPath.leaf (es.length - 1) es (by omega)
  | internal offs cs hh hsh ih =>
    cases hz with
    | internal _ _ _ hmin hmax hcs =>
      have hcne : cs ≠ [] := by
        intro he
        subst he
        simp at hne
      have hlt : cs.length - 1 < cs.length := by
        have := List.length_pos_iff_ne_nil.mpr hcne
        omega
      rw [NodeRef.end_generic, end_genericL_eq hcne, List.getLast_eq_getElem]
      have hc0 : SizeMin ORDER cs[cs.length - 1] := hcs _ (List.getElem_mem hlt)
      have hcne' : cs[cs.length - 1].toList ≠ [] :=
        toList_ne_nil_of_sizeMin (hsh _ (List.getElem_mem hlt)) hc0
      have hrest := ih cs[cs.length - 1] (List.getElem_mem hlt) hc0 hcne'
      have hstep := ElemPath.internal (cs.length - 1) _ offs cs _ hlt hrest
      have hd := toListAll_decomp hlt
      have hdrop : cs.drop (cs.length - 1 + 1) = [] := by
        apply List.drop_eq_nil_of_le
        omega
      have hcpos : 0 < cs[cs.length - 1].toList.length :=
        List.length_pos_iff_ne_nil.mpr hcne'
      have hcnt : cntAll (cs.take (cs.length - 1)) + (cs[cs.length - 1].toList.length - 1) =
          (NodeRef.toListAll cs).length - 1 := by
        rw [hd, hdrop]
        simp only [toListAll_append, toListAll_nil, List.append_nil, List.length_append, cntAll]
        omega
      simpa [hcnt] using hstep


theorem insertIdx_eq_take_cons_drop {α : Type _} {l : List α} {k : Nat}
    (hk : k ≤ l.length) (x : α) :
    l.insertIdx k x = l.take k ++ x :: l.drop k := by
  induction l generalizing k with
  | nil =>
    have h0 : k = 0 := Nat.le_zero.mp (by simpa using hk)
    subst h0
    simp
  | cons a t ih =>
    cases k with
    | zero => simp
    | succ k =>
      simp only [List.insertIdx_succ_cons, List.take_succ_cons, List.drop_succ_cons,
        List.cons_append]
      rw [ih (by simpa using hk)]

section InsertLemmas

variable [AddCommGroup O] (tf : T → O)

@[simp] theorem length_add_from (offs : List O) (i : Nat) (d : O) :
    (add_from offs i d).length = offs.length := by
  simp [add_from]
  omega

theorem add_from_getElem?_lt {offs : List O} {i j : Nat} {d : O}
    (hj : j < i) (hl : j < offs.length) :
    (add_from offs i d)[j]? = some offs[j] := by
  rw [add_from, List.getElem?_append_left (by simp; omega),
    List.getElem?_take_of_lt hj, List.getElem?_eq_getElem hl]

theorem add_from_getElem?_ge {offs : List O} {i j : Nat} {d : O}
    (hj : i ≤ j) (hl : j < offs.length) :
    (add_from offs i d)[j]? = some (offs[j] + d) := by
  have hmin : (offs.take i).length = i := by
    simp
    omega
  rw [add_from, List.getElem?_append_right (by omega), hmin,
    List.getElem?_map, List.getElem?_drop]
  rw [show i + (j - i) = j by omega, List.getElem?_eq_getElem hl]
  rfl

theorem offSum_insertIdx {l : List T} {p : Nat} (hp : p ≤ l.length) (x : T) :
    offSum (O := O) tf (l.insertIdx p x) = tf x + offSum tf l := by
  rw [insertIdx_eq_take_cons_drop hp]
  simp only [offSum_append, offSum_cons]
  conv_rhs => rw [← List.take_append_drop p l]
  simp only [offSum_append]
  abel

theorem allSum_decomp {cs : List (NodeRef T O)} {i : Nat} (hi : i < cs.length) :
    allSum tf cs =
      allSum tf (cs.take i) + offSum tf cs[i].toList + allSum tf (cs.drop (i + 1)) := by
  rw [allSum, toListAll_decomp hi]
  simp [allSum, NodeRef.offsetOf, add_assoc]

theorem allSum_set {cs : List (NodeRef T O)} {i : Nat} (hi : i < cs.length)
    (n' : NodeRef T O) :
    allSum tf (cs.set i n') =
      allSum tf (cs.take i) + offSum tf n'.toList + allSum tf (cs.drop (i + 1)) := by
  rw [List.set_eq_take_cons_drop _ hi, allSum, toListAll_append, toListAll_cons]
  simp [allSum, add_assoc]

theorem toListAll_set {cs : List (NodeRef T O)} {i : Nat} (hi : i < cs.length)
    (n' : NodeRef T O) :
    NodeRef.toListAll (cs.set i n') =
      NodeRef.toListAll (cs.take i) ++ n'.toList ++
        NodeRef.toListAll (cs.drop (i + 1)) := by
  rw [List.set_eq_take_cons_drop _ hi]
  simp [List.append_assoc]

/-- The offsets update of the descent step (`add_from offs i δ` over
`cs.set i n'`) preserves the offsets invariant when child `i`'s total offset
changed by exactly `δ`. -/
theorem shift_offsets_ok {offs : List O} {cs : List (NodeRef T O)} {i : Nat}
    {n' : NodeRef T O} {δ : O} (hi : i < cs.length)
    (hlen : offs.length + 1 = cs.length)
    (hval : ∀ (j : Nat) (hj : j < offs.length), offs[j] = allSum tf (cs.take (j + 1)))
    (hsum : offSum tf n'.toList = offSum tf cs[i].toList + δ) :
    ∀ (j : Nat) (hj : j < (add_from offs i δ).length),
      (add_from offs i δ)[j] = allSum tf ((cs.set i n').take (j + 1)) := by
  intro j hj
  have hj' : j < offs.length := by simpa using hj
  rw [List.set_take (l := cs)]
  by_cases hcase : j < i
  · have := add_from_getElem?_lt (d := δ) hcase hj'
    have hget : (add_from offs i δ)[j] = offs[j] := by
      have := (List.getElem?_eq_some.mp this)
      obtain ⟨h1, h2⟩ := this
      simpa using h2
    rw [hget, List.set_eq_of_length_le (by simp; omega), hval j hj']
  · have hgi : i ≤ j := by omega
    have := add_from_getElem?_ge (d := δ) hgi hj'
    have hget : (add_from offs i δ)[j] = offs[j] + δ := by
      have := (List.getElem?_eq_some.mp this)
      obtain ⟨h1, h2⟩ := this
      simpa using h2
    have hitk : i < (cs.take (j + 1)).length := by
      simp
      omega
    rw [hget, allSum_set tf hitk n']
    have hgetTake : (cs.take (j + 1))[i] = cs[i] := by simp
    have hdecomp := allSum_decomp tf hitk
    rw [hgetTake] at hdecomp
    rw [hval j hj', hdecomp, hsum]
    abel

theorem add_from_take_of_le {offs : List O} {i k : Nat} {δ : O}
    (hik : i ≤ k) (hi : i ≤ offs.length) :
    (add_from offs i δ).take k = add_from (offs.take k) i δ := by
  rw [add_from, add_from, List.take_append_eq_append_take,
    List.take_of_length_le (by rw [List.length_take]; omega)]
  congr 1
  · rw [List.take_take]
    congr 1
    omega
  · rw [List.length_take, Nat.min_eq_left hi, ← List.map_take, List.drop_take]

theorem add_from_take_of_ge {offs : List O} {i k : Nat} {δ : O}
    (hk : k ≤ i) (hi : i ≤ offs.length) :
    (add_from offs i δ).take k = offs.take k := by
  rw [add_from, List.take_append_of_le_length (by rw [List.length_take]; omega),
    List.take_take, Nat.min_eq_left hk]

theorem add_from_drop_of_le {offs : List O} {i k : Nat} {δ : O}
    (hik : i ≤ k) (hi : i ≤ offs.length) :
    (add_from offs i δ).drop k = (offs.drop k).map (· + δ) := by
  rw [add_from, List.drop_append_eq_append_drop,
    List.drop_of_length_le (by rw [List.length_take]; omega)]
  rw [List.length_take, Nat.min_eq_left hi, List.nil_append, ← List.map_drop,
    List.drop_drop]
  congr 2
  omega

/-- The second half of a split internal node: dropping the first `m`
children and rebasing the remaining offsets by `-offsets[m-1]` yields a
valid offsets table for the remaining children. -/
theorem drop_half_val {offs : List O} {cs : List (NodeRef T O)} {m : Nat}
    (hlen : offs.length + 1 = cs.length)
    (hval : ∀ (j : Nat) (hj : j < offs.length), offs[j] = allSum tf (cs.take (j + 1)))
    (hm : 0 < m) (hmo : m ≤ offs.length) (b : O)
    (hb : b = offs[m - 1]) :
    ∀ (j : Nat) (hj : j < ((offs.drop m).map (· + -b)).length),
      ((offs.drop m).map (· + -b))[j] = allSum tf ((cs.drop m).take (j + 1)) := by
  intro j hj
  have hj' : j < offs.length - m := by simpa using hj
  rw [List.getElem_map, List.getElem_drop]
  have h1 : offs[m + j] = allSum tf (cs.take (m + j + 1)) :=
    hval (m + j) (by omega)
  have h2 : cs.take (m + j + 1) = cs.take m ++ (cs.drop m).take (j + 1) := by
    rw [show m + j + 1 = m + (j + 1) by omega, List.take_add]
  have h3 : b = allSum tf (cs.take m) := by
    rw [hb, hval (m - 1) (by omega)]
    congr 2
    omega
  rw [h1, h2, h3, allSum_append]
  abel

/-- Inserting a fresh sibling `sib` after child `i` (which became `n'`),
together with the corresponding offsets entry, preserves the offsets
invariant; the elements are those of the original node with child `i`'s
elements replaced by `n'.toList ++ sib.toList`. -/
theorem insert_child_ok {offs : List O} {cs : List (NodeRef T O)} {i : Nat}
    {n' sib : NodeRef T O} {δ : O} (hi : i < cs.length)
    (hlen : offs.length + 1 = cs.length)
    (hval : ∀ (j : Nat) (hj : j < offs.length), offs[j] = allSum tf (cs.take (j + 1)))
    (hsum : offSum tf n'.toList + offSum tf sib.toList = offSum tf cs[i].toList + δ) :
    ((add_from offs i δ).insertIdx i
        (if i = 0 then offSum tf n'.toList
         else (add_from offs i δ).getD (i - 1) 0 + offSum tf n'.toList)).length + 1 =
      ((cs.set i n').insertIdx (i + 1) sib).length ∧
    (∀ (j : Nat)
      (hj : j < ((add_from offs i δ).insertIdx i
        (if i = 0 then offSum tf n'.toList
         else (add_from offs i δ).getD (i - 1) 0 + offSum tf n'.toList)).length),
      ((add_from offs i δ).insertIdx i
        (if i = 0 then offSum tf n'.toList
         else (add_from offs i δ).getD (i - 1) 0 + offSum tf n'.toList))[j] =
        allSum tf (((cs.set i n').insertIdx (i + 1) sib).take (j + 1))) ∧
    NodeRef.toListAll ((cs.set i n').insertIdx (i + 1) sib) =
      NodeRef.toListAll (cs.take i) ++ n'.toList ++ sib.toList ++
        NodeRef.toListAll (cs.drop (i + 1)) := by
  set A := cs.take i with hA
  set D := cs.drop (i + 1) with hD
  set a := offSum tf n'.toList with ha
  set offs1 := add_from offs i δ with hoffs1
  set ins := if i = 0 then a else offs1.getD (i - 1) 0 + a with hins
  have hAlen : A.length = i := by
    rw [hA, List.length_take]
    omega
  have hDlen : D.length = cs.length - (i + 1) := by
    rw [hD, List.length_drop]
  have hio : i ≤ offs.length := by omega
  have hcseq : cs = A ++ cs[i] :: D := by
    rw [hA, hD, ← List.drop_eq_getElem_cons hi, List.take_append_drop]
  have hcs2 : (cs.set i n').insertIdx (i + 1) sib = A ++ n' :: sib :: D := by
    rw [List.set_eq_take_cons_drop _ hi, ← hA, ← hD]
    rw [insertIdx_eq_take_cons_drop
      (by simp only [List.length_append, List.length_cons, hAlen]; omega) sib]
    rw [List.take_append_eq_append_take, List.take_of_length_le (by omega),
      List.drop_append_eq_append_drop, List.drop_of_length_le (by omega)]
    simp [hAlen]
  have hlen1 : offs1.length = offs.length := by simp [hoffs1]
  have hoffs2 : offs1.insertIdx i ins = offs1.take i ++ ins :: offs1.drop i :=
    insertIdx_eq_take_cons_drop (by omega) ins
  have htklen : (offs1.take i).length = i := by
    rw [List.length_take]
    omega
  have hlen2 : (offs1.insertIdx i ins).length = offs.length + 1 := by
    rw [hoffs2]
    simp only [List.length_append, List.length_cons, htklen, List.length_drop]
    omega
  refine ⟨?_, ?_, ?_⟩
  · rw [hcs2, hlen2]
    simp only [List.length_append, List.length_cons, hAlen, hDlen]
    omega
  · intro j hj
    have hj' : j < offs.length + 1 := by rwa [hlen2] at hj
    have hget : (offs1.insertIdx i ins)[j]? =
        if j < i then offs[j]?
        else if j = i then some ins
        else offs1[j - 1]? := by
      rw [hoffs2]
      by_cases h1 : j < i
      · rw [if_pos h1, List.getElem?_append_left (by omega),
          List.getElem?_take_of_lt h1, hoffs1, add_from,
          List.getElem?_append_left (by simp only [List.length_take]; omega),
          List.getElem?_take_of_lt h1]
      · rw [if_neg h1]
        rw [List.getElem?_append_right (by omega), htklen]
        by_cases h2 : j = i
        · subst h2
          simp
        · rw [if_neg h2]
          have hj2 : j - i = (j - i - 1) + 1 := by omega
          rw [hj2]
          simp only [List.getElem?_cons_succ]
          rw [List.getElem?_drop]
          congr 1
          omega
    rw [← Option.some_inj, ← List.getElem?_eq_getElem hj, hget, hcs2]
    by_cases h1 : j < i
    · rw [if_pos h1]
      rw [List.take_append_eq_append_take]
      have h2 : j + 1 - A.length = 0 := by omega
      rw [h2]
      simp only [List.take_zero, List.append_nil]
      have h3 : A.take (j + 1) = cs.take (j + 1) := by
        rw [hA, List.take_take]
        congr 1
        omega
      rw [h3, List.getElem?_eq_getElem (show j < offs.length by omega),
        hval j (by omega)]
    · by_cases h2 : j = i
      · rw [if_neg h1, if_pos h2]
        rw [List.take_append_eq_append_take, List.take_of_length_le (by omega)]
        have h3 : j + 1 - A.length = 1 := by omega
        rw [h3]
        simp only [List.take_succ_cons, List.take_zero]
        rw [hins]
        by_cases h4 : i = 0
        · rw [if_pos h4]
          have hA0 : A = [] := by
            rw [hA, h4]
            simp
          rw [hA0]
          simp [ha]
        · rw [if_neg h4]
          have h5 : i - 1 < i := by omega
          have hgd : offs1.getD (i - 1) 0 = offs[i - 1] := by
            simp only [hoffs1, List.getD_eq_getElem?_getD]
            rw [add_from_getElem?_lt (d := δ) h5 (by omega)]
            rfl
          rw [hgd, hval (i - 1) (by omega)]
          have h6 : A = cs.take ((i - 1) + 1) := by
            rw [hA]
            congr 1
            omega
          rw [← h6, Option.some_inj]
          simp only [allSum_append, allSum_cons, allSum_nil, ha]
          abel
      · -- j > i
        rw [if_neg h1, if_neg h2]
        have h3 : i ≤ j - 1 := by omega
        have h4 : j - 1 < offs.length := by omega
        simp only [hoffs1]
        rw [add_from_getElem?_ge (d := δ) h3 h4]
        have h5 : cs.take (j - 1 + 1) = A ++ cs[i] :: D.take (j - i - 1) := by
          conv_lhs => rw [hcseq]
          rw [List.take_append_eq_append_take, List.take_of_length_le (by omega)]
          have h6 : j - 1 + 1 - A.length = (j - i - 1) + 1 := by omega
          rw [h6]
          simp
        have h7 : (A ++ n' :: sib :: D).take (j + 1) =
            A ++ n' :: sib :: D.take (j - i - 1) := by
          rw [List.take_append_eq_append_take, List.take_of_length_le (by omega)]
          have h8 : j + 1 - A.length = (j - i - 1) + 2 := by omega
          rw [h8]
          simp
        rw [h7, hval (j - 1) h4, h5]
        have hs2 : a + offSum tf sib.toList + -δ = offSum tf cs[i].toList := by
          rw [hsum]
          abel
        rw [Option.some_inj]
        simp only [allSum_append, allSum_cons]
        rw [← ha, ← hs2]
        abel
  · rw [hcs2]
    simp [List.append_assoc]


/-- Unfolding of `insert_sub` at a leaf. -/
theorem insert_sub_leaf (es : List T) (x : T) (xl : O) (i : Nat) :
    insert_sub tf [i] (.leaf es) x xl =
      if es.length = 2 * ORDER then
        if ORDER ≤ i then
          (.leaf (es.take ORDER),
            some (.leaf ((es.drop ORDER).insertIdx (i - ORDER) x),
              offSum tf (es.take ORDER)))
        else
          (.leaf ((es.take ORDER).insertIdx i x),
            some (.leaf (es.drop ORDER),
              offSum tf ((es.take ORDER).insertIdx i x)))
      else (.leaf (es.insertIdx i x), none) := by
  simp only [insert_sub]

end InsertLemmas

/-- **C7** — Leaf split on full insertion: when `insert` targets index `i` of
a leaf already holding `2*ORDER` elements, the leaf is split at the midpoint
`ORDER`; the freshly inserted element is routed into the newly created
sibling leaf exactly when `i ≥ ORDER` and into the retained original leaf
otherwise; the returned length of the retained half equals the sum of
`to_offset` over its elements; and the two leaves concatenated hold the
original elements with `x` inserted at logical position `i`. -/
theorem C7_leaf_split_on_full_insert [AddCommGroup O] (tf : T → O)
    (es : List T) (x : T) (i : Nat)
    (hfull : es.length = 2 * ORDER) (hi : i ≤ es.length) :
    ∃ F S flen,
      insert_sub tf [i] (.leaf es) x (tf x) = (.leaf F, some (.leaf S, flen)) ∧
      F ++ S = es.insertIdx i x ∧
      flen = offSum tf F ∧
      (ORDER ≤ i → F = es.take ORDER ∧ S = (es.drop ORDER).insertIdx (i - ORDER) x ∧ x ∈ S) ∧
      (i < ORDER → F = (es.take ORDER).insertIdx i x ∧ S = es.drop ORDER ∧ x ∈ F) := by
  have htk : (es.take ORDER).length = ORDER := by
    rw [List.length_take]
    omega
  have hdp : (es.drop ORDER).length = ORDER := by
    rw [List.length_drop]
    omega
  rw [insert_sub_leaf, if_pos hfull]
  by_cases hmid : ORDER ≤ i
  · refine ⟨_, _, _, by rw [if_pos hmid], ?_, rfl, fun _ => ⟨rfl, rfl, ?_⟩,
      fun hlt => absurd hmid (by omega)⟩
    · have hsplit : i = (es.take ORDER).length + (i - ORDER) := by omega
      conv_rhs => rw [← List.take_append_drop ORDER es, hsplit, insertIdx_append_right]
    · exact (List.mem_insertIdx (by omega)).mpr (Or.inl rfl)
  · refine ⟨_, _, _, by rw [if_neg hmid], ?_, rfl,
      fun hge => absurd hge hmid, fun _ => ⟨rfl, rfl, ?_⟩⟩
    · conv_rhs => rw [← List.take_append_drop ORDER es]
      rw [insertIdx_append_left (by omega)]
    · exact (List.mem_insertIdx (by omega)).mpr (Or.inl rfl)

/-- Witness for `C7_leaf_split_on_full_insert` at a concrete full leaf. -/
theorem C7_witness :
    (((List.range 16).length = 2 * ORDER) ∧ 3 ≤ (List.range 16).length) ∧
    ∃ F S flen,
      insert_sub (fun n => (n : Int)) [3] (.leaf (List.range 16)) 99 99 =
        (.leaf F, some (.leaf S, flen)) ∧
      F ++ S = (List.range 16).insertIdx 3 99 ∧
      flen = offSum (fun n => (n : Int)) F ∧
      (ORDER ≤ 3 → F = (List.range 16).take ORDER ∧
        S = ((List.range 16).drop ORDER).insertIdx (3 - ORDER) 99 ∧ 99 ∈ S) ∧
      (3 < ORDER → F = ((List.range 16).take ORDER).insertIdx 3 99 ∧
        S = (List.range 16).drop ORDER ∧ 99 ∈ F) :=
  ⟨⟨by decide, by decide⟩,
    C7_leaf_split_on_full_insert (fun n => (n : Int)) (List.range 16) 99 3
      (by decide) (by decide)⟩


theorem split_concat_ge {α : Type _} {es : List α} {i : Nat} (x : α)
    (horder : ORDER ≤ es.length) (hmid : ORDER ≤ i) :
    es.take ORDER ++ (es.drop ORDER).insertIdx (i - ORDER) x = es.insertIdx i x := by
  conv_rhs => rw [← List.take_append_drop ORDER es,
    show i = (es.take ORDER).length + (i - ORDER) by rw [List.length_take]; omega,
    insertIdx_append_right]

theorem split_concat_lt {α : Type _} {es : List α} {i : Nat} (x : α)
    (hmid : i < ORDER) :
    (es.take ORDER).insertIdx i x ++ es.drop ORDER = es.insertIdx i x := by
  by_cases hlen : i ≤ (es.take ORDER).length
  · conv_rhs => rw [← List.take_append_drop ORDER es, insertIdx_append_left hlen]
  · rw [List.length_take] at hlen
    have h1 : es.length < i := by omega
    rw [List.insertIdx_of_length_lt _ _ _ h1,
      List.insertIdx_of_length_lt _ _ _ (by rw [List.length_take]; omega),
      List.take_append_drop]

section Master

variable [AddCommGroup O] (tf : T → O)

theorem getLast?_take {α : Type _} {l : List α} {k : Nat} (hk : k ≤ l.length) :
    (l.take k).getLast? = if k = 0 then none else l[k - 1]? := by
  by_cases h0 : k = 0
  · subst h0
    simp
  · rw [if_neg h0, List.getLast?_eq_getElem?, List.length_take,
      Nat.min_eq_left hk, List.getElem?_take_of_lt (by omega)]

theorem add_from_drop_of_ge {offs : List O} {i k : Nat} {δ : O}
    (hk : k ≤ i) (hi : i ≤ offs.length) :
    (add_from offs i δ).drop k = add_from (offs.drop k) (i - k) δ := by
  rw [add_from, add_from, List.drop_append_eq_append_drop]
  congr 1
  · rw [List.drop_take]
  · rw [List.length_take, Nat.min_eq_left hi,
      show k - i = 0 from by omega, List.drop_zero, List.drop_drop]
    congr 2
    omega

theorem map_add_add_from (l : List O) (k : Nat) (δ c : O) :
    (add_from l k δ).map (· + c) = add_from (l.map (· + c)) k δ := by
  rw [add_from, add_from, List.map_append]
  congr 1
  · rw [List.map_take]
  · rw [List.map_map, ← List.map_drop, List.map_map]
    apply List.map_congr_left
    intro a _
    simp only [Function.comp_apply]
    abel

theorem add_from_getD_lt {offs : List O} {i j : Nat} {δ : O}
    (hj : j < i) (hl : j < offs.length) :
    (add_from offs i δ).getD j 0 = offs[j] := by
  rw [List.getD_eq_getElem?_getD, add_from_getElem?_lt hj hl]
  rfl

theorem add_from_getD_ge {offs : List O} {i j : Nat} {δ : O}
    (hj : i ≤ j) (hl : j < offs.length) :
    (add_from offs i δ).getD j 0 = offs[j] + δ := by
  rw [List.getD_eq_getElem?_getD, add_from_getElem?_ge hj hl]
  rfl

/-- The first `m` children of a node, with the first `m - 1` offsets, form a
valid offsets table. -/
theorem take_half_val {offs : List O} {cs : List (NodeRef T O)} {m : Nat}
    (hval : ∀ (j : Nat) (hj : j < offs.length), offs[j] = allSum tf (cs.take (j + 1))) :
    ∀ (j : Nat) (hj : j < (offs.take (m - 1)).length),
      (offs.take (m - 1))[j] = allSum tf ((cs.take m).take (j + 1)) := by
  intro j hj
  have hj' : j < m - 1 ∧ j < offs.length := by
    constructor <;> [skip; skip] <;>
      · have := hj
        rw [List.length_take] at this
        omega
  rw [List.getElem_take, hval j hj'.2, List.take_take]
  congr 2
  omega


theorem InsPath.exists_cons {path : Cursor} {n : NodeRef T O} {p : Nat}
    (h : InsPath path n p) : ∃ a l, path = a :: l := by
  cases h <;> exact ⟨_, _, rfl⟩

/-- Unfolding of `insert_sub` at an internal node with a valid child index. -/
theorem insert_sub_internal {offs : List O} {cs : List (NodeRef T O)} {i : Nat}
    (r0 : Nat) (rtail : List Nat) (x : T) (xl : O) (hi : i < cs.length) :
    insert_sub tf (i :: r0 :: rtail) (.internal offs cs) x xl =
      (let offs1 := add_from offs i xl
       let res := insert_sub tf (r0 :: rtail) cs[i] x xl
       let cs1 := cs.set i res.1
       match res.2 with
       | none => (.internal offs1 cs1, none)
       | some (new_sibling, new_len) =>
         if cs.length = 2 * ORDER then
           let mid := ORDER
           let shc := cs1.drop mid
           let first_half_len := offs1.getD (mid - 1) 0
           let sho := ((offs1.drop mid).map (· + -first_half_len))
           if mid ≤ i then
             let new_children := (shc.take (i + 1 - mid)) ++ new_sibling :: shc.drop (i + 1 - mid)
             let ins :=
               match (sho.take (i - mid)).getLast? with
               | some prev_len => prev_len + new_len
               | none => new_len
             let new_offsets := (sho.take (i - mid)) ++ ins :: sho.drop (i - mid)
             (.internal (offs1.take (mid - 1)) (cs1.take mid),
               some (.internal new_offsets new_children, first_half_len))
           else
             let cur_children := (cs1.take mid).insertIdx (i + 1) new_sibling
             let ins := if i = 0 then new_len else offs1.getD (i - 1) 0 + new_len
             let cur_offsets := (offs1.take (mid - 1)).insertIdx i ins
             (.internal cur_offsets cur_children, some (.internal sho shc, first_half_len))
         else
           let ins := if i = 0 then new_len else offs1.getD (i - 1) 0 + new_len
           (.internal (offs1.insertIdx i ins) (cs1.insertIdx (i + 1) new_sibling), none)) := by
  simp only [insert_sub, List.getElem?_eq_getElem hi]

set_option maxHeartbeats 1000000 in
theorem insert_sub_ok (x : T) :
    ∀ {path : Cursor} {n : NodeRef T O} {p : Nat}, InsPath path n p →
    ∀ {h mn : Nat}, Shape n h → SizeMin mn n → OffsetsOk tf n →
    (∀ n', insert_sub tf path n x (tf x) = (n', none) →
       Shape n' h ∧ SizeMin mn n' ∧ OffsetsOk tf n' ∧
       n'.toList = n.toList.insertIdx p x) ∧
    (∀ n' sib retLen, insert_sub tf path n x (tf x) = (n', some (sib, retLen)) →
       Shape n' h ∧ Shape sib h ∧ SizeMin ORDER n' ∧ SizeMin ORDER sib ∧
       n'.len ≤ ORDER + 1 ∧ sib.len ≤ ORDER + 1 ∧ n.len = 2 * ORDER ∧
       OffsetsOk tf n' ∧ OffsetsOk tf sib ∧
       retLen = offSum tf n'.toList ∧
       n'.toList ++ sib.toList = n.toList.insertIdx p x) := by
  intro path n p hp
  induction hp with
  | leaf i es hi =>
    intro h mn hs hz ho
    cases hs
    cases hz with
    | leaf _ _ hmin hmax =>
    constructor
    · intro n' heq
      rw [insert_sub_leaf] at heq
      by_cases hfull : es.length = 2 * ORDER
      · rw [if_pos hfull] at heq
        by_cases hmid : ORDER ≤ i
        · rw [if_pos hmid] at heq
          exact absurd heq (by simp)
        · rw [if_neg hmid] at heq
          exact absurd heq (by simp)
      · rw [if_neg hfull] at heq
        obtain ⟨rfl, -⟩ : NodeRef.leaf (es.insertIdx i x) = n' ∧ True :=
          ⟨congrArg Prod.fst heq, trivial⟩
        refine ⟨.leaf _, .leaf _ _ ?_ ?_, .leaf _, by simp⟩
        · rw [List.length_insertIdx _ _ hi]
          omega
        · rw [List.length_insertIdx _ _ hi]
          omega
    · intro n' sib retLen heq
      rw [insert_sub_leaf] at heq
      by_cases hfull : es.length = 2 * ORDER
      · rw [if_pos hfull] at heq
        by_cases hmid : ORDER ≤ i
        · rw [if_pos hmid] at heq
          simp only [Prod.mk.injEq, Option.some.injEq] at heq
          obtain ⟨rfl, rfl, rfl⟩ := heq
          have hFlen : (es.take ORDER).length = ORDER := by
            rw [List.length_take]
            omega
          have hSlen : ((es.drop ORDER).insertIdx (i - ORDER) x).length = ORDER + 1 := by
            rw [List.length_insertIdx _ _ (by rw [List.length_drop]; omega),
              List.length_drop]
            omega
          refine ⟨.leaf _, .leaf _,
            .leaf _ _ (by rw [hFlen]) (by rw [hFlen]; decide),
            .leaf _ _ (by rw [hSlen]; decide) (by rw [hSlen]; decide),
            by simp only [len_leaf, hFlen]; decide,
            by simp only [len_leaf, hSlen]; decide,
            by simpa using hfull,
            .leaf _, .leaf _, rfl, ?_⟩
          simpa using split_concat_ge x (by omega) hmid
        · rw [if_neg hmid] at heq
          simp only [Prod.mk.injEq, Option.some.injEq] at heq
          obtain ⟨rfl, rfl, rfl⟩ := heq
          have hFlen : ((es.take ORDER).insertIdx i x).length = ORDER + 1 := by
            rw [List.length_insertIdx _ _ (by rw [List.length_take]; omega),
              List.length_take]
            omega
          have hSlen : (es.drop ORDER).length = ORDER := by
            rw [List.length_drop]
            omega
          refine ⟨.leaf _, .leaf _,
            .leaf _ _ (by rw [hFlen]; decide) (by rw [hFlen]; decide),
            .leaf _ _ (by rw [hSlen]) (by rw [hSlen]; decide),
            by simp only [len_leaf, hFlen]; decide,
            by simp only [len_leaf, hSlen]; decide,
            by simpa using hfull,
            .leaf _, .leaf _, rfl, ?_⟩
          simpa using split_concat_lt x (by omega)
      · rw [if_neg hfull] at heq
        exact absurd heq (by simp)
  | internal i rest offs cs p hi hrest ih =>
    intro h mn hs hz ho
    obtain ⟨r0, rtail, rfl⟩ := hrest.exists_cons
    cases hs with
    | internal _ _ hh hsh =>
    cases hz with
    | internal _ _ _ hmin hmax hcs =>
    cases ho with
    | internal _ _ hlen hval hoc =>
    have hio : i ≤ offs.length := by omega
    have hcm : cs[i] ∈ cs := List.getElem_mem hi
    have IH := ih (hsh _ hcm) (hcs _ hcm) (hoc _ hcm)
    have hple : p ≤ cs[i].toList.length := hrest.le_length
    constructor
    · intro n' heq
      rw [insert_sub_internal tf r0 rtail x (tf x) hi] at heq
      rcases hres : insert_sub tf (r0 :: rtail) cs[i] x (tf x) with ⟨c', s2⟩
      simp only [hres] at heq
      cases s2 with
      | none =>
        simp only [Prod.mk.injEq] at heq
        obtain ⟨rfl, -⟩ := heq
        obtain ⟨hsh', hsz', hoff', htl'⟩ := IH.1 c' (by rw [hres])
        have hsum : offSum tf c'.toList = offSum tf cs[i].toList + tf x := by
          rw [htl', offSum_insertIdx tf hple]
          abel
        refine ⟨?_, ?_, ?_, ?_⟩
        · exact .internal _ _ hh (fun c hc => by
            rcases List.mem_or_eq_of_mem_set hc with h | rfl
            · exact hsh c h
            · exact hsh')
        · exact .internal _ _ _ (by simpa using hmin) (by simpa using hmax)
            (fun c hc => by
              rcases List.mem_or_eq_of_mem_set hc with h | rfl
              · exact hcs c h
              · exact hsz')
        · refine .internal _ _ ?_ ?_ (fun c hc => by
            rcases List.mem_or_eq_of_mem_set hc with h | rfl
            · exact hoc c h
            · exact hoff')
          · simpa using hlen
          · exact shift_offsets_ok tf hi hlen hval hsum
        · rw [toList_internal, toList_internal, toListAll_set hi c', htl']
          conv_rhs => rw [toListAll_decomp hi]
          have hcnt : cntAll (cs.take i) + p = (NodeRef.toListAll (cs.take i)).length + p := rfl
          rw [hcnt]
          conv_rhs => rw [List.append_assoc, insertIdx_append_right,
            insertIdx_append_left hple]
          rw [List.append_assoc]
      | some s =>
        obtain ⟨csib, cret⟩ := s
        obtain ⟨hshc, hshs, hszc, hszs, hlenc, hlens, hfullc, hoffc, hoffsib, hretc, hcatc⟩ :=
          IH.2 c' csib cret (by rw [hres])
        have hOrd : ORDER = 8 := rfl
        simp only [] at heq
        by_cases hfull : cs.length = 2 * ORDER
        · rw [if_pos hfull] at heq
          by_cases hmid : ORDER ≤ i
          · rw [if_pos hmid] at heq
            exact absurd heq (by simp)
          · rw [if_neg hmid] at heq
            exact absurd heq (by simp)
        · rw [if_neg hfull] at heq
          simp only [Prod.mk.injEq] at heq
          obtain ⟨rfl, -⟩ := heq
          have hsum2 : offSum tf c'.toList + offSum tf csib.toList =
              offSum tf cs[i].toList + tf x := by
            have := congrArg (offSum (O := O) tf) hcatc
            rw [offSum_append, offSum_insertIdx tf hple] at this
            rw [this]
            abel
          obtain ⟨hL2, hV2, hT2⟩ := insert_child_ok tf hi hlen hval hsum2
          have hi1 : i + 1 ≤ (cs.set i c').length := by
            simp
            omega
          refine ⟨?_, ?_, ?_, ?_⟩
          · refine .internal _ _ hh (fun c hc => ?_)
            rcases (List.mem_insertIdx (by simpa using hi1)).mp hc with rfl | hc'
            · exact hshs
            · rcases List.mem_or_eq_of_mem_set hc' with hmem | rfl
              · exact hsh c hmem
              · exact hshc
          · refine .internal _ _ _ ?_ ?_ (fun c hc => ?_)
            · rw [List.length_insertIdx _ _ hi1]
              simp
              omega
            · rw [List.length_insertIdx _ _ hi1]
              simp
              omega
            · rcases (List.mem_insertIdx (by simpa using hi1)).mp hc with rfl | hc'
              · exact hszs.mono (le_refl _)
              · rcases List.mem_or_eq_of_mem_set hc' with hmem | rfl
                · exact hcs c hmem
                · exact hszc
          · refine .internal _ _ ?_ ?_ (fun c hc => ?_)
            · rw [hretc]
              exact hL2
            · rw [hretc]
              exact hV2
            · rcases (List.mem_insertIdx (by simpa using hi1)).mp hc with rfl | hc'
              · exact hoffsib
              · rcases List.mem_or_eq_of_mem_set hc' with hmem | rfl
                · exact hoc c hmem
                · exact hoffc
          · rw [toList_internal, toList_internal, hT2]
            have hcnt : cntAll (cs.take i) + p = (NodeRef.toListAll (cs.take i)).length + p := rfl
            rw [hcnt]
            conv_rhs => rw [toListAll_decomp hi, List.append_assoc,
              insertIdx_append_right, insertIdx_append_left hple]
            rw [← hcatc]
            simp [List.append_assoc]
    · intro n' sib retLen heq
      rw [insert_sub_internal tf r0 rtail x (tf x) hi] at heq
      rcases hres : insert_sub tf (r0 :: rtail) cs[i] x (tf x) with ⟨c', s2⟩
      simp only [hres] at heq
      cases s2 with
      | none => exact absurd heq (by simp)
      | some s =>
        obtain ⟨csib, cret⟩ := s
        obtain ⟨hshc, hshs, hszc, hszs, hlenc, hlens, hfullc, hoffc, hoffsib, hretc, hcatc⟩ :=
          IH.2 c' csib cret (by rw [hres])
        have hOrd : ORDER = 8 := rfl
        have h2O : 2 * ORDER = 16 := rfl
        have hsum2 : offSum tf c'.toList + offSum tf csib.toList =
            offSum tf cs[i].toList + tf x := by
          have := congrArg (offSum (O := O) tf) hcatc
          rw [offSum_append, offSum_insertIdx tf hple] at this
          rw [this]
          abel
        simp only [] at heq
        by_cases hfull : cs.length = 2 * ORDER
        · rw [if_pos hfull] at heq
          have h15 : offs.length = 15 := by omega
          by_cases hmid : ORDER ≤ i
          · rw [if_pos hmid] at heq
            simp only [Prod.mk.injEq, Option.some.injEq] at heq
            obtain ⟨rfl, rfl, rfl⟩ := heq
            set δ := tf x with hδ
            set offs1 := add_from offs i δ with hoffs1
            set fhl := offs1.getD (ORDER - 1) 0 with hfhl
            set shc := (cs.set i c').drop ORDER with hshc2
            set sho := (offs1.drop ORDER).map (· + -fhl) with hsho
            have hi15 : i < 16 := by omega
            have hF1 : (cs.set i c').take ORDER = cs.take ORDER := by
              rw [List.set_take]
              apply List.set_eq_of_length_le
              rw [List.length_take]
              omega
            have hF2 : offs1.take (ORDER - 1) = offs.take (ORDER - 1) := by
              rw [hoffs1]
              exact add_from_take_of_ge (by omega) hio
            have hF3v : fhl = offs[ORDER - 1] := by
              rw [hfhl, hoffs1]
              exact add_from_getD_lt (by omega) (by omega)
            have hlenTake : (cs.take ORDER).length = ORDER := by
              rw [List.length_take]
              omega
            have hlenTakeO : (offs.take (ORDER - 1)).length = ORDER - 1 := by
              rw [List.length_take]
              omega
            set relOffs := (offs.drop ORDER).map (· + -offs[ORDER - 1]) with hrel
            have hG1 : shc = (cs.drop ORDER).set (i - ORDER) c' := by
              rw [hshc2, List.drop_set, if_neg (by omega)]
            have hlenshc : shc.length = ORDER := by
              rw [hG1]
              simp
              omega
            have hG3 : sho = add_from relOffs (i - ORDER) δ := by
              rw [hsho, hoffs1, add_from_drop_of_ge hmid hio, map_add_add_from, hF3v, hrel]
            have hlenrel : relOffs.length = 7 := by
              rw [hrel]
              simp
              omega
            have hlensho : sho.length = 7 := by
              rw [hG3]
              simp [hlenrel]
            have hiB : i - ORDER < (cs.drop ORDER).length := by
              simp
              omega
            have hlenB : relOffs.length + 1 = (cs.drop ORDER).length := by
              rw [hlenrel]
              simp
              omega
            have hvalB : ∀ (j : Nat) (hj : j < relOffs.length),
                relOffs[j] = allSum tf ((cs.drop ORDER).take (j + 1)) := by
              rw [hrel]
              exact drop_half_val tf hlen hval (by decide) (by omega) _ rfl
            have hsumB : offSum tf c'.toList + offSum tf csib.toList =
                offSum tf ((cs.drop ORDER)[i - ORDER]).toList + δ := by
              have hgd : (cs.drop ORDER)[i - ORDER] = cs[i] := by
                rw [List.getElem_drop]
                congr 1
                omega
              rw [hgd, hδ]
              exact hsum2
            obtain ⟨hLB, hVB, hTB⟩ := insert_child_ok tf hiB hlenB hvalB hsumB
            have hNC : shc.take (i + 1 - ORDER) ++ csib :: shc.drop (i + 1 - ORDER) =
                ((cs.drop ORDER).set (i - ORDER) c').insertIdx ((i - ORDER) + 1) csib := by
              rw [insertIdx_eq_take_cons_drop (by simp; omega) csib, ← hG1,
                show (i - ORDER) + 1 = i + 1 - ORDER from by omega]
            have hins2 : (match (sho.take (i - ORDER)).getLast? with
                | some prev => prev + cret | none => cret) =
                (if i - ORDER = 0 then offSum tf c'.toList
                 else (add_from relOffs (i - ORDER) δ).getD (i - ORDER - 1) 0 +
                   offSum tf c'.toList) := by
              rw [getLast?_take (by rw [hlensho]; omega)]
              by_cases h0 : i - ORDER = 0
              · rw [if_pos h0, if_pos h0, hretc]
              · rw [if_neg h0, if_neg h0]
                have hkl : i - ORDER - 1 < sho.length := by
                  rw [hlensho]
                  omega
                rw [List.getElem?_eq_getElem hkl]
                rw [hretc, ← hG3, List.getD_eq_getElem?_getD,
                  List.getElem?_eq_getElem hkl]
                rfl
            have hNO : (sho.take (i - ORDER) ++ (match (sho.take (i - ORDER)).getLast? with
                | some prev => prev + cret | none => cret) :: sho.drop (i - ORDER)) =
                (add_from relOffs (i - ORDER) δ).insertIdx (i - ORDER)
                  (if i - ORDER = 0 then offSum tf c'.toList
                   else (add_from relOffs (i - ORDER) δ).getD (i - ORDER - 1) 0 +
                     offSum tf c'.toList) := by
              rw [insertIdx_eq_take_cons_drop (by rw [← hG3, hlensho]; omega), hins2, hG3]
            refine ⟨?_, ?_, ?_, ?_, ?_, ?_, ?_, ?_, ?_, ?_, ?_⟩
            · refine .internal _ _ hh (fun c hc => ?_)
              rw [hF1] at hc
              exact hsh c (List.mem_of_mem_take hc)
            · refine .internal _ _ hh (fun c hc => ?_)
              rw [hNC] at hc
              rcases (List.mem_insertIdx (by simp; omega)).mp hc with rfl | hc'
              · exact hshs
              · rcases List.mem_or_eq_of_mem_set hc' with hmem | rfl
                · exact hsh c (List.mem_of_mem_drop hmem)
                · exact hshc
            · refine .internal _ _ _ ?_ ?_ (fun c hc => ?_)
              · rw [hF1, hlenTake]
              · rw [hF1, hlenTake]
                decide
              · rw [hF1] at hc
                exact hcs c (List.mem_of_mem_take hc)
            · refine .internal _ _ _ ?_ ?_ (fun c hc => ?_)
              · rw [hNC, List.length_insertIdx _ _ (by simp; omega)]
                simp
                omega
              · rw [hNC, List.length_insertIdx _ _ (by simp; omega)]
                simp
                omega
              · rw [hNC] at hc
                rcases (List.mem_insertIdx (by simp; omega)).mp hc with rfl | hc'
                · exact hszs
                · rcases List.mem_or_eq_of_mem_set hc' with hmem | rfl
                  · exact hcs c (List.mem_of_mem_drop hmem)
                  · exact hszc
            · rw [len_internal, hF1, hlenTake]
              decide
            · rw [len_internal, hNC, List.length_insertIdx _ _ (by simp; omega)]
              simp
              omega
            · rw [len_internal]
              exact hfull
            · refine .internal _ _ ?_ ?_ (fun c hc => ?_)
              · rw [hF2, hF1]
                rw [hlenTakeO, hlenTake]
                decide
              · rw [hF2, hF1]
                exact take_half_val tf hval
              · rw [hF1] at hc
                exact hoc c (List.mem_of_mem_take hc)
            · refine .internal _ _ ?_ ?_ (fun c hc => ?_)
              · rw [hNO, hNC]
                exact hLB
              · rw [hNO, hNC]
                exact hVB
              · rw [hNC] at hc
                rcases (List.mem_insertIdx (by simp; omega)).mp hc with rfl | hc'
                · exact hoffsib
                · rcases List.mem_or_eq_of_mem_set hc' with hmem | rfl
                  · exact hoc c (List.mem_of_mem_drop hmem)
                  · exact hoffc
            · rw [toList_internal, hF1, hF3v, hval (ORDER - 1) (by omega),
                show ORDER - 1 + 1 = ORDER from rfl]
              rfl
            · rw [toList_internal, toList_internal, hF1, hNC, hTB]
              have hD2 : (cs.drop ORDER).drop ((i - ORDER) + 1) = cs.drop (i + 1) := by
                rw [List.drop_drop]
                congr 1
                omega
              have hTake : cs.take i = cs.take ORDER ++ (cs.drop ORDER).take (i - ORDER) := by
                conv_lhs => rw [show i = ORDER + (i - ORDER) from by omega, List.take_add]
              have hcnt2 : cntAll (cs.take i) + p =
                  (NodeRef.toListAll (cs.take ORDER)).length +
                    ((NodeRef.toListAll ((cs.drop ORDER).take (i - ORDER))).length + p) := by
                rw [hTake]
                simp [cntAll]
                omega
              rw [hcnt2, toList_internal]
              have hsplitAll : NodeRef.toListAll cs =
                  NodeRef.toListAll (cs.take ORDER) ++ NodeRef.toListAll (cs.drop ORDER) := by
                conv_lhs => rw [← List.take_append_drop ORDER cs]
                rw [toListAll_append]
              conv_rhs => rw [hsplitAll,
                insertIdx_append_right, toListAll_decomp hiB, List.append_assoc,
                insertIdx_append_right, insertIdx_append_left
                  (by rw [show (cs.drop ORDER)[i - ORDER] = cs[i] from by
                      rw [List.getElem_drop]; congr 1; omega]; exact hple)]
              rw [hD2]
              rw [show (cs.drop ORDER)[i - ORDER] = cs[i] from by
                rw [List.getElem_drop]; congr 1; omega]
              rw [← hcatc]
              simp [List.append_assoc]
          · rw [if_neg hmid] at heq
            simp only [Prod.mk.injEq, Option.some.injEq] at heq
            obtain ⟨rfl, rfl, rfl⟩ := heq
            set δ := tf x with hδ
            set offs1 := add_from offs i δ with hoffs1
            set fhl := offs1.getD (ORDER - 1) 0 with hfhl
            have hiO : i < ORDER := by omega
            have hB1 : (cs.set i c').take ORDER = (cs.take ORDER).set i c' :=
              List.set_take
            have hB2 : offs1.take (ORDER - 1) = add_from (offs.take (ORDER - 1)) i δ := by
              rw [hoffs1]
              exact add_from_take_of_le (by omega) hio
            have hlenTake : (cs.take ORDER).length = ORDER := by
              rw [List.length_take]
              omega
            have hlenTakeO : (offs.take (ORDER - 1)).length = ORDER - 1 := by
              rw [List.length_take]
              omega
            have hiB' : i < (cs.take ORDER).length := by omega
            have hlenB' : (offs.take (ORDER - 1)).length + 1 = (cs.take ORDER).length := by
              rw [hlenTakeO, hlenTake]
              decide
            have hvalB' : ∀ (j : Nat) (hj : j < (offs.take (ORDER - 1)).length),
                (offs.take (ORDER - 1))[j] = allSum tf ((cs.take ORDER).take (j + 1)) :=
              take_half_val tf hval
            have hgetTake : (cs.take ORDER)[i] = cs[i] := List.getElem_take cs
            have hsumB' : offSum tf c'.toList + offSum tf csib.toList =
                offSum tf ((cs.take ORDER)[i]).toList + δ := by
              rw [hgetTake, hδ]
              exact hsum2
            obtain ⟨hLB, hVB, hTB⟩ := insert_child_ok tf hiB' hlenB' hvalB' hsumB'
            have hinsB : (if i = 0 then cret else offs1.getD (i - 1) 0 + cret) =
                (if i = 0 then offSum tf c'.toList
                 else (add_from (offs.take (ORDER - 1)) i δ).getD (i - 1) 0 +
                   offSum tf c'.toList) := by
              by_cases h0 : i = 0
              · rw [if_pos h0, if_pos h0, hretc]
              · rw [if_neg h0, if_neg h0, hretc]
                congr 1
                rw [hoffs1, add_from_getD_lt (by omega) (by omega),
                  add_from_getD_lt (by omega) (by rw [hlenTakeO]; omega)]
                exact (List.getElem_take offs).symm
            have hfhlB : fhl = offs[ORDER - 1] + δ := by
              rw [hfhl, hoffs1]
              exact add_from_getD_ge (by omega) (by omega)
            have hshc3 : (cs.set i c').drop ORDER = cs.drop ORDER := by
              rw [List.drop_set, if_pos (by omega)]
            have hshoB : (offs1.drop ORDER).map (· + -fhl) =
                (offs.drop ORDER).map (· + -(offs[ORDER - 1])) := by
              rw [hoffs1, add_from_drop_of_le (by omega) hio, List.map_map, hfhlB]
              apply List.map_congr_left
              intro a _
              simp only [Function.comp_apply]
              abel
            have hvalD : ∀ (j : Nat)
                (hj : j < ((offs.drop ORDER).map (· + -(offs[ORDER - 1]))).length),
                ((offs.drop ORDER).map (· + -(offs[ORDER - 1])))[j] =
                  allSum tf ((cs.drop ORDER).take (j + 1)) :=
              drop_half_val tf hlen hval (by decide) (by omega) _ rfl
            have hallTake : allSum tf (cs.take ORDER) = offs[ORDER - 1] := by
              rw [hval (ORDER - 1) (by omega), show ORDER - 1 + 1 = ORDER from rfl]
            have hsumTake : allSum tf ((cs.take ORDER).set i c') + offSum tf csib.toList =
                allSum tf (cs.take ORDER) + δ := by
              rw [allSum_set tf hiB' c', allSum_decomp tf hiB', hgetTake]
              have h := hsum2
              rw [hδ]
              rw [show offSum tf c'.toList = offSum tf cs[i].toList + tf x + -offSum tf csib.toList from by
                rw [← hsum2]; abel]
              abel
            refine ⟨?_, ?_, ?_, ?_, ?_, ?_, ?_, ?_, ?_, ?_, ?_⟩
            · refine .internal _ _ hh (fun c hc => ?_)
              rw [hB1] at hc
              rcases (List.mem_insertIdx (by rw [List.length_set]; omega)).mp hc with rfl | hc'
              · exact hshs
              · rcases List.mem_or_eq_of_mem_set hc' with hmem | rfl
                · exact hsh c (List.mem_of_mem_take hmem)
                · exact hshc
            · refine .internal _ _ hh (fun c hc => ?_)
              rw [hshc3] at hc
              exact hsh c (List.mem_of_mem_drop hc)
            · refine .internal _ _ _ ?_ ?_ (fun c hc => ?_)
              · rw [hB1, List.length_insertIdx _ _ (by rw [List.length_set]; omega),
                  List.length_set, hlenTake]
                decide
              · rw [hB1, List.length_insertIdx _ _ (by rw [List.length_set]; omega),
                  List.length_set, hlenTake]
                decide
              · rw [hB1] at hc
                rcases (List.mem_insertIdx (by rw [List.length_set]; omega)).mp hc with rfl | hc'
                · exact hszs
                · rcases List.mem_or_eq_of_mem_set hc' with hmem | rfl
                  · exact hcs c (List.mem_of_mem_take hmem)
                  · exact hszc
            · refine .internal _ _ _ ?_ ?_ (fun c hc => ?_)
              · rw [hshc3, List.length_drop]
                omega
              · rw [hshc3, List.length_drop]
                omega
              · rw [hshc3] at hc
                exact hcs c (List.mem_of_mem_drop hc)
            · rw [len_internal, hB1, List.length_insertIdx _ _ (by rw [List.length_set]; omega),
                List.length_set, hlenTake]
            · rw [len_internal, hshc3, List.length_drop]
              omega
            · rw [len_internal]
              exact hfull
            · refine .internal _ _ ?_ ?_ (fun c hc => ?_)
              · rw [hB1, hB2, hinsB]
                exact hLB
              · rw [hB1, hB2, hinsB]
                exact hVB
              · rw [hB1] at hc
                rcases (List.mem_insertIdx (by rw [List.length_set]; omega)).mp hc with rfl | hc'
                · exact hoffsib
                · rcases List.mem_or_eq_of_mem_set hc' with hmem | rfl
                  · exact hoc c (List.mem_of_mem_take hmem)
                  · exact hoffc
            · refine .internal _ _ ?_ ?_ (fun c hc => ?_)
              · rw [hshc3, hshoB]
                simp
                omega
              · rw [hshc3, hshoB]
                exact hvalD
              · rw [hshc3] at hc
                exact hoc c (List.mem_of_mem_drop hc)
            · rw [toList_internal, hB1, hTB, hfhlB]
              simp only [offSum_append]
              have e1 : offSum tf (NodeRef.toListAll ((cs.take ORDER).take i)) =
                  allSum tf ((cs.take ORDER).take i) := rfl
              have e2 : offSum tf (NodeRef.toListAll ((cs.take ORDER).drop (i + 1))) =
                  allSum tf ((cs.take ORDER).drop (i + 1)) := rfl
              rw [e1, e2, ← hallTake]
              have := hsumTake
              rw [allSum_set tf hiB' c'] at this
              rw [show offSum tf c'.toList =
                  allSum tf (cs.take ORDER) + δ + -offSum tf csib.toList +
                    -allSum tf ((cs.take ORDER).take i) +
                    -allSum tf ((cs.take ORDER).drop (i + 1)) from by
                rw [← this]; abel]
              abel
            · rw [toList_internal, toList_internal, toList_internal, hB1, hshc3, hTB]
              have htk1 : (cs.take ORDER).take i = cs.take i := by
                rw [List.take_take]
                congr 1
                omega
              have hjoin : NodeRef.toListAll ((cs.take ORDER).drop (i + 1)) ++
                  NodeRef.toListAll (cs.drop ORDER) =
                  NodeRef.toListAll (cs.drop (i + 1)) := by
                rw [List.drop_take, ← toListAll_append]
                congr 1
                conv_rhs => rw [← List.take_append_drop (ORDER - (i + 1)) (cs.drop (i + 1))]
                rw [List.drop_drop]
                congr 2
                omega
              have hcnt : cntAll (cs.take i) + p = (NodeRef.toListAll (cs.take i)).length + p := rfl
              rw [htk1, hcnt]
              conv_rhs => rw [toListAll_decomp hi, List.append_assoc,
                insertIdx_append_right, insertIdx_append_left hple]
              rw [← hcatc]
              rw [← hjoin]
              simp [List.append_assoc]
        · rw [if_neg hfull] at heq
          exact absurd heq (by simp)

theorem Shape.zero_leaf {n : NodeRef T O} (h : Shape n 0) : ∃ es, n = .leaf es := by
  cases h
  exact ⟨_, rfl⟩

theorem Shape.succ_internal {n : NodeRef T O} {h : Nat} (hs : Shape n (h + 1)) :
    ∃ offs cs, n = .internal offs cs := by
  cases hs
  exact ⟨_, _, rfl⟩

theorem rootMin_eq_of_shape {n n' : NodeRef T O} {h : Nat}
    (h1 : Shape n h) (h2 : Shape n' h) : rootMin n' = rootMin n := by
  cases h with
  | zero =>
    obtain ⟨es, rfl⟩ := h1.zero_leaf
    obtain ⟨es', rfl⟩ := h2.zero_leaf
    rfl
  | succ h =>
    obtain ⟨o1, c1, rfl⟩ := h1.succ_internal
    obtain ⟨o2, c2, rfl⟩ := h2.succ_internal
    rfl

/-- `insert` preserves well-formedness; the new element appears at the
cursor's flat position; the cached total grows by `to_offset(x)`. -/
theorem insert_ok {r : Rope T O} {at_ : Cursor} {p : Nat} (x : T)
    (hv : Valid tf r) (hp : InsPath at_ r.root p) :
    Valid tf (r.insert tf x at_) ∧
    (r.insert tf x at_).toList = r.toList.insertIdx p x ∧
    (r.insert tf x at_).len = r.len + tf x := by
  obtain ⟨⟨h, hs⟩, hz, ho, hle⟩ := hv
  have M := insert_sub_ok tf x hp hs hz ho
  rcases hres : insert_sub tf at_ r.root x (tf x) with ⟨n', s2⟩
  cases s2 with
  | none =>
    obtain ⟨hs', hz', ho', htl'⟩ := M.1 n' hres
    have hins : r.insert tf x at_ = { root := n', len := r.len + tf x } := by
      rw [Rope.insert, hres]
    rw [hins]
    refine ⟨⟨⟨h, hs'⟩, ?_, ho', ?_⟩, by simpa [Rope.toList] using htl', rfl⟩
    · rw [rootMin_eq_of_shape hs hs']
      exact hz'
    · simp only [Rope.toList] at hle ⊢
      rw [htl', offSum_insertIdx tf hp.le_length, hle]
      abel
  | some s =>
    obtain ⟨sib, retLen⟩ := s
    obtain ⟨hs1, hs2, hz1, hz2, hl1, hl2, hfull, ho1, ho2, hret, hcat⟩ :=
      M.2 n' sib retLen hres
    have hins : r.insert tf x at_ =
        { root := .internal [retLen] [n', sib], len := r.len + tf x } := by
      rw [Rope.insert, hres]
    rw [hins]
    refine ⟨⟨⟨h + 1, ?_⟩, ?_, ?_, ?_⟩, ?_, rfl⟩
    · refine .internal _ _ h (fun c hc => ?_)
      rcases List.mem_cons.mp hc with rfl | hc
      · exact hs1
      · rcases List.mem_cons.mp hc with rfl | hc
        · exact hs2
        · cases hc
    · refine .internal _ _ _ (by simp [rootMin]) (by simp [ORDER]) (fun c hc => ?_)
      rcases List.mem_cons.mp hc with rfl | hc
      · exact hz1
      · rcases List.mem_cons.mp hc with rfl | hc
        · exact hz2
        · cases hc
    · refine .internal _ _ (by simp) ?_ (fun c hc => ?_)
      · intro j hj
        have hj0 : j = 0 := by simpa using hj
        subst hj0
        simpa using hret
      · rcases List.mem_cons.mp hc with rfl | hc
        · exact ho1
        · rcases List.mem_cons.mp hc with rfl | hc
          · exact ho2
          · cases hc
    · simp only [Rope.toList, toList_internal, toListAll_cons, toListAll_nil,
        List.append_nil] at hle ⊢
      rw [hcat, offSum_insertIdx tf hp.le_length, hle]
      abel
    · simp only [Rope.toList, toList_internal, toListAll_cons, toListAll_nil,
        List.append_nil]
      rw [hcat]

theorem SizeMin.le_len {mn : Nat} {n : NodeRef T O} (h : SizeMin mn n) : mn ≤ n.len := by
  cases h with
  | leaf _ _ hmin _ => simpa using hmin
  | internal _ _ _ hmin _ _ => simpa using hmin

theorem SizeMin.len_le {mn : Nat} {n : NodeRef T O} (h : SizeMin mn n) :
    n.len ≤ 2 * ORDER := by
  cases h with
  | leaf _ _ _ hmax => simpa using hmax
  | internal _ _ _ _ hmax _ => simpa using hmax

/-- `begin` is always a valid insertion cursor (flat position 0). -/
theorem begin_insPath {n : NodeRef T O} {h mn : Nat} (hs : Shape n h)
    (hz : SizeMin mn n) (hmn : n.is_internal = true → 1 ≤ mn) :
    InsPath n.begin n 0 := by
  induction hs generalizing mn with
  | leaf es =>
    rw [NodeRef.begin]
    exact .leaf 0 es (by omega)
  | internal offs cs hh hsh ih =>
    cases hz with
    | internal _ _ _ hmin hmax hcs =>
      have h1 : 1 ≤ mn := hmn (by simp [NodeRef.is_internal])
      have hne : cs ≠ [] := by
        intro he
        subst he
        simp at hmin
        omega
      obtain ⟨c, cs', rfl⟩ := List.exists_cons_of_ne_nil hne
      have hc0 : SizeMin ORDER c := hcs c (by simp)
      have hrest : InsPath c.begin c 0 :=
        ih c (by simp) hc0 (fun _ => by simp [ORDER])
      have := InsPath.internal 0 c.begin offs (c :: cs') 0 (by simp)
        (by simpa using hrest)
      simpa [NodeRef.begin] using this

/-- An empty rope is well-formed. -/
theorem valid_new : Valid tf (Rope.new : Rope T O) :=
  ⟨⟨0, .leaf []⟩, .leaf _ _ (by simp [Rope.new, rootMin]) (by simp), .leaf [],
    by simp [Rope.new, Rope.toList]⟩

theorem rootMin_internal_le {n : NodeRef T O} (h : n.is_internal = true) :
    1 ≤ rootMin n := by
  cases n with
  | internal offs cs => simp [rootMin]
  | leaf es => simp [NodeRef.is_internal] at h

/-- `push_back` appends the element at the back. -/
theorem push_back_ok {r : Rope T O} (x : T) (hv : Valid tf r) :
    Valid tf (r.push_back tf x) ∧
    (r.push_back tf x).toList = r.toList ++ [x] ∧
    (r.push_back tf x).len = r.len + tf x := by
  obtain ⟨⟨h, hs⟩, hz, ho, hle⟩ := hv
  have hp : InsPath r.end_cursor r.root r.toList.length :=
    end_cursor_insPath hs hz rootMin_internal_le
  have := insert_ok tf x ⟨⟨h, hs⟩, hz, ho, hle⟩ hp
  rw [Rope.push_back]
  refine ⟨this.1, ?_, this.2.2⟩
  rw [this.2.1, Rope.toList, List.insertIdx_length_self]

/-- `push_front` prepends the element at the front. -/
theorem push_front_ok {r : Rope T O} (x : T) (hv : Valid tf r) :
    Valid tf (r.push_front tf x) ∧
    (r.push_front tf x).toList = x :: r.toList ∧
    (r.push_front tf x).len = r.len + tf x := by
  obtain ⟨⟨h, hs⟩, hz, ho, hle⟩ := hv
  have hp : InsPath r.begin r.root 0 :=
    begin_insPath hs hz rootMin_internal_le
  have := insert_ok tf x ⟨⟨h, hs⟩, hz, ho, hle⟩ hp
  rw [Rope.push_front]
  refine ⟨this.1, ?_, this.2.2⟩
  rw [this.2.1, List.insertIdx_zero]

/-- Building a rope by repeated `push_back` reproduces the list exactly. -/
theorem fromList_ok (l : List T) :
    Valid tf (Rope.fromList tf l : Rope T O) ∧
    (Rope.fromList tf l : Rope T O).toList = l ∧
    (Rope.fromList tf l : Rope T O).len = offSum tf l := by
  have main : ∀ (l : List T) (r : Rope T O), Valid tf r →
      Valid tf (l.foldl (fun r x => r.push_back tf x) r) ∧
      (l.foldl (fun r x => r.push_back tf x) r).toList = r.toList ++ l ∧
      (l.foldl (fun r x => r.push_back tf x) r).len = r.len + offSum tf l := by
    intro l
    induction l with
    | nil =>
      intro r hv
      refine ⟨hv, by simp, by simp⟩
    | cons a t ih =>
      intro r hv
      obtain ⟨hv1, ht1, hl1⟩ := push_back_ok tf a hv
      obtain ⟨hv2, ht2, hl2⟩ := ih (r.push_back tf a) hv1
      refine ⟨hv2, ?_, ?_⟩
      · rw [List.foldl_cons, ht2, ht1]
        simp
      · rw [List.foldl_cons, hl2, hl1]
        rw [offSum_cons]
        abel
  obtain ⟨h1, h2, h3⟩ := main l Rope.new (valid_new tf)
  refine ⟨h1, ?_, ?_⟩
  · rw [Rope.fromList, h2]
    simp [Rope.new, Rope.toList]
  · rw [Rope.fromList, h3]
    simp [Rope.new]

end Master

/-- **C4** — Order preservation / round-trip: `insert` places the new element
at exactly the cursor's logical position, `push_back`/`push_front`
append/prepend, and building a rope from any finite list `L` by repeated
`push_back` and then iterating front-to-back reproduces `L` exactly (in
particular for `L` of every length, covering 0, 1, `ORDER`, `2*ORDER-1`,
`2*ORDER`, `2*ORDER+1` and several hundred elements). -/
theorem C4_order_roundtrip [AddCommGroup O] (tf : T → O) :
    (∀ (r : Rope T O) (at_ : Cursor) (p : Nat) (x : T),
      Valid tf r → InsPath at_ r.root p →
      (r.insert tf x at_).toList = r.toList.insertIdx p x) ∧
    (∀ (r : Rope T O) (x : T), Valid tf r →
      (r.push_back tf x).toList = r.toList ++ [x]) ∧
    (∀ (r : Rope T O) (x : T), Valid tf r →
      (r.push_front tf x).toList = x :: r.toList) ∧
    (∀ l : List T, (Rope.fromList tf l : Rope T O).toList = l) := by
  refine ⟨?_, ?_, ?_, ?_⟩
  · intro r at_ p x hv hp
    exact (insert_ok tf x hv hp).2.1
  · intro r x hv
    exact (push_back_ok tf x hv).2.1
  · intro r x hv
    exact (push_front_ok tf x hv).2.1
  · intro l
    exact (fromList_ok tf l).2.1

/-- Witness for `C4_order_roundtrip`: a concrete insertion into the empty
rope and a concrete three-element round trip. -/
theorem C4_witness :
    ((Rope.new : Rope Int Int).insert (fun n => n) 7 [0]).toList =
      (Rope.new : Rope Int Int).toList.insertIdx 0 7 ∧
    (Rope.fromList (fun n : Int => n) [5, 6, 7] : Rope Int Int).toList = [5, 6, 7] :=
  ⟨(C4_order_roundtrip (fun n : Int => n)).1 Rope.new [0] 0 7 (valid_new _)
      (InsPath.leaf 0 [] (by decide)),
    (C4_order_roundtrip (fun n : Int => n)).2.2.2 [5, 6, 7]⟩

/-- **C9** — Insertion never overflows node capacity: starting from a
well-formed rope, insertion keeps every node within `2*ORDER`
elements/children (so the fixed-capacity arrays never overflow), and at any
node of a well-formed tree `insert_sub` only splits when the node is exactly
full, producing two halves holding between `ORDER` and `ORDER + 1` entries
each. -/
theorem C9_insert_capacity [AddCommGroup O] (tf : T → O) :
    (∀ (r : Rope T O) (at_ : Cursor) (p : Nat) (x : T),
      Valid tf r → InsPath at_ r.root p → Valid tf (r.insert tf x at_)) ∧
    (∀ (n : NodeRef T O) (path : Cursor) (p h : Nat) (x : T),
      Shape n h → InsPath path n p → SizeMin ORDER n → OffsetsOk tf n →
      (∀ n', insert_sub tf path n x (tf x) = (n', none) → n'.len ≤ 2 * ORDER) ∧
      (∀ n' sib retLen, insert_sub tf path n x (tf x) = (n', some (sib, retLen)) →
        n.len = 2 * ORDER ∧
        ORDER ≤ n'.len ∧ n'.len ≤ ORDER + 1 ∧
        ORDER ≤ sib.len ∧ sib.len ≤ ORDER + 1)) := by
  refine ⟨?_, ?_⟩
  · intro r at_ p x hv hp
    exact (insert_ok tf x hv hp).1
  · intro n path p h x hs hp hz ho
    have M := insert_sub_ok tf x hp hs hz ho
    refine ⟨?_, ?_⟩
    · intro n' heq
      exact (M.1 n' heq).2.1.len_le
    · intro n' sib retLen heq
      obtain ⟨-, -, hz1, hz2, hl1, hl2, hfull, -⟩ := M.2 n' sib retLen heq
      exact ⟨hfull, hz1.le_len, hl1, hz2.le_len, hl2⟩

/-- Witness for `C9_insert_capacity`: inserting into a full 16-element leaf
splits it into two halves of sizes 9 and 8. -/
theorem C9_witness :
    ((Rope.new : Rope Int Int).insert (fun n => n) 7 [0]).toList.length ≤ 2 * ORDER ∧
    (∀ n' sib retLen,
      insert_sub (fun n : Int => n) [3]
          (.leaf ((List.range 16).map (fun n => (n : Int)))) 99 99 =
        (n', some (sib, retLen)) →
      (NodeRef.leaf ((List.range 16).map (fun n => (n : Int))) :
          NodeRef Int Int).len = 2 * ORDER ∧
      ORDER ≤ n'.len ∧ n'.len ≤ ORDER + 1 ∧ ORDER ≤ sib.len ∧ sib.len ≤ ORDER + 1) := by
  constructor
  · decide
  · have h := (C9_insert_capacity (fun n : Int => n)).2
      (.leaf ((List.range 16).map (fun n => (n : Int)))) [3] 3 0 99
      (.leaf _) (InsPath.leaf 3 _ (by decide))
      (.leaf _ _ (by decide) (by decide)) (.leaf _)
    exact h.2

/-! ## Removal lemmas -/

theorem set_append_of_le {α : Type _} {l1 l2 : List α} {n : Nat}
    (h : l1.length ≤ n) (a : α) :
    (l1 ++ l2).set n a = l1 ++ l2.set (n - l1.length) a := by
  induction l1 generalizing n with
  | nil => simp
  | cons x xs ih =>
    cases n with
    | zero => simp at h
    | succ n =>
      simp only [List.cons_append, List.set_cons_succ, List.length_cons]
      rw [show n + 1 - (xs.length + 1) = n - xs.length by omega]
      rw [ih (by simpa using h)]

theorem set_set_adjacent {α : Type _} {l : List α} {k : Nat}
    (hk : k + 1 < l.length) (a b : α) :
    (l.set k a).set (k + 1) b =
      l.take k ++ a :: b :: l.drop (k + 2) := by
  have hk0 : k < l.length := by omega
  rw [List.set_eq_take_cons_drop a hk0]
  rw [List.drop_eq_getElem_cons (by omega : k + 1 < l.length)]
  rw [set_append_of_le (by simp) b]
  have h1 : k + 1 - (l.take k).length = 1 := by simp; omega
  rw [h1]
  rfl

theorem set_eraseIdx_adjacent {α : Type _} {l : List α} {k : Nat}
    (hk : k + 1 < l.length) (a : α) :
    (l.set k a).eraseIdx (k + 1) =
      l.take k ++ a :: l.drop (k + 2) := by
  have hk0 : k < l.length := by omega
  rw [List.set_eq_take_cons_drop a hk0]
  rw [List.drop_eq_getElem_cons (by omega : k + 1 < l.length)]
  rw [List.eraseIdx_eq_take_drop_succ]
  have h1 : (l.take k ++ a :: l[k + 1] :: l.drop (k + 2)).take (k + 1) =
      l.take k ++ [a] := by
    rw [List.take_append_eq_append_take, List.take_of_length_le (by simp)]
    congr 1
    have h3 : k + 1 - (l.take k).length = 1 := by simp; omega
    rw [h3]
    rfl
  have h2 : (l.take k ++ a :: l[k + 1] :: l.drop (k + 2)).drop (k + 2) =
      l.drop (k + 2) := by
    rw [List.drop_append_eq_append_drop, List.drop_of_length_le (by simp)]
    have h4 : k + 2 - (l.take k).length = 2 := by simp; omega
    rw [h4]
    rfl
  rw [h1, h2, List.append_assoc]
  rfl

theorem cons2_decomp {α : Type _} {l : List α} {k : Nat} (hk : k + 1 < l.length) :
    l = l.take k ++ l[k] :: l[k + 1] :: l.drop (k + 2) := by
  conv_lhs => rw [← List.take_append_drop k l,
    List.drop_eq_getElem_cons (show k < l.length by omega),
    List.drop_eq_getElem_cons (show k + 1 < l.length from hk)]

theorem eraseIdx_append_middle {α : Type _} (A : List α) {Bl : List α}
    (C : List α) {q : Nat} (hq : q < Bl.length) :
    (A ++ Bl ++ C).eraseIdx (A.length + q) =
      A ++ Bl.eraseIdx q ++ C := by
  induction A with
  | nil => simpa using List.eraseIdx_append_of_lt_length hq C
  | cons a A ih =>
    simp only [List.cons_append, List.length_cons]
    rw [show A.length + 1 + q = (A.length + q) + 1 by omega]
    rw [List.eraseIdx_cons_succ, ih]

theorem take_one_eq {α : Type _} {l : List α} (h : 0 < l.length) :
    l.take 1 = [l[0]] := by
  cases l with
  | nil => simp at h
  | cons a l => rfl

theorem take_succ_eq {α : Type _} {l : List α} {k : Nat} (h : k < l.length) :
    l.take (k + 1) = l.take k ++ [l[k]] := by
  rw [List.take_succ, List.getElem?_eq_getElem h]
  rfl

section RemoveLemmas

variable [AddCommGroup O] (tf : T → O)

theorem offSum_eraseIdx {l : List T} {p : Nat} {e : T} (he : l[p]? = some e) :
    offSum (O := O) tf (l.eraseIdx p) = offSum tf l + -tf e := by
  obtain ⟨hp, rfl⟩ := List.getElem?_eq_some.mp he
  have hdec : l = l.take p ++ l[p] :: l.drop (p + 1) := by
    conv_lhs => rw [← List.take_append_drop p l, List.drop_eq_getElem_cons hp]
  have h2 : offSum (O := O) tf l =
      offSum tf (l.take p) + (tf l[p] + offSum tf (l.drop (p + 1))) := by
    conv_lhs => rw [hdec]
    simp only [offSum_append, offSum_cons]
  rw [List.eraseIdx_eq_take_drop_succ, h2, offSum_append]
  abel

/-- Correctness of `rotate_right`: moving the last child of `left` to the
front of `right` preserves the element sequence, keeps both invariants, and
reports the offset of the moved child. -/
theorem rotate_right_ok {left right : NodeRef T O} {hh : Nat} {left_len : O}
    (hsL : Shape left hh) (hsR : Shape right hh)
    (hoL : OffsetsOk tf left) (hoR : OffsetsOk tf right)
    (hzL : SizeMin 0 left) (hzR : SizeMin 0 right)
    (hlen2 : 2 ≤ left.len) (hmaxR : right.len < 2 * ORDER)
    (hll : left_len = offSum tf left.toList) :
    ∃ left' right' moved,
      rotate_right tf left right left_len = some (left', right', moved) ∧
      left'.toList ++ right'.toList = left.toList ++ right.toList ∧
      left'.len = left.len - 1 ∧ right'.len = right.len + 1 ∧
      Shape left' hh ∧ Shape right' hh ∧
      OffsetsOk tf left' ∧ OffsetsOk tf right' ∧
      SizeMin 0 left' ∧ SizeMin 0 right' ∧
      offSum tf left'.toList = offSum tf left.toList + -moved := by
  cases hh with
  | zero =>
    obtain ⟨es1, rfl⟩ := hsL.zero_leaf
    obtain ⟨es2, rfl⟩ := hsR.zero_leaf
    have hne : es1 ≠ [] := by
      intro he
      subst he
      simp at hlen2
    have hlast : es1.getLast? = some (es1.getLast hne) :=
      List.getLast?_eq_getLast es1 hne
    cases hzL with
    | leaf _ _ hmin1 hmax1 =>
    cases hzR with
    | leaf _ _ hmin2 hmax2 =>
    refine ⟨.leaf es1.dropLast, .leaf (es1.getLast hne :: es2), tf (es1.getLast hne),
      ?_, ?_, ?_, ?_, .leaf _, .leaf _, .leaf _, .leaf _, ?_, ?_, ?_⟩
    · simp only [rotate_right]
      rw [hlast]
    · simp only [toList_leaf]
      conv_rhs => rw [show es1 = es1.dropLast ++ [es1.getLast hne] from
        (List.dropLast_append_getLast hne).symm]
      simp
    · simp only [len_leaf, List.length_dropLast]
    · simp only [len_leaf, List.length_cons]
    · exact .leaf 0 _ (by omega) (by simp; simp only [len_leaf] at hlen2 hmax1; omega)
    · exact .leaf 0 _ (by omega)
        (by simp only [List.length_cons]; simp only [len_leaf] at hmaxR; omega)
    · simp only [toList_leaf]
      have h2 : offSum (O := O) tf es1 =
          offSum tf es1.dropLast + tf (es1.getLast hne) := by
        conv_lhs => rw [← List.dropLast_append_getLast hne]
        simp
      rw [h2]
      abel
  | succ hh =>
    obtain ⟨o1, c1, rfl⟩ := hsL.succ_internal
    obtain ⟨o2, c2, rfl⟩ := hsR.succ_internal
    cases hoL with
    | internal _ _ hlen1 hval1 hoc1 =>
    cases hoR with
    | internal _ _ hlen2r hval2 hoc2 =>
    cases hsL with
    | internal _ _ _ hsh1 =>
    cases hsR with
    | internal _ _ _ hsh2 =>
    cases hzL with
    | internal _ _ _ hmin1 hmax1 hsc1 =>
    cases hzR with
    | internal _ _ _ hmin2 hmax2 hsc2 =>
    have hc1len : 2 ≤ c1.length := by simpa using hlen2
    have ho1ne : o1 ≠ [] := by
      intro he
      rw [he] at hlen1
      simp at hlen1
      omega
    have hc1ne : c1 ≠ [] := by
      intro he
      rw [he] at hc1len
      simp at hc1len
    have hlasto : o1.getLast? = some (o1.getLast ho1ne) :=
      List.getLast?_eq_getLast o1 ho1ne
    have hlastc : c1.getLast? = some (c1.getLast hc1ne) :=
      List.getLast?_eq_getLast c1 hc1ne
    set ol := o1.getLast ho1ne with hol
    set cl := c1.getLast hc1ne with hcl
    have hcdecomp : c1.dropLast ++ [cl] = c1 := List.dropLast_append_getLast hc1ne
    have hdropTake : c1.dropLast = c1.take (c1.length - 1) := List.dropLast_eq_take c1
    have ho1c1 : o1.length = c1.length - 1 := by omega
    have holval : ol = allSum tf (c1.take (c1.length - 1)) := by
      rw [hol, List.getLast_eq_getElem]
      rw [hval1 (o1.length - 1) (by omega)]
      congr 2
      omega
    have hllv : left_len = allSum tf c1 := by
      rw [hll]
      simp only [toList_internal]
      rfl
    have hsplit : allSum tf c1 = allSum tf c1.dropLast + offSum tf cl.toList := by
      conv_lhs => rw [← hcdecomp]
      simp only [allSum_append, allSum_cons, allSum_nil]
      abel
    have hmoved : left_len + -ol = offSum tf cl.toList := by
      rw [hllv, holval, ← hdropTake, hsplit]
      abel
    refine ⟨.internal o1.dropLast c1.dropLast,
      .internal ((left_len + -ol) :: o2.map (· + (left_len + -ol))) (cl :: c2),
      left_len + -ol, ?_, ?_, ?_, ?_, ?_, ?_, ?_, ?_, ?_, ?_, ?_⟩
    · simp only [rotate_right]
      rw [hlasto, hlastc]
    · simp only [toList_internal, toListAll_cons]
      conv_rhs => rw [show c1 = c1.dropLast ++ [cl] from hcdecomp.symm]
      simp
    · simp only [len_internal, List.length_dropLast]
    · simp only [len_internal, List.length_cons]
    · exact .internal _ _ hh (fun c hc => hsh1 c (List.dropLast_subset c1 hc))
    · refine .internal _ _ hh (fun c hc => ?_)
      rcases List.mem_cons.mp hc with h | h
      · subst h
        exact hsh1 _ (List.getLast_mem hc1ne)
      · exact hsh2 c h
    · refine .internal _ _ ?_ ?_ (fun c hc => hoc1 c (List.dropLast_subset c1 hc))
      · simp only [List.length_dropLast]
        omega
      · intro j hj
        have hj1 : j < o1.length - 1 := by simpa using hj
        rw [List.getElem_dropLast, hval1 j (by omega), hdropTake, List.take_take]
        congr 2
        omega
    · refine .internal _ _ ?_ ?_ (fun c hc => ?_)
      · simp only [List.length_cons, List.length_map]
        omega
      · intro j hj
        match j with
        | 0 =>
          rw [List.getElem_cons_zero, hmoved, take_one_eq (by simp)]
          simp
        | jj + 1 =>
          have hjj : jj < o2.length := by simpa using hj
          rw [List.getElem_cons_succ, List.getElem_map, hval2 jj hjj]
          rw [show (cl :: c2).take (jj + 1 + 1) = cl :: c2.take (jj + 1) from rfl]
          rw [allSum_cons, hmoved]
          abel
      · rcases List.mem_cons.mp hc with h | h
        · subst h
          exact hoc1 _ (List.getLast_mem hc1ne)
        · exact hoc2 c h
    · refine .internal _ _ _ (by omega) ?_
        (fun c hc => hsc1 c (List.dropLast_subset c1 hc))
      have hdl := List.length_dropLast c1
      omega
    · refine .internal _ _ _ (by omega) ?_ (fun c hc => ?_)
      · simp only [List.length_cons]
        simp only [len_internal] at hmaxR
        omega
      · rcases List.mem_cons.mp hc with h | h
        · subst h
          exact hsc1 _ (List.getLast_mem hc1ne)
        · exact hsc2 c h
    · simp only [toList_internal]
      show allSum tf c1.dropLast = allSum tf c1 + -(left_len + -ol)
      rw [hsplit, hmoved]
      abel

/-- Correctness of `rotate_left`: moving the first child of `right` to the
back of `left` preserves the element sequence, keeps both invariants, and
reports the offset of the moved child. -/
theorem rotate_left_ok {left right : NodeRef T O} {hh : Nat} {left_len : O}
    (hsL : Shape left hh) (hsR : Shape right hh)
    (hoL : OffsetsOk tf left) (hoR : OffsetsOk tf right)
    (hzL : SizeMin 0 left) (hzR : SizeMin 0 right)
    (hlenR : 2 ≤ right.len) (hmaxL : left.len < 2 * ORDER)
    (hll : left_len = offSum tf left.toList) :
    ∃ left' right' moved,
      rotate_left tf left right left_len = some (left', right', moved) ∧
      left'.toList ++ right'.toList = left.toList ++ right.toList ∧
      left'.len = left.len + 1 ∧ right'.len = right.len - 1 ∧
      Shape left' hh ∧ Shape right' hh ∧
      OffsetsOk tf left' ∧ OffsetsOk tf right' ∧
      SizeMin 0 left' ∧ SizeMin 0 right' ∧
      offSum tf left'.toList = offSum tf left.toList + moved := by
  cases hh with
  | zero =>
    obtain ⟨es1, rfl⟩ := hsL.zero_leaf
    obtain ⟨es2, rfl⟩ := hsR.zero_leaf
    cases hzL with
    | leaf _ _ hmin1 hmax1 =>
    cases hzR with
    | leaf _ _ hmin2 hmax2 =>
    cases es2 with
    | nil => simp at hlenR
    | cons e rest =>
      refine ⟨.leaf (es1 ++ [e]), .leaf rest, tf e, rfl, ?_, ?_, ?_,
        .leaf _, .leaf _, .leaf _, .leaf _, ?_, ?_, ?_⟩
      · simp
      · simp
      · simp
      · refine .leaf 0 _ (by omega) ?_
        simp only [List.length_append, List.length_singleton]
        simp only [len_leaf] at hmaxL
        omega
      · refine .leaf 0 _ (by omega) ?_
        simp only [List.length_cons] at hmax2
        omega
      · simp
  | succ hh =>
    obtain ⟨o1, c1, rfl⟩ := hsL.succ_internal
    obtain ⟨o2, c2, rfl⟩ := hsR.succ_internal
    cases hoL with
    | internal _ _ hlen1 hval1 hoc1 =>
    cases hoR with
    | internal _ _ hlen2r hval2 hoc2 =>
    cases hsL with
    | internal _ _ _ hsh1 =>
    cases hsR with
    | internal _ _ _ hsh2 =>
    cases hzL with
    | internal _ _ _ hmin1 hmax1 hsc1 =>
    cases hzR with
    | internal _ _ _ hmin2 hmax2 hsc2 =>
    have hc2len : 2 ≤ c2.length := by simpa using hlenR
    cases o2 with
    | nil =>
      simp at hlen2r
      omega
    | cons len0 orest =>
    cases c2 with
    | nil => simp at hc2len
    | cons e crest =>
    have hlen0 : len0 = offSum tf e.toList := by
      have h0 := hval2 0 (by simp)
      simp only [List.getElem_cons_zero] at h0
      rw [h0]
      show allSum tf [e] = offSum tf e.toList
      simp
    have hllv : left_len = allSum tf c1 := by
      rw [hll]
      simp only [toList_internal]
      rfl
    refine ⟨.internal (o1 ++ [left_len]) (c1 ++ [e]),
      .internal (orest.map (· + -len0)) crest, len0, rfl, ?_, ?_, ?_,
      ?_, ?_, ?_, ?_, ?_, ?_, ?_⟩
    · simp only [toList_internal, toListAll_append, toListAll_cons, toListAll_nil]
      simp [List.append_assoc]
    · simp
    · simp
    · refine .internal _ _ hh (fun c hc => ?_)
      rcases List.mem_append.mp hc with h | h
      · exact hsh1 c h
      · rw [List.mem_singleton.mp h]
        exact hsh2 e (by simp)
    · exact .internal _ _ hh (fun c hc => hsh2 c (List.mem_cons_of_mem e hc))
    · refine .internal _ _ ?_ ?_ (fun c hc => ?_)
      · simp only [List.length_append, List.length_singleton]
        omega
      · intro j hj
        have hj1 : j < o1.length + 1 := by simpa using hj
        by_cases hcase : j < o1.length
        · rw [List.getElem_append_left hcase, hval1 j hcase,
            List.take_append_of_le_length (by omega)]
        · have hje : j = o1.length := by omega
          subst hje
          rw [List.getElem_append_right (Nat.le_refl _)]
          simp only [Nat.sub_self, List.getElem_singleton]
          rw [hllv, List.take_append_of_le_length (by omega),
            List.take_of_length_le (by omega)]
      · rcases List.mem_append.mp hc with h | h
        · exact hoc1 c h
        · rw [List.mem_singleton.mp h]
          exact hoc2 e (by simp)
    · refine .internal _ _ ?_ ?_
        (fun c hc => hoc2 c (List.mem_cons_of_mem e hc))
      · simp only [List.length_map]
        simp only [List.length_cons] at hlen2r
        omega
      · intro j hj
        have hj1 : j < orest.length := by simpa using hj
        rw [List.getElem_map]
        have h2 := hval2 (j + 1) (by simp; omega)
        simp only [List.getElem_cons_succ] at h2
        rw [h2, show (e :: crest).take (j + 1 + 1) = e :: crest.take (j + 1) from rfl,
          allSum_cons, hlen0]
        abel
    · refine .internal _ _ _ (by omega) ?_ (fun c hc => ?_)
      · simp only [List.length_append, List.length_singleton]
        simp only [len_internal] at hmaxL
        omega
      · rcases List.mem_append.mp hc with h | h
        · exact hsc1 c h
        · rw [List.mem_singleton.mp h]
          exact hsc2 e (by simp)
    · refine .internal _ _ _ (by omega) ?_
        (fun c hc => hsc2 c (List.mem_cons_of_mem e hc))
      simp only [List.length_cons] at hmax2
      omega
    · simp only [toList_internal]
      show allSum tf (c1 ++ [e]) = allSum tf c1 + len0
      rw [allSum_append, allSum_cons, allSum_nil, hlen0]
      abel

/-- Correctness of `rotate_left_full` (the merge step): the merged node holds
both element sequences in order and keeps the invariants. -/
theorem rotate_full_ok {left right : NodeRef T O} {hh : Nat} {left_len : O}
    (hsL : Shape left hh) (hsR : Shape right hh)
    (hoL : OffsetsOk tf left) (hoR : OffsetsOk tf right)
    (hzL : SizeMin 0 left) (hzR : SizeMin 0 right)
    (hsum : left.len + right.len ≤ 2 * ORDER)
    (hll : left_len = offSum tf left.toList) :
    ∃ merged,
      rotate_left_full left right left_len = some merged ∧
      merged.toList = left.toList ++ right.toList ∧
      merged.len = left.len + right.len ∧
      Shape merged hh ∧ OffsetsOk tf merged ∧ SizeMin 0 merged := by
  cases hh with
  | zero =>
    obtain ⟨es1, rfl⟩ := hsL.zero_leaf
    obtain ⟨es2, rfl⟩ := hsR.zero_leaf
    cases hzL with
    | leaf _ _ hmin1 hmax1 =>
    cases hzR with
    | leaf _ _ hmin2 hmax2 =>
    refine ⟨.leaf (es1 ++ es2), rfl, by simp, by simp, .leaf _, .leaf _, ?_⟩
    refine .leaf 0 _ (by omega) ?_
    simp only [List.length_append]
    simp only [len_leaf] at hsum
    omega
  | succ hh =>
    obtain ⟨o1, c1, rfl⟩ := hsL.succ_internal
    obtain ⟨o2, c2, rfl⟩ := hsR.succ_internal
    cases hoL with
    | internal _ _ hlen1 hval1 hoc1 =>
    cases hoR with
    | internal _ _ hlen2r hval2 hoc2 =>
    cases hsL with
    | internal _ _ _ hsh1 =>
    cases hsR with
    | internal _ _ _ hsh2 =>
    cases hzL with
    | internal _ _ _ hmin1 hmax1 hsc1 =>
    cases hzR with
    | internal _ _ _ hmin2 hmax2 hsc2 =>
    have hllv : left_len = allSum tf c1 := by
      rw [hll]
      simp only [toList_internal]
      rfl
    refine ⟨.internal (o1 ++ left_len :: o2.map (· + left_len)) (c1 ++ c2),
      rfl, by simp, by simp, ?_, ?_, ?_⟩
    · refine .internal _ _ hh (fun c hc => ?_)
      rcases List.mem_append.mp hc with h | h
      · exact hsh1 c h
      · exact hsh2 c h
    · refine .internal _ _ ?_ ?_ (fun c hc => ?_)
      · simp only [List.length_append, List.length_cons, List.length_map]
        omega
      · intro j hj
        have hj1 : j < o1.length + (o2.length + 1) := by simpa using hj
        by_cases hcase : j < o1.length
        · rw [List.getElem_append_left hcase, hval1 j hcase,
            List.take_append_of_le_length (by omega)]
        · have h2 : o1.length ≤ j := by omega
          obtain ⟨d, rfl⟩ : ∃ d, j = o1.length + d := ⟨j - o1.length, by omega⟩
          rw [List.getElem_append_right h2]
          simp only [Nat.add_sub_cancel_left]
          cases d with
          | zero =>
            simp only [List.getElem_cons_zero]
            rw [hllv, List.take_append_of_le_length (by omega),
              List.take_of_length_le (by omega)]
          | succ dd =>
            simp only [List.getElem_cons_succ, List.getElem_map]
            have hdd : dd < o2.length := by omega
            rw [hval2 dd hdd]
            have htk : (c1 ++ c2).take (o1.length + (dd + 1) + 1) =
                c1 ++ c2.take (dd + 1) := by
              rw [List.take_append_eq_append_take,
                List.take_of_length_le (by omega)]
              congr 2
              omega
            rw [htk, allSum_append, hllv]
            abel
      · rcases List.mem_append.mp hc with h | h
        · exact hoc1 c h
        · exact hoc2 c h
    · refine .internal _ _ _ (by omega) ?_ (fun c hc => ?_)
      · simp only [List.length_append]
        simp only [len_internal] at hsum
        omega
      · rcases List.mem_append.mp hc with h | h
        · exact hsc1 c h
        · exact hsc2 c h

/-- The `left_len` computed by `remove_sub`'s rebalancing branch (from the
already-updated parent offsets) is the total offset of child `k`. -/
theorem left_len_val {offs1 : List O} {cs1 : List (NodeRef T O)} {k : Nat}
    (hk1 : k + 1 < cs1.length)
    (hlen : offs1.length + 1 = cs1.length)
    (hval : ∀ (j : Nat) (hj : j < offs1.length),
      offs1[j] = allSum tf (cs1.take (j + 1))) :
    (if k = 0 then offs1.getD 0 0 else offs1.getD k 0 + -offs1.getD (k - 1) 0) =
      offSum tf ((cs1[k]).toList) := by
  have hko : k < offs1.length := by omega
  by_cases hk0 : k = 0
  · subst hk0
    rw [if_pos rfl, List.getD_eq_getElem _ _ hko, hval 0 hko,
      take_one_eq (by omega)]
    simp
  · rw [if_neg hk0, List.getD_eq_getElem _ _ hko,
      List.getD_eq_getElem _ _ (show k - 1 < offs1.length by omega),
      hval k hko, hval (k - 1) (by omega)]
    rw [show k - 1 + 1 = k by omega]
    rw [take_succ_eq (show k < cs1.length by omega)]
    rw [allSum_append, allSum_cons, allSum_nil]
    abel

/-- Replacing children `k` and `k + 1` by a pair with the same concatenated
elements, and bumping `offsets[k]` by the displacement of the boundary,
preserves the parent's element sequence and offsets invariant. -/
theorem pair_rebalance_ok {offs1 : List O} {cs1 : List (NodeRef T O)} {k : Nat}
    {left' right' : NodeRef T O} {d : O}
    (hk1 : k + 1 < cs1.length)
    (hlen : offs1.length + 1 = cs1.length)
    (hval : ∀ (j : Nat) (hj : j < offs1.length),
      offs1[j] = allSum tf (cs1.take (j + 1)))
    (hcat : left'.toList ++ right'.toList =
      (cs1[k]).toList ++ (cs1[k + 1]).toList)
    (hd : offSum tf left'.toList = offSum tf ((cs1[k]).toList) + d) :
    NodeRef.toListAll ((cs1.set k left').set (k + 1) right') =
      NodeRef.toListAll cs1 ∧
    ∀ (j : Nat) (hj : j < (offs1.set k (offs1.getD k 0 + d)).length),
      (offs1.set k (offs1.getD k 0 + d))[j] =
        allSum tf (((cs1.set k left').set (k + 1) right').take (j + 1)) := by
  have hk0 : k < cs1.length := by omega
  have hko : k < offs1.length := by omega
  have hset := set_set_adjacent hk1 left' right'
  have hdec := cons2_decomp hk1
  have hA : (cs1.take k).length = k := by
    rw [List.length_take]
    omega
  have hsum2 : offSum tf left'.toList + offSum tf right'.toList =
      offSum tf (cs1[k]).toList + offSum tf (cs1[k + 1]).toList := by
    have h := congrArg (offSum (O := O) tf) hcat
    simpa [offSum_append] using h
  constructor
  · rw [hset]
    conv_rhs => rw [hdec]
    simp only [toListAll_append, toListAll_cons]
    have h5 : left'.toList ++ (right'.toList ++
        NodeRef.toListAll (cs1.drop (k + 2))) =
        (cs1[k]).toList ++ ((cs1[k + 1]).toList ++
          NodeRef.toListAll (cs1.drop (k + 2))) := by
      rw [← List.append_assoc, hcat, List.append_assoc]
    rw [h5]
  · intro j hj
    have hj' : j < offs1.length := by simpa using hj
    rw [hset]
    by_cases hcase : j < k
    · rw [List.getElem_set_ne (by omega), hval j hj']
      rw [List.take_append_of_le_length (by omega), List.take_take,
        Nat.min_eq_left (by omega)]
    · by_cases hcase2 : j = k
      · subst hcase2
        rw [List.getElem_set_self (by simpa using hko)]
        rw [List.getD_eq_getElem _ _ hko, hval j hko]
        have htk : (cs1.take j ++ left' :: right' :: cs1.drop (j + 2)).take (j + 1) =
            cs1.take j ++ [left'] := by
          rw [List.take_append_eq_append_take, List.take_of_length_le (by omega)]
          congr 1
          rw [show j + 1 - (cs1.take j).length = 1 by omega]
          rfl
        rw [htk, allSum_append, allSum_cons, allSum_nil]
        rw [take_succ_eq hk0, allSum_append, allSum_cons, allSum_nil, hd]
        abel
      · have hgt : k < j := by omega
        rw [List.getElem_set_ne (by omega), hval j hj']
        have htk : (cs1.take k ++ left' :: right' :: cs1.drop (k + 2)).take (j + 1) =
            cs1.take k ++ left' :: right' :: (cs1.drop (k + 2)).take (j - 1 - k) := by
          rw [List.take_append_eq_append_take, List.take_of_length_le (by omega)]
          congr 1
          rw [show j + 1 - (cs1.take k).length = (j - 1 - k) + 2 by omega]
          rfl
        have htk2 : cs1.take (j + 1) =
            cs1.take k ++ (cs1[k]) :: (cs1[k + 1]) ::
              (cs1.drop (k + 2)).take (j - 1 - k) := by
          conv_lhs => rw [hdec]
          rw [List.take_append_eq_append_take, List.take_of_length_le (by omega)]
          congr 1
          rw [show j + 1 - (cs1.take k).length = (j - 1 - k) + 2 by omega]
          rfl
        rw [htk, htk2]
        simp only [allSum_append, allSum_cons]
        have h6 : offSum tf left'.toList + (offSum tf right'.toList +
            allSum tf ((cs1.drop (k + 2)).take (j - 1 - k))) =
            offSum tf (cs1[k]).toList + (offSum tf (cs1[k + 1]).toList +
              allSum tf ((cs1.drop (k + 2)).take (j - 1 - k))) := by
          rw [← add_assoc, ← add_assoc, hsum2]
        rw [h6]

/-- Merging children `k` and `k + 1` into one node with the same concatenated
elements, and deleting `offsets[k]`, preserves the parent's element sequence
and offsets invariant. -/
theorem merge_rebalance_ok {offs1 : List O} {cs1 : List (NodeRef T O)} {k : Nat}
    {merged : NodeRef T O}
    (hk1 : k + 1 < cs1.length)
    (hlen : offs1.length + 1 = cs1.length)
    (hval : ∀ (j : Nat) (hj : j < offs1.length),
      offs1[j] = allSum tf (cs1.take (j + 1)))
    (hcat : merged.toList =
      (cs1[k]).toList ++ (cs1[k + 1]).toList) :
    NodeRef.toListAll ((cs1.set k merged).eraseIdx (k + 1)) =
      NodeRef.toListAll cs1 ∧
    (offs1.eraseIdx k).length + 1 = ((cs1.set k merged).eraseIdx (k + 1)).length ∧
    ∀ (j : Nat) (hj : j < (offs1.eraseIdx k).length),
      (offs1.eraseIdx k)[j] =
        allSum tf (((cs1.set k merged).eraseIdx (k + 1)).take (j + 1)) := by
  have hk0 : k < cs1.length := by omega
  have hko : k < offs1.length := by omega
  have hset := set_eraseIdx_adjacent hk1 merged
  have hdec := cons2_decomp hk1
  have hA : (cs1.take k).length = k := by
    rw [List.length_take]
    omega
  have hAo : (offs1.take k).length = k := by
    rw [List.length_take]
    omega
  have hL1 : (offs1.eraseIdx k).length = offs1.length - 1 := by
    rw [List.eraseIdx_eq_take_drop_succ, List.length_append, List.length_take,
      List.length_drop]
    omega
  have hsum2 : offSum tf merged.toList =
      offSum tf (cs1[k]).toList + offSum tf (cs1[k + 1]).toList := by
    rw [hcat, offSum_append]
  refine ⟨?_, ?_, ?_⟩
  · rw [hset]
    conv_rhs => rw [hdec]
    simp only [toListAll_append, toListAll_cons]
    have h5 : merged.toList ++ NodeRef.toListAll (cs1.drop (k + 2)) =
        (cs1[k]).toList ++ ((cs1[k + 1]).toList ++
          NodeRef.toListAll (cs1.drop (k + 2))) := by
      rw [hcat, List.append_assoc]
    rw [h5]
  · rw [hset, hL1, List.length_append, List.length_cons, List.length_drop, hA]
    omega
  · intro j hj
    have hj' : j < offs1.length - 1 := by rwa [hL1] at hj
    rw [hset]
    rw [List.getElem_of_eq (List.eraseIdx_eq_take_drop_succ offs1 k) hj]
    by_cases hcase : j < k
    · rw [List.getElem_append_left (by omega), List.getElem_take, hval j (by omega)]
      rw [List.take_append_of_le_length (by omega), List.take_take,
        Nat.min_eq_left (by omega)]
    · obtain ⟨dd, rfl⟩ : ∃ dd, j = k + dd := ⟨j - k, by omega⟩
      have hlt1 : k + dd < (offs1.take k ++ offs1.drop (k + 1)).length := by
        rw [List.length_append, List.length_take, List.length_drop]
        omega
      have h9 : (offs1.take k ++ offs1.drop (k + 1))[k + dd] =
          offs1[k + 1 + dd] := by
        have h9a : (offs1.take k ++ offs1.drop (k + 1))[k + dd]? =
            offs1[k + 1 + dd]? := by
          rw [List.getElem?_append_right (by rw [hAo]; omega), hAo,
            List.getElem?_drop]
          congr 1
          omega
        rw [List.getElem?_eq_getElem hlt1,
          List.getElem?_eq_getElem (show k + 1 + dd < offs1.length by omega)] at h9a
        exact Option.some.inj h9a
      rw [h9, hval (k + 1 + dd) (by omega)]
      have htk : (cs1.take k ++ merged :: cs1.drop (k + 2)).take (k + dd + 1) =
          cs1.take k ++ merged :: (cs1.drop (k + 2)).take dd := by
        rw [List.take_append_eq_append_take, List.take_of_length_le (by omega)]
        congr 1
        rw [show k + dd + 1 - (cs1.take k).length = dd + 1 by omega]
        rfl
      have htk2 : cs1.take (k + 1 + dd + 1) =
          cs1.take k ++ (cs1[k]) :: (cs1[k + 1]) ::
            (cs1.drop (k + 2)).take dd := by
        conv_lhs => rw [hdec]
        rw [List.take_append_eq_append_take, List.take_of_length_le (by omega)]
        congr 1
        rw [show k + 1 + dd + 1 - (cs1.take k).length = dd + 2 by omega]
        rfl
      rw [htk, htk2]
      simp only [allSum_append, allSum_cons]
      have h6 : offSum tf merged.toList + allSum tf ((cs1.drop (k + 2)).take dd) =
          offSum tf (cs1[k]).toList + (offSum tf (cs1[k + 1]).toList +
            allSum tf ((cs1.drop (k + 2)).take dd)) := by
        rw [hsum2, add_assoc]
      rw [h6]

/-- Correctness of the rebalancing step: when child `i` of a node has
underflowed to `ORDER - 1` entries and every other child is within bounds,
`rebalance` succeeds and returns a node with the same elements, a valid
offsets table, children all within bounds, and an underflow flag that is
accurate for a non-root parent. -/
theorem rebalance_ok {offs1 : List O} {cs1 : List (NodeRef T O)} {i hh : Nat}
    (hi : i < cs1.length) (h2 : 2 ≤ cs1.length)
    (hlen : offs1.length + 1 = cs1.length)
    (hval : ∀ (j : Nat) (hj : j < offs1.length),
      offs1[j] = allSum tf (cs1.take (j + 1)))
    (hsh : ∀ c ∈ cs1, Shape c hh)
    (hoc : ∀ c ∈ cs1, OffsetsOk tf c)
    (hsz : ∀ (j : Nat) (hj : j < cs1.length), j ≠ i → SizeMin ORDER (cs1[j]))
    (hszi : SizeMin (ORDER - 1) (cs1[i]))
    (hleni : (cs1[i]).len = ORDER - 1) :
    ∃ offs2 cs2 uf2, rebalance tf offs1 cs1 i = some (offs2, cs2, uf2) ∧
      NodeRef.toListAll cs2 = NodeRef.toListAll cs1 ∧
      offs2.length + 1 = cs2.length ∧
      (∀ (j : Nat) (hj : j < offs2.length),
        offs2[j] = allSum tf (cs2.take (j + 1))) ∧
      (∀ c ∈ cs2, Shape c hh) ∧
      (∀ c ∈ cs2, OffsetsOk tf c) ∧
      (∀ c ∈ cs2, SizeMin ORDER c) ∧
      cs1.length - 1 ≤ cs2.length ∧ cs2.length ≤ cs1.length ∧
      (uf2 = true → cs2.length < ORDER) ∧
      (uf2 = false → cs2.length = cs1.length ∨ ORDER ≤ cs2.length) := by
  have hOrd : ORDER = 8 := rfl
  by_cases hcR : i + 1 < cs1.length ∧ ORDER < (cs1.getD (i + 1) (.leaf [])).len
  · -- rotation pulling from the right sibling
    have hiR : i + 1 < cs1.length := hcR.1
    have hlenR : ORDER < (cs1[i + 1]).len := by
      have h := hcR.2
      rwa [List.getD_eq_getElem _ _ hiR] at h
    have memi : (cs1[i]) ∈ cs1 := List.getElem_mem _
    have memi1 : (cs1[i + 1]) ∈ cs1 := List.getElem_mem _
    have hll := left_len_val tf (k := i) hiR hlen hval
    obtain ⟨left', right', mv, heq, hcat, hlenL', hlenR', hshL', hshR',
        hoL', hoR', hz1, hz2, hofs⟩ :=
      rotate_left_ok tf (hsh _ memi) (hsh _ memi1) (hoc _ memi) (hoc _ memi1)
        (hszi.mono (by omega)) ((hsz (i + 1) hiR (by omega)).mono (by omega))
        (by omega) (by omega) hll
    have hrb : rebalance tf offs1 cs1 i =
        some (offs1.set i (offs1.getD i 0 + mv),
          (cs1.set i left').set (i + 1) right', false) := by
      have heq2 := heq
      simp only [List.getD_eq_getElem?_getD] at heq2
      simp only [rebalance, decide_eq_true_eq]
      rw [if_pos hcR]
      simp [List.getElem?_eq_getElem hi, List.getElem?_eq_getElem hiR, heq2]
    obtain ⟨htl2, hvals2⟩ :=
      pair_rebalance_ok tf (k := i) (d := mv) hiR hlen hval hcat hofs
    have hlen2' : ((cs1.set i left').set (i + 1) right').length = cs1.length := by
      simp
    refine ⟨_, _, _, hrb, htl2, by simpa using hlen, hvals2, ?_, ?_, ?_,
      by omega, by omega, by simp, fun hff => Or.inl (by simp)⟩
    · intro c hc
      rcases List.mem_or_eq_of_mem_set hc with hc2 | rfl
      · rcases List.mem_or_eq_of_mem_set hc2 with hc3 | rfl
        · exact hsh c hc3
        · exact hshL'
      · exact hshR'
    · intro c hc
      rcases List.mem_or_eq_of_mem_set hc with hc2 | rfl
      · rcases List.mem_or_eq_of_mem_set hc2 with hc3 | rfl
        · exact hoc c hc3
        · exact hoL'
      · exact hoR'
    · intro c hc
      obtain ⟨j, hjlt, rfl⟩ := List.mem_iff_getElem.mp hc
      have hjlt' : j < cs1.length := by simpa using hjlt
      by_cases hji1 : j = i + 1
      · subst hji1
        rw [List.getElem_set_self (by simpa using hjlt')]
        exact hz2.of_len (by omega)
      · rw [List.getElem_set_ne (by omega)]
        by_cases hji : j = i
        · subst hji
          rw [List.getElem_set_self (by simpa using hjlt')]
          exact hz1.of_len (by omega)
        · rw [List.getElem_set_ne (by omega)]
          exact hsz j hjlt' hji
  · by_cases hcL : 0 < i ∧ ORDER < (cs1.getD (i - 1) (.leaf [])).len
    · -- rotation pulling from the left sibling
      obtain ⟨j, rfl⟩ : ∃ j, i = j + 1 := ⟨i - 1, by omega⟩
      have hj1 : j < cs1.length := by omega
      have hlenL : ORDER < (cs1[j]).len := by
        have h := hcL.2
        rwa [show j + 1 - 1 = j by omega, List.getD_eq_getElem _ _ hj1] at h
      have memj : (cs1[j]) ∈ cs1 := List.getElem_mem _
      have memi : (cs1[j + 1]) ∈ cs1 := List.getElem_mem _
      have hll := left_len_val tf (k := j) hi hlen hval
      obtain ⟨left', right', mv, heq, hcat, hlenL', hlenR', hshL', hshR',
          hoL', hoR', hz1, hz2, hofs⟩ :=
        rotate_right_ok tf (hsh _ memj) (hsh _ memi) (hoc _ memj) (hoc _ memi)
          ((hsz j hj1 (by omega)).mono (by omega)) (hszi.mono (by omega))
          (by omega) (by omega) hll
      have hrb : rebalance tf offs1 cs1 (j + 1) =
          some (offs1.set j (offs1.getD j 0 + -mv),
            (cs1.set j left').set (j + 1) right', false) := by
        have heq2 := heq
        simp only [List.getD_eq_getElem?_getD] at heq2
        simp only [rebalance, decide_eq_true_eq]
        rw [if_neg hcR, if_pos hcL]
        simp [List.getElem?_eq_getElem hi, List.getElem?_eq_getElem hj1, heq2]
      obtain ⟨htl2, hvals2⟩ :=
        pair_rebalance_ok tf (k := j) (d := -mv) hi hlen hval hcat hofs
      have hlen2' : ((cs1.set j left').set (j + 1) right').length = cs1.length := by
        simp
      refine ⟨_, _, _, hrb, htl2, by simpa using hlen, hvals2, ?_, ?_, ?_,
        by omega, by omega, by simp, fun hff => Or.inl (by simp)⟩
      · intro c hc
        rcases List.mem_or_eq_of_mem_set hc with hc2 | rfl
        · rcases List.mem_or_eq_of_mem_set hc2 with hc3 | rfl
          · exact hsh c hc3
          · exact hshL'
        · exact hshR'
      · intro c hc
        rcases List.mem_or_eq_of_mem_set hc with hc2 | rfl
        · rcases List.mem_or_eq_of_mem_set hc2 with hc3 | rfl
          · exact hoc c hc3
          · exact hoL'
        · exact hoR'
      · intro c hc
        obtain ⟨jx, hjlt, rfl⟩ := List.mem_iff_getElem.mp hc
        have hjlt' : jx < cs1.length := by simpa using hjlt
        by_cases hji1 : jx = j + 1
        · subst hji1
          rw [List.getElem_set_self (by simpa using hjlt')]
          exact hz2.of_len (by omega)
        · rw [List.getElem_set_ne (by omega)]
          by_cases hji : jx = j
          · subst hji
            rw [List.getElem_set_self (by simpa using hjlt')]
            exact hz1.of_len (by omega)
          · rw [List.getElem_set_ne (by omega)]
            exact hsz jx hjlt' hji1
    · -- merge with a sibling
      have hnR : ∀ (h : i + 1 < cs1.length), (cs1[i + 1]).len ≤ ORDER := by
        intro h
        by_contra hlt
        exact hcR ⟨h, by rw [List.getD_eq_getElem _ _ h]; omega⟩
      by_cases hi0 : i = 0
      · subst hi0
        have hiR : 1 < cs1.length := by omega
        have memi : (cs1[0]) ∈ cs1 := List.getElem_mem _
        have memi1 : (cs1[1]) ∈ cs1 := List.getElem_mem _
        have hszR := hsz 1 hiR (by omega)
        have hll := left_len_val tf (k := 0) hiR hlen hval
        have hnR1 : (cs1[1]).len ≤ ORDER := by simpa using hnR (by omega)
        obtain ⟨merged, heq, hcat, hlenM, hshM, hoM, hzM⟩ :=
          rotate_full_ok tf (hsh _ memi) (hsh _ memi1) (hoc _ memi) (hoc _ memi1)
            (hszi.mono (by omega)) (hszR.mono (by omega))
            (by omega) (by simpa using hll)
        have hrb : rebalance tf offs1 cs1 0 =
            some (offs1.eraseIdx 0, (cs1.set 0 merged).eraseIdx 1,
              decide (((cs1.set 0 merged).eraseIdx 1).length < ORDER)) := by
          have heq2 := heq
          simp only [List.getD_eq_getElem?_getD] at heq2
          simp only [rebalance, decide_eq_true_eq]
          rw [if_neg hcR, if_neg hcL]
          simp [List.getElem?_eq_getElem hi, List.getElem?_eq_getElem hiR, heq2]
        obtain ⟨htl2, hlen2, hvals2⟩ :=
          merge_rebalance_ok tf (k := 0) hiR hlen hval hcat
        have hset := set_eraseIdx_adjacent (k := 0) hiR merged
        have hcs2len : ((cs1.set 0 merged).eraseIdx 1).length = cs1.length - 1 := by
          rw [hset]
          simp only [List.length_append, List.length_cons, List.length_drop,
            List.length_take]
          omega
        refine ⟨_, _, _, hrb, htl2, hlen2, hvals2, ?_, ?_, ?_,
          by omega, by omega, fun ht => by simpa using of_decide_eq_true ht,
          fun hff => Or.inr (by have := of_decide_eq_false hff; omega)⟩
        · intro c hc
          rw [hset] at hc
          simp only [List.take_zero, List.nil_append, List.mem_cons] at hc
          rcases hc with rfl | hc
          · exact hshM
          · exact hsh c (List.mem_of_mem_drop hc)
        · intro c hc
          rw [hset] at hc
          simp only [List.take_zero, List.nil_append, List.mem_cons] at hc
          rcases hc with rfl | hc
          · exact hoM
          · exact hoc c (List.mem_of_mem_drop hc)
        · intro c hc
          rw [hset] at hc
          simp only [List.take_zero, List.nil_append, List.mem_cons] at hc
          rcases hc with rfl | hc
          · refine hzM.of_len ?_
            have := hszR.le_len
            omega
          · obtain ⟨jx, hjlt, rfl⟩ := List.mem_iff_getElem.mp hc
            rw [List.getElem_drop]
            have hjx : jx < cs1.length - 2 := by
              rw [List.length_drop] at hjlt
              exact hjlt
            exact hsz (2 + jx) (by omega) (by omega)
      · obtain ⟨j, rfl⟩ : ∃ j, i = j + 1 := ⟨i - 1, by omega⟩
        have hj1 : j < cs1.length := by omega
        have hnL : (cs1[j]).len ≤ ORDER := by
          by_contra hlt
          refine hcL ⟨by omega, ?_⟩
          rw [show j + 1 - 1 = j by omega, List.getD_eq_getElem _ _ hj1]
          omega
        have memj : (cs1[j]) ∈ cs1 := List.getElem_mem _
        have memi : (cs1[j + 1]) ∈ cs1 := List.getElem_mem _
        have hszL := hsz j hj1 (by omega)
        have hll := left_len_val tf (k := j) hi hlen hval
        obtain ⟨merged, heq, hcat, hlenM, hshM, hoM, hzM⟩ :=
          rotate_full_ok tf (hsh _ memj) (hsh _ memi) (hoc _ memj) (hoc _ memi)
            (hszL.mono (by omega)) (hszi.mono (by omega))
            (by omega) hll
        have hrb : rebalance tf offs1 cs1 (j + 1) =
            some (offs1.eraseIdx j, (cs1.set j merged).eraseIdx (j + 1),
              decide (((cs1.set j merged).eraseIdx (j + 1)).length < ORDER)) := by
          have heq2 := heq
          simp only [List.getD_eq_getElem?_getD] at heq2
          simp only [rebalance, decide_eq_true_eq]
          rw [if_neg hcR, if_neg hcL]
          simp [List.getElem?_eq_getElem hi, List.getElem?_eq_getElem hj1, heq2]
        obtain ⟨htl2, hlen2, hvals2⟩ :=
          merge_rebalance_ok tf (k := j) hi hlen hval hcat
        have hset := set_eraseIdx_adjacent (k := j) hi merged
        have hcs2len : ((cs1.set j merged).eraseIdx (j + 1)).length =
            cs1.length - 1 := by
          rw [hset]
          simp only [List.length_append, List.length_cons, List.length_drop,
            List.length_take]
          omega
        refine ⟨_, _, _, hrb, htl2, hlen2, hvals2, ?_, ?_, ?_,
          by omega, by omega, fun ht => by simpa using of_decide_eq_true ht,
          fun hff => Or.inr (by have := of_decide_eq_false hff; omega)⟩
        · intro c hc
          rw [hset] at hc
          rcases List.mem_append.mp hc with hc2 | hc2
          · exact hsh c (List.mem_of_mem_take hc2)
          · rcases List.mem_cons.mp hc2 with rfl | hc3
            · exact hshM
            · exact hsh c (List.mem_of_mem_drop hc3)
        · intro c hc
          rw [hset] at hc
          rcases List.mem_append.mp hc with hc2 | hc2
          · exact hoc c (List.mem_of_mem_take hc2)
          · rcases List.mem_cons.mp hc2 with rfl | hc3
            · exact hoM
            · exact hoc c (List.mem_of_mem_drop hc3)
        · intro c hc
          rw [hset] at hc
          rcases List.mem_append.mp hc with hc2 | hc2
          · obtain ⟨jx, hjlt, rfl⟩ := List.mem_iff_getElem.mp hc2
            rw [List.getElem_take]
            have hjx : jx < j := by
              rw [List.length_take] at hjlt
              omega
            exact hsz jx (by omega) (by omega)
          · rcases List.mem_cons.mp hc2 with rfl | hc3
            · refine hzM.of_len ?_
              have := hszL.le_len
              omega
            · obtain ⟨jx, hjlt, rfl⟩ := List.mem_iff_getElem.mp hc3
              rw [List.getElem_drop]
              have hjx : jx < cs1.length - (j + 2) := by
                rw [List.length_drop] at hjlt
                exact hjlt
              exact hsz (j + 2 + jx) (by omega) (by omega)

/-- Master correctness theorem for `remove_sub`: on an element-addressing
cursor it returns the removed element with its offset, the updated node keeps
the shape and offsets invariants, occupancy drops by at most one entry, and
the underflow flag is accurate for a non-root node. -/
theorem remove_sub_ok {path : Cursor} {n : NodeRef T O} {p : Nat}
    (hpath : ElemPath path n p) :
    ∀ {h mn : Nat}, Shape n h → SizeMin mn n →
    (n.is_internal = true → 2 ≤ mn) → OffsetsOk tf n →
    ∃ n' e uf, remove_sub tf path n = some (n', e, tf e, uf) ∧
      n.toList[p]? = some e ∧
      n'.toList = n.toList.eraseIdx p ∧
      Shape n' h ∧
      OffsetsOk tf n' ∧
      SizeMin (mn - 1) n' ∧
      n.len - 1 ≤ n'.len ∧ n'.len ≤ n.len ∧
      (uf = true → n'.len < ORDER) ∧
      (uf = false → ORDER ≤ n'.len ∨ n'.len = n.len) := by
  have hOrd : ORDER = 8 := rfl
  induction hpath with
  | leaf i es hi =>
    intro h mn hs hsz hmn2 hoff
    cases hs with
    | leaf =>
    cases hsz with
    | leaf _ _ hmin hmax =>
    have hlenE : (es.eraseIdx i).length = es.length - 1 := by
      rw [List.eraseIdx_eq_take_drop_succ, List.length_append, List.length_take,
        List.length_drop]
      omega
    refine ⟨.leaf (es.eraseIdx i), es[i], decide ((es.eraseIdx i).length < ORDER),
      ?_, by simp [List.getElem?_eq_getElem hi], by simp, .leaf _, .leaf _,
      .leaf _ _ (by omega) (by omega), by simp [hlenE], by simp [hlenE],
      fun ht => by simpa [hlenE] using of_decide_eq_true ht,
      fun hff => ?_⟩
    · rw [remove_sub, List.getElem?_eq_getElem hi]
    · have := of_decide_eq_false hff
      left
      simp only [len_leaf]
      omega
  | internal i rest offs cs p hi hrest ih =>
    intro h mn hs hsz hmn2 hoff
    cases hs with
    | internal _ _ hh hsh =>
    cases hsz with
    | internal _ _ _ hmin hmax hsc =>
    cases hoff with
    | internal _ _ hlen hval hoc =>
    have memi : cs[i] ∈ cs := List.getElem_mem _
    obtain ⟨c', e, uf, heqc, hgetc, htlc, hsc', hoc', hszc', hlb, hub, huft, huff⟩ :=
      ih (hsh _ memi) (hsc _ memi) (fun _ => by rw [hOrd]; omega) (hoc _ memi)
    have hplt : p < cs[i].toList.length := hrest.lt_length
    -- the cursor's tail is nonempty
    obtain ⟨r0, rtail, rfl⟩ : ∃ r0 rtail, rest = r0 :: rtail := by
      cases hrestE : rest with
      | nil =>
        rw [hrestE] at hrest
        cases hrest
      | cons r0 rtail => exact ⟨r0, rtail, rfl⟩
    have hciLen : ORDER ≤ cs[i].len := (hsc _ memi).le_len
    -- shared facts about the updated child list
    have hsum : offSum tf c'.toList = offSum tf cs[i].toList + -tf e := by
      rw [htlc, offSum_eraseIdx tf hgetc]
    have hvals1 := shift_offsets_ok tf hi hlen hval hsum
    have hmemset : ∀ c ∈ cs.set i c', c = c' ∨ c ∈ cs := by
      intro c hc
      rcases List.mem_or_eq_of_mem_set hc with hc2 | rfl
      · right
        exact hc2
      · left
        rfl
    have hget : (NodeRef.internal offs cs).toList[cntAll (cs.take i) + p]? =
        some e := by
      rw [← ElemPath.get_at_eq (.internal i _ offs cs p hi hrest)]
      simp only [NodeRef.get_at, List.getElem?_eq_getElem hi]
      rw [hrest.get_at_eq, hgetc]
    have htl1 : NodeRef.toListAll (cs.set i c') =
        (NodeRef.toListAll cs).eraseIdx (cntAll (cs.take i) + p) := by
      rw [toListAll_set hi]
      conv_rhs => rw [toListAll_decomp hi]
      rw [show cntAll (cs.take i) = (NodeRef.toListAll (cs.take i)).length from rfl]
      rw [eraseIdx_append_middle _ _ hplt, htlc]
    by_cases hufc : uf = true
    · -- the child underflowed: rebalance
      subst hufc
      have hclt : c'.len < ORDER := huft rfl
      have hcEq : c'.len = ORDER - 1 := by omega
      have h2 : 2 ≤ (cs.set i c').length := by
        have := hmn2 rfl
        simp only [List.length_set]
        omega
      obtain ⟨offs2, cs2, uf2, hrbeq, htl2, hlen2, hvals2, hsh2, hoc2, hsz2,
          hclow, hchigh, hft, hff⟩ :=
        rebalance_ok tf (by simpa using hi) h2 (by simpa using hlen) hvals1
          (fun c hc => by
            rcases hmemset c hc with rfl | hc2
            · exact hsc'
            · exact hsh c hc2)
          (fun c hc => by
            rcases hmemset c hc with rfl | hc2
            · exact hoc'
            · exact hoc c hc2)
          (fun j hj hji => by
            rw [List.getElem_set_ne (by omega)]
            exact hsc _ (List.getElem_mem _))
          (by rw [List.getElem_set_self (by simpa using hi)]; exact hszc')
          (by rw [List.getElem_set_self (by simpa using hi)]; exact hcEq)
      refine ⟨.internal offs2 cs2, e, uf2, ?_, hget, ?_, ?_, ?_, ?_, ?_, ?_, ?_, ?_⟩
      · simp [remove_sub, List.getElem?_eq_getElem hi, heqc, hrbeq]
      · simp only [toList_internal]
        rw [htl2, htl1]
      · exact .internal _ _ hh hsh2
      · exact .internal _ _ hlen2 hvals2 hoc2
      · refine .internal _ _ _ ?_ ?_ hsz2
        · simp only [List.length_set] at hclow
          omega
        · simp only [List.length_set] at hchigh
          omega
      · simp only [len_internal]
        simp only [List.length_set] at hclow
        omega
      · simp only [len_internal]
        simp only [List.length_set] at hchigh
        omega
      · intro ht
        simpa using hft ht
      · intro hf
        rcases hff hf with h1 | h1
        · right
          simp only [len_internal, List.length_set] at h1 ⊢
          omega
        · left
          simpa using h1
    · -- no underflow in the child
      have hufF : uf = false := by
        cases uf
        · rfl
        · exact absurd rfl hufc
      subst hufF
      have hcge : ORDER ≤ c'.len := by
        rcases huff rfl with h1 | h1
        · exact h1
        · omega
      refine ⟨.internal (add_from offs i (-tf e)) (cs.set i c'), e, false, ?_,
        hget, ?_, ?_, ?_, ?_, ?_, ?_, ?_, ?_⟩
      · simp [remove_sub, List.getElem?_eq_getElem hi, heqc]
      · simp only [toList_internal]
        exact htl1
      · refine .internal _ _ hh ?_
        intro c hc
        rcases hmemset c hc with rfl | hc2
        · exact hsc'
        · exact hsh c hc2
      · refine .internal _ _ (by simpa using hlen) hvals1 ?_
        intro c hc
        rcases hmemset c hc with rfl | hc2
        · exact hoc'
        · exact hoc c hc2
      · refine .internal _ _ _ ?_ ?_ ?_
        · simp only [List.length_set]
          omega
        · simp only [List.length_set]
          omega
        · intro c hc
          rcases hmemset c hc with rfl | hc2
          · exact hszc'.of_len hcge
          · exact hsc c hc2
      · simp only [len_internal, List.length_set]
        omega
      · simp only [len_internal, List.length_set]
        omega
      · intro ht
        exact absurd ht (by simp)
      · intro _
        right
        simp only [len_internal, List.length_set]

/-- Rope-level correctness of `remove_at`: on a valid rope and an
element-addressing cursor it returns the addressed element, removes exactly
that element, updates the cached length by its offset, and preserves
well-formedness (including root flattening). -/
theorem remove_at_ok {r : Rope T O} {at_ : Cursor} {p : Nat}
    (hv : Valid tf r) (hpath : ElemPath at_ r.root p) :
    ∃ e r', r.remove_at tf at_ = some (e, r') ∧
      r.toList[p]? = some e ∧
      r'.toList = r.toList.eraseIdx p ∧
      r'.len = r.len + -(tf e) ∧
      Valid tf r' := by
  have hOrd : ORDER = 8 := rfl
  obtain ⟨h, hs⟩ := hv.shape
  have hmn2 : r.root.is_internal = true → 2 ≤ rootMin r.root := by
    intro hint
    cases hroot : r.root with
    | leaf es =>
      rw [hroot] at hint
      simp [NodeRef.is_internal] at hint
    | internal o c => simp [rootMin]
  obtain ⟨n', e, uf, heq, hget, htl, hs', ho', hsz', hlb, hub, huft, huff⟩ :=
    remove_sub_ok tf hpath hs hv.size hmn2 hv.offsets
  have hlenEq : r.len + -(tf e) = offSum tf (r.toList.eraseIdx p) := by
    rw [show r.toList = r.root.toList from rfl, offSum_eraseIdx tf hget,
      hv.len_eq]
    rfl
  by_cases hufc : uf = true
  · subst hufc
    cases h with
    | zero =>
      obtain ⟨es', hn'⟩ := hs'.zero_leaf
      have hfl : flatten_root_if_needed n' = n' := by
        rw [hn']
        rfl
      refine ⟨e, ⟨n', r.len + -(tf e)⟩, by simp [Rope.remove_at, heq, hfl],
        hget, htl, rfl, ⟨0, hs'⟩, ?_, ho', ?_⟩
      · show SizeMin (rootMin n') n'
        rw [rootMin_eq_of_shape hs hs']
        obtain ⟨es, hroot⟩ := hs.zero_leaf
        rw [hroot]
        rw [hroot] at hsz'
        simpa [rootMin] using hsz'
      · show r.len + -(tf e) = offSum tf n'.toList
        rw [htl]
        exact hlenEq
    | succ hh =>
      obtain ⟨o1, cs1, hroot⟩ := hs.succ_internal
      obtain ⟨o2, cs2, hn'⟩ := hs'.succ_internal
      subst hn'
      have hrl2 : 2 ≤ cs1.length := by
        have h3 := hv.size.le_len
        rw [hroot] at h3
        simpa [rootMin] using h3
      have hrootlen : r.root.len = cs1.length := by
        rw [hroot]
        rfl
      rw [hrootlen] at hlb
      simp only [len_internal] at hlb
      by_cases hc2 : 2 ≤ cs2.length
      · have hfl : flatten_root_if_needed (NodeRef.internal o2 cs2) =
            .internal o2 cs2 := by
          rw [flatten_root_if_needed, if_pos hc2]
        refine ⟨e, ⟨.internal o2 cs2, r.len + -(tf e)⟩,
          by simp [Rope.remove_at, heq, hfl], hget, htl, rfl,
          ⟨hh + 1, hs'⟩, ?_, ho', ?_⟩
        · show SizeMin (rootMin (NodeRef.internal o2 cs2)) (.internal o2 cs2)
          simp only [rootMin]
          have h1 : SizeMin 1 (NodeRef.internal o2 cs2) := by
            rw [hroot] at hsz'
            simpa [rootMin] using hsz'
          exact h1.of_len (by simpa using hc2)
        · show r.len + -(tf e) = offSum tf (NodeRef.internal o2 cs2).toList
          rw [htl]
          exact hlenEq
      · have hc1 : cs2.length = 1 := by omega
        obtain ⟨c, rfl⟩ := List.length_eq_one.mp hc1
        have hfl : flatten_root_if_needed (NodeRef.internal o2 [c]) = c := by
          simp [flatten_root_if_needed]
        have hcsh : Shape c hh := by
          cases hs' with
          | internal _ _ _ hcs => exact hcs c (by simp)
        have hcsz : SizeMin ORDER c := by
          cases hsz' with
          | internal _ _ _ hmin hmax hc => exact hc c (by simp)
        have hcoff : OffsetsOk tf c := by
          cases ho' with
          | internal _ _ _ _ hc => exact hc c (by simp)
        have htlc : c.toList = r.toList.eraseIdx p := by
          show c.toList = r.root.toList.eraseIdx p
          rw [← htl]
          simp
        refine ⟨e, ⟨c, r.len + -(tf e)⟩, by simp [Rope.remove_at, heq, hfl],
          hget, htlc, rfl, ⟨hh, hcsh⟩, ?_, hcoff, ?_⟩
        · show SizeMin (rootMin c) c
          refine hcsz.mono ?_
          cases c <;> simp [rootMin, ORDER]
        · show r.len + -(tf e) = offSum tf c.toList
          rw [htlc]
          exact hlenEq
  · have hufF : uf = false := by
      cases uf
      · rfl
      · exact absurd rfl hufc
    subst hufF
    refine ⟨e, ⟨n', r.len + -(tf e)⟩, by simp [Rope.remove_at, heq],
      hget, htl, rfl, ⟨h, hs'⟩, ?_, ho', ?_⟩
    · show SizeMin (rootMin n') n'
      rw [rootMin_eq_of_shape hs hs']
      cases h with
      | zero =>
        obtain ⟨es, hroot⟩ := hs.zero_leaf
        rw [hroot]
        rw [hroot] at hsz'
        simpa [rootMin] using hsz'
      | succ hh =>
        obtain ⟨o1, cs1, hroot⟩ := hs.succ_internal
        rw [hroot]
        simp only [rootMin]
        have h1 : SizeMin 1 n' := by
          rw [hroot] at hsz'
          simpa [rootMin] using hsz'
        have hrl2 : 2 ≤ cs1.length := by
          have h3 := hv.size.le_len
          rw [hroot] at h3
          simpa [rootMin] using h3
        rcases huff rfl with h2 | h2
        · exact h1.of_len (by omega)
        · refine h1.of_len ?_
          rw [h2, hroot]
          simp only [len_internal]
          omega
    · show r.len + -(tf e) = offSum tf n'.toList
      rw [htl]
      exact hlenEq

theorem eraseIdx_cons_append {α : Type _} (A C : List α) (x : α) :
    (A ++ x :: C).eraseIdx A.length = A ++ C := by
  have h : (A ++ [x] ++ C).eraseIdx (A.length + 0) =
      A ++ [x].eraseIdx 0 ++ C :=
    eraseIdx_append_middle A C (by simp)
  simpa using h

theorem eraseIdx_insertIdx_self {α : Type _} {l : List α} {p : Nat}
    (hp : p ≤ l.length) (x : α) : (l.insertIdx p x).eraseIdx p = l := by
  rw [insertIdx_eq_take_cons_drop hp]
  have hA : (l.take p).length = p := by
    rw [List.length_take]
    omega
  have h := eraseIdx_cons_append (l.take p) (l.drop p) x
  rw [hA] at h
  rw [h, List.take_append_drop]

theorem getElem?_insertIdx_self {α : Type _} {l : List α} {p : Nat}
    (hp : p ≤ l.length) (x : α) : (l.insertIdx p x)[p]? = some x := by
  rw [insertIdx_eq_take_cons_drop hp,
    List.getElem?_append_right (by rw [List.length_take]; omega)]
  rw [show p - (l.take p).length = 0 by rw [List.length_take]; omega]
  simp

theorem set_append_of_lt {α : Type _} {l1 l2 : List α} {n : Nat}
    (h : n < l1.length) (a : α) :
    (l1 ++ l2).set n a = l1.set n a ++ l2 := by
  induction l1 generalizing n with
  | nil => simp at h
  | cons x xs ih =>
    cases n with
    | zero => simp
    | succ n =>
      simp only [List.cons_append, List.set_cons_succ]
      rw [ih (by simpa using h)]

theorem set_append_middle {α : Type _} (A C : List α) {Bl : List α} {q : Nat}
    (hq : q < Bl.length) (x : α) :
    (A ++ Bl ++ C).set (A.length + q) x = A ++ Bl.set q x ++ C := by
  rw [List.append_assoc, set_append_of_le (by omega) x,
    show A.length + q - A.length = q by omega,
    set_append_of_lt hq x, List.append_assoc]

theorem offSum_set {l : List T} {p : Nat} {e : T} (he : l[p]? = some e) (x : T) :
    offSum (O := O) tf (l.set p x) = offSum tf l + (tf x + -tf e) := by
  obtain ⟨hp, rfl⟩ := List.getElem?_eq_some.mp he
  have hdec : l = l.take p ++ l[p] :: l.drop (p + 1) := by
    conv_lhs => rw [← List.take_append_drop p l, List.drop_eq_getElem_cons hp]
  have h2 : offSum (O := O) tf l =
      offSum tf (l.take p) + (tf l[p] + offSum tf (l.drop (p + 1))) := by
    conv_lhs => rw [hdec]
    simp only [offSum_append, offSum_cons]
  rw [List.set_eq_take_cons_drop x hp, h2]
  simp only [offSum_append, offSum_cons]
  abel

/-- The exact structural effect of `update_at_with` along its cursor: the
tree structure is unchanged, the addressed element is replaced by `x'`, and
in each internal node along the path the offsets from the descent index
onward are shifted by exactly `delta`. -/
inductive UpdShape (delta : O) (x' : T) :
    Cursor → NodeRef T O → NodeRef T O → Prop where
  | leaf (i : Nat) (es : List T) :
      UpdShape delta x' [i] (.leaf es) (.leaf (es.set i x'))
  | internal (i : Nat) (rest : Cursor) (offs : List O)
      (cs : List (NodeRef T O)) (c' : NodeRef T O) (hi : i < cs.length)
      (h : UpdShape delta x' rest (cs[i]) c') :
      UpdShape delta x' (i :: rest) (.internal offs cs)
        (.internal (add_from offs i delta) (cs.set i c'))

/-- Master correctness theorem for the two passes of `update_at_with` at the
node level. -/
theorem update_node_ok {R : Type} {path : Cursor} {n : NodeRef T O} {p : Nat}
    {f : T → T × R} (hpath : ElemPath path n p) :
    ∀ {h : Nat}, Shape n h → OffsetsOk tf n →
    ∃ e n1 n2,
      n.toList[p]? = some e ∧
      update_elem tf path n f = some (n1, (f e).2, tf (f e).1 + -tf e) ∧
      adjust_offsets (tf (f e).1 + -tf e) path n1 = n2 ∧
      UpdShape (tf (f e).1 + -tf e) (f e).1 path n n2 ∧
      n2.toList = n.toList.set p (f e).1 ∧
      Shape n2 h ∧
      OffsetsOk tf n2 ∧
      (∀ mn, SizeMin mn n → SizeMin mn n2) ∧
      n2.len = n.len := by
  induction hpath with
  | leaf i es hi =>
    intro h hs hoff
    refine ⟨es[i], .leaf (es.set i (f es[i]).1), .leaf (es.set i (f es[i]).1),
      by simp [List.getElem?_eq_getElem hi],
      by simp [update_elem, List.getElem?_eq_getElem hi], rfl,
      .leaf i es, by simp, ?_, .leaf _, ?_, by simp⟩
    · cases hs with
      | leaf => exact .leaf _
    · intro mn hz
      cases hz with
      | leaf _ _ hmin hmax =>
        exact .leaf _ _ (by simpa using hmin) (by simpa using hmax)
  | internal i rest offs cs p hi hrest ih =>
    intro h hs hoff
    cases hs with
    | internal _ _ hh hsh =>
    cases hoff with
    | internal _ _ hlen hval hoc =>
    have memi : cs[i] ∈ cs := List.getElem_mem _
    obtain ⟨e, n1c, n2c, hgetc, hupd, hadj, hush, htlc, hshc, hocc, hszc, hlenc⟩ :=
      ih (hsh _ memi) (hoc _ memi)
    obtain ⟨r0, rtail, rfl⟩ : ∃ r0 rtail, rest = r0 :: rtail := by
      cases hrestE : rest with
      | nil =>
        rw [hrestE] at hrest
        cases hrest
      | cons r0 rtail => exact ⟨r0, rtail, rfl⟩
    have hplt : p < cs[i].toList.length := hrest.lt_length
    have hget : (NodeRef.internal offs cs).toList[cntAll (cs.take i) + p]? =
        some e := by
      rw [← ElemPath.get_at_eq (.internal i _ offs cs p hi hrest)]
      simp only [NodeRef.get_at, List.getElem?_eq_getElem hi]
      rw [hrest.get_at_eq, hgetc]
    have hsum : offSum tf n2c.toList = offSum tf cs[i].toList +
        (tf (f e).1 + -tf e) := by
      rw [htlc, offSum_set tf hgetc]
    refine ⟨e, .internal offs (cs.set i n1c), .internal (add_from offs i
      (tf (f e).1 + -tf e)) (cs.set i n2c), hget, ?_, ?_, ?_, ?_, ?_, ?_, ?_, ?_⟩
    · simp [update_elem, List.getElem?_eq_getElem hi, hupd]
    · have hi' : i < (cs.set i n1c).length := by simpa using hi
      simp only [adjust_offsets, List.getElem?_eq_getElem hi',
        List.getElem_set_self hi', hadj, List.set_set]
    · exact .internal i _ offs cs n2c hi hush
    · simp only [toList_internal]
      rw [toListAll_set hi]
      conv_rhs => rw [toListAll_decomp hi]
      rw [show cntAll (cs.take i) = (NodeRef.toListAll (cs.take i)).length from rfl]
      rw [set_append_middle _ _ hplt, htlc]
    · refine .internal _ _ hh ?_
      intro c hc
      rcases List.mem_or_eq_of_mem_set hc with hc2 | rfl
      · exact hsh c hc2
      · exact hshc
    · refine .internal _ _ (by simpa using hlen)
        (shift_offsets_ok tf hi hlen hval hsum) ?_
      intro c hc
      rcases List.mem_or_eq_of_mem_set hc with hc2 | rfl
      · exact hoc c hc2
      · exact hocc
    · intro mn hz
      cases hz with
      | internal _ _ _ hmin hmax hsc =>
      refine .internal _ _ _ (by simpa using hmin) (by simpa using hmax) ?_
      intro c hc
      rcases List.mem_or_eq_of_mem_set hc with hc2 | rfl
      · exact hsc c hc2
      · exact hszc _ (hsc _ memi)
    · simp
/-- Rope-level correctness of `update_at_with`: it returns exactly the value
produced by `f`, replaces exactly the addressed element, adjusts only the
offsets along the cursor (by `UpdShape`) and the cached length by the offset
delta, and preserves well-formedness. -/
theorem update_at_with_ok {R : Type} {r : Rope T O} {at_ : Cursor} {p : Nat}
    (f : T → T × R) (hv : Valid tf r) (hpath : ElemPath at_ r.root p) :
    ∃ e r', r.toList[p]? = some e ∧
      r.update_at_with tf at_ f = some ((f e).2, r') ∧
      UpdShape (tf (f e).1 + -tf e) (f e).1 at_ r.root r'.root ∧
      r'.toList = r.toList.set p (f e).1 ∧
      r'.len = r.len + (tf (f e).1 + -tf e) ∧
      Valid tf r' := by
  obtain ⟨h, hs⟩ := hv.shape
  obtain ⟨e, n1, n2, hget, hupd, hadj, hush, htl, hsh2, hoff2, hsz2, hlen2⟩ :=
    update_node_ok tf (f := f) hpath hs hv.offsets
  refine ⟨e, ⟨n2, r.len + (tf (f e).1 + -tf e)⟩, hget,
    ?_, hush, htl, rfl, ⟨h, hsh2⟩, ?_, hoff2, ?_⟩
  · simp [Rope.update_at_with, hupd, hadj]
  · show SizeMin (rootMin n2) n2
    rw [rootMin_eq_of_shape hs hsh2]
    exact hsz2 _ hv.size
  · show r.len + (tf (f e).1 + -tf e) = offSum tf n2.toList
    rw [htl, offSum_set tf hget, hv.len_eq]
    rfl

/-- Specification of the offsets scan loop of `search_by`: it returns the
index of the first offsets entry whose boundary satisfies `f` (or
`offs.length` if none does) together with the cumulative offset at the left
edge of the chosen child. -/
theorem iScan_ok (f : O → Bool) :
    ∀ (offs : List O) (base cur : O),
    ∃ q x, iScan f base cur offs = (q, x) ∧ q ≤ offs.length ∧
      (∀ (j : Nat) (hj : j < offs.length), j < q → f (base + offs[j]) = false) ∧
      (∀ (hq : q < offs.length), f (base + offs[q]) = true) ∧
      ((q = 0 ∧ x = cur) ∨
        (0 < q ∧ ∃ hq2 : q - 1 < offs.length, x = base + offs[q - 1])) := by
  intro offs
  induction offs with
  | nil =>
    intro base cur
    exact ⟨0, cur, rfl, by simp, by simp, by simp, Or.inl ⟨rfl, rfl⟩⟩
  | cons o rest ih =>
    intro base cur
    by_cases hf : f (base + o) = true
    · refine ⟨0, cur, ?_, by simp, by simp, ?_, Or.inl ⟨rfl, rfl⟩⟩
      · simp [iScan, hf]
      · intro hq
        simpa using hf
    · have hf' : f (base + o) = false := by
        cases hE : f (base + o)
        · rfl
        · exact absurd hE hf
      obtain ⟨q, x, heq, hle, hpre, hhit, hx⟩ := ih base (base + o)
      refine ⟨q + 1, x, ?_, by simp; omega, ?_, ?_, ?_⟩
      · simp [iScan, hf', heq]
      · intro j hj hjq
        cases j with
        | zero => simpa using hf'
        | succ jj =>
          rw [List.getElem_cons_succ]
          exact hpre jj (by simpa using hj) (by omega)
      · intro hq
        rw [List.getElem_cons_succ]
        exact hhit (by simpa using hq)
      · refine Or.inr ⟨by omega, ?_⟩
        rcases hx with ⟨rfl, rfl⟩ | ⟨hq0, hq2, hxe⟩
        · exact ⟨by simpa using hle, by simp⟩
        · obtain ⟨d, rfl⟩ : ∃ d, q = d + 1 := ⟨q - 1, by omega⟩
          refine ⟨by simp; omega, ?_⟩
          rw [hxe]
          simp
/-- Specification of the element scan loop of `search_by` over a leaf: it
returns the index of the first element whose right boundary satisfies `f`,
clamped to the last element, together with the element's left boundary. -/
theorem leafScan_ok (f : O → Bool) :
    ∀ (es : List T) (off : O), es ≠ [] →
    f (off + offSum tf es) = true →
    ∃ q, q < es.length ∧
      leafScan tf f off es = (q, off + offSum tf (es.take q)) ∧
      f (off + offSum tf (es.take (q + 1))) = true ∧
      ∀ j, j < q → f (off + offSum tf (es.take (j + 1))) = false := by
  intro es
  induction es with
  | nil =>
    intro off hne
    exact absurd rfl hne
  | cons e rest ih =>
    intro off hne hB
    cases rest with
    | nil =>
      refine ⟨0, by simp, by simp [leafScan], ?_, by simp⟩
      simpa using hB
    | cons r0 rtail =>
      by_cases hf : f (off + tf e) = true
      · refine ⟨0, by simp, ?_, ?_, by simp⟩
        · simp [leafScan, hf]
        · simpa using hf
      · have hf' : f (off + tf e) = false := by
          cases hE : f (off + tf e)
          · rfl
          · exact absurd hE hf
        have hB' : f (off + tf e + offSum tf (r0 :: rtail)) = true := by
          have h2 : off + tf e + offSum tf (r0 :: rtail) =
              off + offSum tf (e :: r0 :: rtail) := by
            simp only [offSum_cons]
            abel
          rw [h2]
          exact hB
        obtain ⟨q, hq, heq, hhit, hpre⟩ := ih (off + tf e) (by simp) hB'
        refine ⟨q + 1, by simpa using hq, ?_, ?_, ?_⟩
        · have h3 : off + tf e + offSum tf ((r0 :: rtail).take q) =
              off + offSum tf ((e :: r0 :: rtail).take (q + 1)) := by
            simp only [List.take_succ_cons, offSum_cons]
            abel
          simp [leafScan, hf', heq, h3]
        · have h3 : off + tf e + offSum tf ((r0 :: rtail).take (q + 1)) =
              off + offSum tf ((e :: r0 :: rtail).take (q + 1 + 1)) := by
            simp only [List.take_succ_cons, offSum_cons]
            abel
          rw [← h3]
          exact hhit
        · intro j hj
          cases j with
          | zero => simpa using hf'
          | succ jj =>
            have h3 : off + tf e + offSum tf ((r0 :: rtail).take (jj + 1)) =
                off + offSum tf ((e :: r0 :: rtail).take (jj + 1 + 1)) := by
              simp only [List.take_succ_cons, offSum_cons]
              abel
            rw [← h3]
            exact hpre jj (by omega)

/-- The `children[i]` step of the search descent. -/
theorem search_goL_eq (f : O → Bool) :
    ∀ (cs : List (NodeRef T O)) (i : Nat) (off : O) (hi : i < cs.length),
    NodeRef.search_goL tf f cs i off =
      some (NodeRef.search_go tf f (cs[i]) off) := by
  intro cs
  induction cs with
  | nil =>
    intro i off hi
    simp at hi
  | cons c cs' ih =>
    intro i off hi
    cases i with
    | zero => rfl
    | succ j =>
      rw [NodeRef.search_goL, ih j off (by simpa using hi)]
      simp

/-- Splitting a flat `take` at child `i`'s boundary. -/
theorem toListAll_take_decomp {cs : List (NodeRef T O)} {i j : Nat}
    (hi : i < cs.length) (hj : j ≤ (cs[i]).toList.length) :
    (NodeRef.toListAll cs).take (cntAll (cs.take i) + j) =
      NodeRef.toListAll (cs.take i) ++ (cs[i]).toList.take j := by
  conv_lhs => rw [toListAll_decomp hi]
  rw [List.append_assoc, List.take_append_eq_append_take,
    List.take_of_length_le (by
      rw [show cntAll (cs.take i) = (NodeRef.toListAll (cs.take i)).length from rfl]
      omega)]
  congr 1
  rw [show cntAll (cs.take i) + j - (NodeRef.toListAll (cs.take i)).length = j by
    rw [show cntAll (cs.take i) = (NodeRef.toListAll (cs.take i)).length from rfl]
    omega]
  rw [List.take_append_of_le_length hj]

/-- Master correctness of the `search_by` descent: starting at a subtree
whose left edge does not satisfy `f` and whose right edge does, the descent
returns a cursor addressing the first element (under chain-monotonicity of
`f`) whose right boundary satisfies `f`, together with that element's left
boundary offset. -/
theorem search_go_ok (f : O → Bool) {n : NodeRef T O} {h : Nat}
    (hs : Shape n h) :
    ∀ (off : O), OffsetsOk tf n →
    (∀ j k, j ≤ k → k ≤ n.toList.length →
      f (off + offSum tf (n.toList.take j)) = true →
      f (off + offSum tf (n.toList.take k)) = true) →
    f off = false →
    f (off + offSum tf n.toList) = true →
    ∃ cur q, q < n.toList.length ∧
      NodeRef.search_go tf f n off = (cur, off + offSum tf (n.toList.take q)) ∧
      ElemPath cur n q ∧
      f (off + offSum tf (n.toList.take (q + 1))) = true ∧
      ∀ j, j < q → f (off + offSum tf (n.toList.take (j + 1))) = false := by
  induction hs with
  | leaf es =>
    intro off hoff hmono hA hB
    have hne : es ≠ [] := by
      intro hnil
      subst hnil
      have h1 : f off = true := by simpa using hB
      rw [hA] at h1
      cases h1
    obtain ⟨q, hq, heq, hhit, hpre⟩ := leafScan_ok tf f es off hne (by simpa using hB)
    exact ⟨[q], q, by simpa using hq, by simp [NodeRef.search_go, heq],
      .leaf q es hq, by simpa using hhit, fun j hj => by simpa using hpre j hj⟩
  | internal offs cs hh hsh ih =>
    intro off hoff hmono hA hB
    cases hoff with
    | internal _ _ hlen hval hoc =>
    obtain ⟨qc, x, hscan, hqle, hpre, hhit, hx⟩ := iScan_ok f offs off off
    have hqc : qc < cs.length := by omega
    have memqc : (cs[qc]) ∈ cs := List.getElem_mem _
    have hxval : x = off + allSum tf (cs.take qc) := by
      rcases hx with ⟨h0, rfl⟩ | ⟨h0, h2, hxe⟩
      · subst h0
        simp
      · rw [hxe, hval (qc - 1) (by omega), show qc - 1 + 1 = qc by omega]
    have hlenfact : cntAll (cs.take qc) + (cs[qc]).toList.length ≤
        (NodeRef.toListAll cs).length := by
      have h5 := congrArg List.length (toListAll_decomp hqc)
      simp only [List.length_append] at h5
      rw [show cntAll (cs.take qc) =
        (NodeRef.toListAll (cs.take qc)).length from rfl]
      omega
    have hA' : f x = false := by
      rcases hx with ⟨h0, rfl⟩ | ⟨h0, h2, hxe⟩
      · exact hA
      · rw [hxe]
        exact hpre (qc - 1) h2 (by omega)
    have hB' : f (x + offSum tf (cs[qc]).toList) = true := by
      have hxb : x + offSum tf (cs[qc]).toList =
          off + allSum tf (cs.take (qc + 1)) := by
        rw [hxval, take_succ_eq hqc, allSum_append, allSum_cons, allSum_nil]
        abel
      rw [hxb]
      by_cases hqo : qc < offs.length
      · have h6 := hhit hqo
        rw [hval qc hqo] at h6
        exact h6
      · have hqeq : qc + 1 = cs.length := by omega
        rw [hqeq, List.take_length]
        simp only [toList_internal] at hB
        exact hB
    have htr : ∀ (m : Nat), m ≤ (cs[qc]).toList.length →
        x + offSum tf ((cs[qc]).toList.take m) =
        off + offSum tf ((NodeRef.internal offs cs : NodeRef T O).toList.take
          (cntAll (cs.take qc) + m)) := by
      intro m hm
      rw [toList_internal, toListAll_take_decomp hqc hm, offSum_append, hxval,
        allSum]
      abel
    have hmono' : ∀ j k, j ≤ k → k ≤ (cs[qc]).toList.length →
        f (x + offSum tf ((cs[qc]).toList.take j)) = true →
        f (x + offSum tf ((cs[qc]).toList.take k)) = true := by
      intro j k hjk hk hjt
      rw [htr k hk]
      rw [htr j (by omega)] at hjt
      refine hmono _ _ (by omega) ?_ hjt
      simp only [toList_internal]
      omega
    obtain ⟨cur, q, hqlt, heqc, hpathc, hhitc, hprec⟩ :=
      ih _ memqc x (hoc _ memqc) hmono' hA' hB'
    refine ⟨qc :: cur, cntAll (cs.take qc) + q, ?_, ?_, ?_, ?_, ?_⟩
    · simp only [toList_internal]
      omega
    · rw [show off + offSum tf ((NodeRef.internal offs cs : NodeRef T O).toList.take
          (cntAll (cs.take qc) + q)) = x + offSum tf ((cs[qc]).toList.take q)
        from (htr q (by omega)).symm]
      simp [NodeRef.search_go, hscan, search_goL_eq tf f cs qc x hqc, heqc]
    · exact .internal qc cur offs cs q hqc hpathc
    · have h7 := hhitc
      rw [htr (q + 1) (by omega)] at h7
      rw [show cntAll (cs.take qc) + q + 1 = cntAll (cs.take qc) + (q + 1) by omega]
      exact h7
    · intro j hj
      by_cases hzone : j + 1 ≤ cntAll (cs.take qc)
      · by_contra htrue
        have ht : f (off + offSum tf
            ((NodeRef.internal offs cs : NodeRef T O).toList.take (j + 1))) = true := by
          cases hE : f (off + offSum tf
              ((NodeRef.internal offs cs : NodeRef T O).toList.take (j + 1)))
          · exact absurd hE htrue
          · rfl
        have h8 := hmono (j + 1) (cntAll (cs.take qc)) hzone
          (by simp only [toList_internal]; omega) ht
        have h9 := htr 0 (by omega)
        simp only [List.take_zero, offSum_nil, add_zero, Nat.add_zero] at h9
        rw [← h9] at h8
        rw [hA'] at h8
        cases h8
      · obtain ⟨jj, rfl⟩ : ∃ jj, j = cntAll (cs.take qc) + jj :=
          ⟨j - cntAll (cs.take qc), by omega⟩
        have hjj : jj < q := by omega
        have h4 := hprec jj hjj
        rw [htr (jj + 1) (by omega)] at h4
        rw [show cntAll (cs.take qc) + jj + 1 = cntAll (cs.take qc) + (jj + 1)
          by omega]
        exact h4

end RemoveLemmas

/-- **C5** — Removal is the inverse of insertion: on a well-formed rope,
inserting `x` at a valid cursor position `p` and then removing at a cursor
that addresses the resulting position `p` returns exactly `x` and restores
the prior `offset_len` and the prior front-to-back element order exactly. -/
theorem C5_removal_inverse [AddCommGroup O] (tf : T → O)
    {r : Rope T O} {at_ at2 : Cursor} {p : Nat} (x : T)
    (hv : Valid tf r) (hpath : InsPath at_ r.root p)
    (hpath2 : ElemPath at2 (r.insert tf x at_).root p) :
    ∃ r2, (r.insert tf x at_).remove_at tf at2 = some (x, r2) ∧
      r2.offset_len = (r.offset_len : O) ∧ r2.toList = r.toList := by
  obtain ⟨hv1, htl1, hlen1⟩ := insert_ok tf x hv hpath
  obtain ⟨e, r2, heq, hget, htl2, hlen2, hv2⟩ := remove_at_ok tf hv1 hpath2
  have hpe : p ≤ r.toList.length := hpath.le_length
  have hex : e = x := by
    have h1 : (r.insert tf x at_).toList[p]? = some x := by
      rw [htl1]
      exact getElem?_insertIdx_self hpe x
    exact Option.some.inj (hget.symm.trans h1)
  subst hex
  refine ⟨r2, heq, ?_, ?_⟩
  · show r2.len = r.len
    rw [hlen2, hlen1]
    abel
  · rw [htl2, htl1, eraseIdx_insertIdx_self hpe]

/-- **C8** — Empty-sequence queries: a fresh rope is empty and `first`,
`last`, `pop_front`, `pop_back` return `none` on it while `offset_len` is
zero; the same holds for any valid empty rope; and on a valid non-empty rope
`pop_front` and `pop_back` never return `none`. -/
theorem C8_empty_queries [AddCommGroup O] (tf : T → O) :
    (Rope.new : Rope T O).is_empty = true ∧
    (Rope.new : Rope T O).first = none ∧
    (Rope.new : Rope T O).last = none ∧
    (Rope.new : Rope T O).pop_front tf = none ∧
    (Rope.new : Rope T O).pop_back tf = none ∧
    (Rope.new : Rope T O).offset_len = (0 : O) ∧
    (∀ r : Rope T O, Valid tf r → r.is_empty = true →
      r.first = none ∧ r.last = none ∧ r.pop_front tf = none ∧
      r.pop_back tf = none ∧ r.offset_len = (0 : O)) ∧
    (∀ r : Rope T O, Valid tf r → r.is_empty = false →
      (∃ x, r.pop_front tf = some x) ∧ (∃ x, r.pop_back tf = some x)) := by
  refine ⟨rfl, rfl, rfl, rfl, rfl, rfl, ?_, ?_⟩
  · intro r hv he
    refine ⟨by simp [Rope.first, he], by simp [Rope.last, he],
      by simp [Rope.pop_front, he], by simp [Rope.pop_back, he], ?_⟩
    have htl : r.toList = [] := by
      rw [Rope.is_empty] at he
      cases hroot : r.root with
      | leaf es =>
        rw [hroot] at he
        simp only [List.isEmpty_iff] at he
        simp [Rope.toList, hroot, he]
      | internal o cs =>
        rw [hroot] at he
        simp at he
    show r.len = 0
    rw [hv.len_eq, htl, offSum_nil]
  · intro r hv hne
    obtain ⟨h, hs⟩ := hv.shape
    have htne : r.root.toList ≠ [] := by
      rw [Rope.is_empty] at hne
      cases hroot : r.root with
      | leaf es =>
        rw [hroot] at hne
        cases es with
        | nil => simp at hne
        | cons a es' => simp
      | internal o cs =>
        rw [hroot] at hs
        cases hs with
        | internal _ _ hh hsh =>
        have hsz := hv.size
        rw [hroot] at hsz
        cases hsz with
        | internal _ _ _ hmin hmax hsc =>
        simp only [rootMin] at hmin
        obtain ⟨c, cs', rfl⟩ : ∃ c cs', cs = c :: cs' := by
          cases cs with
          | nil => exact absurd hmin (by simp)
          | cons a l => exact ⟨a, l, rfl⟩
        have hcne := toList_ne_nil_of_sizeMin (hsh c (by simp)) (hsc c (by simp))
        simp only [toList_internal, toListAll_cons]
        intro habs
        exact hcne (List.append_eq_nil.mp habs).1
    constructor
    · have hp := begin_elemPath hs hv.size htne
      obtain ⟨e, r', heq, _, _, _, _⟩ := remove_at_ok tf hv hp
      refine ⟨(e, r'), ?_⟩
      rw [Rope.pop_front, if_neg (by simp [hne])]
      exact heq
    · have hp := last_cursor_elemPath hs hv.size htne
      obtain ⟨e, r', heq, _, _, _, _⟩ := remove_at_ok tf hv hp
      refine ⟨(e, r'), ?_⟩
      rw [Rope.pop_back, if_neg (by simp [hne])]
      exact heq

/-- When neither adjacent sibling is overpopulated, a successful `rebalance`
is a merge: child `k` and `k + 1` are replaced by one node and `offsets[k]`
is deleted, with the underflow flag recomputed from the new child count. -/
theorem rebalance_merge_shape [AddCommGroup O] (tf : T → O)
    (offs1 : List O) (cs1 : List (NodeRef T O)) (i : Nat) (hi : i < cs1.length)
    (hcR : ¬((i + 1 < cs1.length) ∧ ORDER < (cs1.getD (i + 1) (.leaf [])).len))
    (hcL : ¬((0 < i) ∧ ORDER < (cs1.getD (i - 1) (.leaf [])).len)) :
    ∀ {offs2 cs2 uf2}, rebalance tf offs1 cs1 i = some (offs2, cs2, uf2) →
      ∃ k m, k = i - (if 0 < i then 1 else 0) ∧ k + 1 < cs1.length ∧
        offs2 = offs1.eraseIdx k ∧
        cs2 = (cs1.set k m).eraseIdx (k + 1) ∧
        uf2 = decide (cs2.length < ORDER) := by
  intro offs2 cs2 uf2 heq
  by_cases hi0 : i = 0
  · subst hi0
    cases hc1 : cs1[(1 : Nat)]? with
    | none =>
      have hnone : rebalance tf offs1 cs1 0 = none := by
        simp only [rebalance, decide_eq_true_eq]
        rw [if_neg hcR, if_neg hcL]
        simp [hc1]
      rw [hnone] at heq
      exact absurd heq (by simp)
    | some rc =>
      obtain ⟨hr1, hrceq⟩ := List.getElem?_eq_some.mp hc1
      cases hm : rotate_left_full (cs1[0]) rc (offs1.getD 0 0) with
      | none =>
        have hnone : rebalance tf offs1 cs1 0 = none := by
          have hm2 := hm
          simp only [List.getD_eq_getElem?_getD] at hm2
          simp only [rebalance, decide_eq_true_eq]
          rw [if_neg hcR, if_neg hcL]
          simp [List.getElem?_eq_getElem hi, hc1, hm2]
        rw [hnone] at heq
        exact absurd heq (by simp)
      | some m =>
        have hsome : rebalance tf offs1 cs1 0 =
            some (offs1.eraseIdx 0, (cs1.set 0 m).eraseIdx 1,
              decide (((cs1.set 0 m).eraseIdx 1).length < ORDER)) := by
          have hm2 := hm
          simp only [List.getD_eq_getElem?_getD] at hm2
          simp only [rebalance, decide_eq_true_eq]
          rw [if_neg hcR, if_neg hcL]
          simp [List.getElem?_eq_getElem hi, hc1, hm2]
        rw [hsome] at heq
        simp only [Option.some.injEq, Prod.mk.injEq] at heq
        obtain ⟨h1, h2, h3⟩ := heq
        exact ⟨0, m, by simp, hr1, h1.symm, h2.symm, by rw [← h3, h2]⟩
  · obtain ⟨j, rfl⟩ : ∃ j, i = j + 1 := ⟨i - 1, by omega⟩
    have hj : j < cs1.length := by omega
    cases hm : rotate_left_full (cs1[j]) (cs1[j + 1])
        (if j = 0 then offs1.getD 0 0
         else offs1.getD j 0 + -offs1.getD (j - 1) 0) with
    | none =>
      have hnone : rebalance tf offs1 cs1 (j + 1) = none := by
        have hm2 := hm
        simp only [List.getD_eq_getElem?_getD] at hm2
        simp only [rebalance, decide_eq_true_eq]
        rw [if_neg hcR, if_neg hcL]
        simp [List.getElem?_eq_getElem hi, List.getElem?_eq_getElem hj, hm2]
      rw [hnone] at heq
      exact absurd heq (by simp)
    | some m =>
      have hsome : rebalance tf offs1 cs1 (j + 1) =
          some (offs1.eraseIdx j, (cs1.set j m).eraseIdx (j + 1),
            decide (((cs1.set j m).eraseIdx (j + 1)).length < ORDER)) := by
        have hm2 := hm
        simp only [List.getD_eq_getElem?_getD] at hm2
        simp only [rebalance, decide_eq_true_eq]
        rw [if_neg hcR, if_neg hcL]
        simp [List.getElem?_eq_getElem hi, List.getElem?_eq_getElem hj, hm2]
      rw [hsome] at heq
      simp only [Option.some.injEq, Prod.mk.injEq] at heq
      obtain ⟨h1, h2, h3⟩ := heq
      exact ⟨j, m, by simp, hi, h1.symm, h2.symm, by rw [← h3, h2]⟩

/-- **C6** — Rebalancing strategy on underflow: the parent first tries
rotation, preferring an overpopulated right sibling (`rotate_left` of child
`i` and its right neighbour), else an overpopulated left sibling
(`rotate_right` of the left neighbour and child `i`); any successful rotation
keeps the parent's child and offsets counts and reports no underflow; only
when neither adjacent sibling holds more than `ORDER` entries are the two
nodes merged, removing exactly one child and one offsets entry and reporting
underflow exactly when the parent is now short. -/
theorem C6_rebalancing_strategy [AddCommGroup O] (tf : T → O)
    (offs1 : List O) (cs1 : List (NodeRef T O)) (i : Nat) (hi : i < cs1.length)
    (hlen : offs1.length + 1 = cs1.length) :
    (∀ (hr : i + 1 < cs1.length), ORDER < (cs1[i + 1]).len →
      rebalance tf offs1 cs1 i =
        (rotate_left tf (cs1[i]) (cs1[i + 1])
            (if i = 0 then offs1.getD 0 0
             else offs1.getD i 0 + -offs1.getD (i - 1) 0)).map (fun q =>
          (offs1.set i (offs1.getD i 0 + q.2.2),
            (cs1.set i q.1).set (i + 1) q.2.1, false))) ∧
    (∀ (hl : 0 < i),
      (∀ (hr : i + 1 < cs1.length), (cs1[i + 1]).len ≤ ORDER) →
      ORDER < (cs1[i - 1]).len →
      rebalance tf offs1 cs1 i =
        (rotate_right tf (cs1[i - 1]) (cs1[i])
            (if i - 1 = 0 then offs1.getD 0 0
             else offs1.getD (i - 1) 0 + -offs1.getD (i - 1 - 1) 0)).map (fun q =>
          (offs1.set (i - 1) (offs1.getD (i - 1) 0 + -q.2.2),
            (cs1.set (i - 1) q.1).set (i - 1 + 1) q.2.1, false))) ∧
    (∀ offs2 cs2 uf2, rebalance tf offs1 cs1 i = some (offs2, cs2, uf2) →
      ((∃ hr : i + 1 < cs1.length, ORDER < (cs1[i + 1]).len) ∨
        (∃ _ : 0 < i, ORDER < (cs1[i - 1]).len)) →
      cs2.length = cs1.length ∧ offs2.length = offs1.length ∧ uf2 = false) ∧
    ((∀ (hr : i + 1 < cs1.length), (cs1[i + 1]).len ≤ ORDER) →
     (∀ (_ : 0 < i), (cs1[i - 1]).len ≤ ORDER) →
     ∀ offs2 cs2 uf2, rebalance tf offs1 cs1 i = some (offs2, cs2, uf2) →
       cs2.length = cs1.length - 1 ∧ offs2.length = offs1.length - 1 ∧
       uf2 = decide (cs2.length < ORDER)) := by
  have ha : ∀ (hr : i + 1 < cs1.length), ORDER < (cs1[i + 1]).len →
      rebalance tf offs1 cs1 i =
        (rotate_left tf (cs1[i]) (cs1[i + 1])
            (if i = 0 then offs1.getD 0 0
             else offs1.getD i 0 + -offs1.getD (i - 1) 0)).map (fun q =>
          (offs1.set i (offs1.getD i 0 + q.2.2),
            (cs1.set i q.1).set (i + 1) q.2.1, false)) := by
    intro hr hlenR
    have hcond : (i + 1 < cs1.length) ∧
        ORDER < (cs1.getD (i + 1) (.leaf [])).len :=
      ⟨hr, by rw [List.getD_eq_getElem _ _ hr]; exact hlenR⟩
    simp only [rebalance, decide_eq_true_eq]
    rw [if_pos hcond]
    cases hrot : rotate_left tf (cs1[i]) (cs1[i + 1])
        (if i = 0 then offs1.getD 0 0
         else offs1.getD i 0 + -offs1.getD (i - 1) 0) with
    | none =>
      have hrot2 := hrot
      simp only [List.getD_eq_getElem?_getD] at hrot2
      simp [List.getElem?_eq_getElem hi, List.getElem?_eq_getElem hr, hrot2]
    | some q =>
      obtain ⟨l', r', mv⟩ := q
      have hrot2 := hrot
      simp only [List.getD_eq_getElem?_getD] at hrot2
      simp [List.getElem?_eq_getElem hi, List.getElem?_eq_getElem hr, hrot2]
  have hb : ∀ (hl : 0 < i),
      (∀ (hr : i + 1 < cs1.length), (cs1[i + 1]).len ≤ ORDER) →
      ORDER < (cs1[i - 1]).len →
      rebalance tf offs1 cs1 i =
        (rotate_right tf (cs1[i - 1]) (cs1[i])
            (if i - 1 = 0 then offs1.getD 0 0
             else offs1.getD (i - 1) 0 + -offs1.getD (i - 1 - 1) 0)).map (fun q =>
          (offs1.set (i - 1) (offs1.getD (i - 1) 0 + -q.2.2),
            (cs1.set (i - 1) q.1).set (i - 1 + 1) q.2.1, false)) := by
    intro hl hnr hlenL
    have hcondR : ¬((i + 1 < cs1.length) ∧
        ORDER < (cs1.getD (i + 1) (.leaf [])).len) := by
      rintro ⟨h1, h2⟩
      rw [List.getD_eq_getElem _ _ h1] at h2
      exact absurd h2 (by have := hnr h1; omega)
    have hcondL : (0 < i) ∧ ORDER < (cs1.getD (i - 1) (.leaf [])).len :=
      ⟨hl, by rw [List.getD_eq_getElem _ _ (by omega)]; exact hlenL⟩
    simp only [rebalance, decide_eq_true_eq]
    rw [if_neg hcondR, if_pos hcondL]
    cases hrot : rotate_right tf (cs1[i - 1]) (cs1[i])
        (if i - 1 = 0 then offs1.getD 0 0
         else offs1.getD (i - 1) 0 + -offs1.getD (i - 1 - 1) 0) with
    | none =>
      have hrot2 := hrot
      simp only [List.getD_eq_getElem?_getD] at hrot2
      simp [List.getElem?_eq_getElem hi, List.getElem?_eq_getElem (by omega : i - 1 < cs1.length),
        hl, hrot2, List.getElem?_eq_getElem (show i - 1 + 1 < cs1.length by omega),
        show i - 1 + 1 = i by omega]
    | some q =>
      obtain ⟨l', r', mv⟩ := q
      have hrot2 := hrot
      simp only [List.getD_eq_getElem?_getD] at hrot2
      simp [List.getElem?_eq_getElem hi, List.getElem?_eq_getElem (by omega : i - 1 < cs1.length),
        hl, hrot2, List.getElem?_eq_getElem (show i - 1 + 1 < cs1.length by omega),
        show i - 1 + 1 = i by omega]
  refine ⟨ha, hb, ?_, ?_⟩
  · intro offs2 cs2 uf2 heq hsur
    by_cases hR : ∃ hr : i + 1 < cs1.length, ORDER < (cs1[i + 1]).len
    · obtain ⟨hr, hlenR⟩ := hR
      rw [ha hr hlenR] at heq
      obtain ⟨q, hq1, hq2⟩ := Option.map_eq_some'.mp heq
      obtain ⟨l', r', mv⟩ := q
      simp only [Prod.mk.injEq] at hq2
      obtain ⟨h1, h2, h3⟩ := hq2
      refine ⟨by rw [← h2]; simp, by rw [← h1]; simp, h3.symm⟩
    · have hnr : ∀ (hr : i + 1 < cs1.length), (cs1[i + 1]).len ≤ ORDER := by
        intro hr
        by_contra hx
        exact hR ⟨hr, by omega⟩
      rcases hsur with ⟨hr, hx⟩ | ⟨hl, hx⟩
      · exact absurd ⟨hr, hx⟩ hR
      · rw [hb hl hnr hx] at heq
        obtain ⟨q, hq1, hq2⟩ := Option.map_eq_some'.mp heq
        obtain ⟨l', r', mv⟩ := q
        simp only [Prod.mk.injEq] at hq2
        obtain ⟨h1, h2, h3⟩ := hq2
        refine ⟨by rw [← h2]; simp, by rw [← h1]; simp, h3.symm⟩
  · intro hnr hnl offs2 cs2 uf2 heq
    have hcondR : ¬((i + 1 < cs1.length) ∧
        ORDER < (cs1.getD (i + 1) (.leaf [])).len) := by
      rintro ⟨h1, h2⟩
      rw [List.getD_eq_getElem _ _ h1] at h2
      exact absurd h2 (by have := hnr h1; omega)
    have hcondL : ¬((0 < i) ∧ ORDER < (cs1.getD (i - 1) (.leaf [])).len) := by
      rintro ⟨h1, h2⟩
      rw [List.getD_eq_getElem _ _ (by omega)] at h2
      exact absurd h2 (by have := hnl h1; omega)
    obtain ⟨k, m, hkdef, hk1, ho2, hc2, hu2⟩ :=
      rebalance_merge_shape tf offs1 cs1 i hi hcondR hcondL heq
    refine ⟨?_, ?_, hu2⟩
    · rw [hc2, set_eraseIdx_adjacent hk1 m]
      simp only [List.length_append, List.length_cons, List.length_drop,
        List.length_take]
      omega
    · rw [ho2, List.eraseIdx_eq_take_drop_succ]
      simp only [List.length_append, List.length_take, List.length_drop]
      omega

/-- Ropes reachable from `new` by valid `insert`, `remove_at` and
`update_at_with` operations (§4: cursors passed in must address a valid
insertion point resp. an existing element). -/
inductive Reach [AddCommGroup O] (tf : T → O) : Rope T O → Prop where
  | new : Reach tf Rope.new
  | insert {r : Rope T O} {x : T} {at_ : Cursor} {p : Nat} (hr : Reach tf r)
      (hp : InsPath at_ r.root p) : Reach tf (r.insert tf x at_)
  | remove {r : Rope T O} {at_ : Cursor} {p : Nat} {e : T} {r' : Rope T O}
      (hr : Reach tf r) (hp : ElemPath at_ r.root p)
      (he : r.remove_at tf at_ = some (e, r')) : Reach tf r'
  | update {R : Type} {r : Rope T O} {at_ : Cursor} {p : Nat} {f : T → T × R}
      {res : R} {r' : Rope T O} (hr : Reach tf r) (hp : ElemPath at_ r.root p)
      (he : r.update_at_with tf at_ f = some (res, r')) : Reach tf r'

/-- Every reachable rope is well-formed. -/
theorem reach_valid [AddCommGroup O] (tf : T → O) {r : Rope T O}
    (h : Reach tf r) : Valid tf r := by
  induction h with
  | new => exact valid_new tf
  | insert hr hp ih => exact (insert_ok tf _ ih hp).1
  | remove hr hp he ih =>
    obtain ⟨e2, r2, heq, _, _, _, hv2⟩ := remove_at_ok tf ih hp
    have h2 := Option.some.inj (heq.symm.trans he)
    simp only [Prod.mk.injEq] at h2
    exact h2.2 ▸ hv2
  | update hr hp he ih =>
    obtain ⟨e2, r2, _, heq, _, _, _, hv2⟩ := update_at_with_ok tf _ ih hp
    have h2 := Option.some.inj (heq.symm.trans he)
    simp only [Prod.mk.injEq] at h2
    exact h2.2 ▸ hv2

/-- **C1** — Offset accounting: after any sequence of `insert`, `remove_at`
and `update_at_with` operations starting from `new`, (a) `offset_len` equals
the sum of `to_offset` over all current elements, and (b) every internal
node's offsets table has `children.len - 1` entries whose `i`-th entry is the
offset sum over `children[0..=i]` (the `OffsetsOk` invariant). -/
theorem C1_offset_accounting [AddCommGroup O] (tf : T → O) {r : Rope T O}
    (h : Reach tf r) :
    r.offset_len = offSum tf r.toList ∧ OffsetsOk tf r.root := by
  have hv := reach_valid tf h
  exact ⟨hv.len_eq, hv.offsets⟩

/-- **C3** — Balance invariant: after any sequence of insertions and removals
(and updates) starting from `new`, the root satisfies the occupancy bounds
(`0..=2*ORDER` for a leaf root, `2..=2*ORDER` children for an internal root,
`ORDER..=2*ORDER` for every other node — `SizeMin (rootMin _)`), and all
leaves lie at one common depth, so every internal node's children are all
leaves or all internal (`Shape`). -/
theorem C3_balance_invariant [AddCommGroup O] (tf : T → O) {r : Rope T O}
    (h : Reach tf r) :
    SizeMin (rootMin r.root) r.root ∧ ∃ hh, Shape r.root hh := by
  have hv := reach_valid tf h
  exact ⟨hv.size, hv.shape⟩

/-- **C10** — `update_at_with` frame property: it returns exactly the value
produced by `f`, the element sequence is the old one with only the addressed
position replaced (same length, all other positions unchanged), the tree
structure is unchanged with only the path's offset entries shifted by the
delta (`UpdShape`), and the cached total moves by exactly
`to_offset(new) - to_offset(old)`. -/
theorem C10_update_frame [AddCommGroup O] (tf : T → O) {R : Type}
    {r : Rope T O} {at_ : Cursor} {p : Nat} (f : T → T × R)
    (hv : Valid tf r) (hpath : ElemPath at_ r.root p) :
    ∃ e r', r.toList[p]? = some e ∧
      r.update_at_with tf at_ f = some ((f e).2, r') ∧
      r'.toList = r.toList.set p (f e).1 ∧
      r'.toList.length = r.toList.length ∧
      (∀ q, q ≠ p → r'.toList[q]? = r.toList[q]?) ∧
      UpdShape (tf (f e).1 + -(tf e)) (f e).1 at_ r.root r'.root ∧
      r'.len = r.len + (tf (f e).1 + -(tf e)) := by
  obtain ⟨e, r', hget, hequ, hush, htl, hlen, hv2⟩ :=
    update_at_with_ok tf f hv hpath
  refine ⟨e, r', hget, hequ, htl, by rw [htl]; simp, ?_, hush, hlen⟩
  intro q hq
  rw [htl]
  rw [List.getElem?_set_ne (fun hc => hq hc.symm)]

/-- Witness: C1 at a concrete reachable rope. -/
theorem C1_witness :
    ((Rope.new : Rope Nat Int).insert (fun t : Nat => (t : Int)) 7 [0]).offset_len =
      offSum (fun t : Nat => (t : Int))
        ((Rope.new : Rope Nat Int).insert (fun t : Nat => (t : Int)) 7 [0]).toList ∧
    OffsetsOk (fun t : Nat => (t : Int))
      ((Rope.new : Rope Nat Int).insert (fun t : Nat => (t : Int)) 7 [0]).root :=
  C1_offset_accounting (fun t : Nat => (t : Int))
    (.insert .new (.leaf 0 [] (by decide)))

/-- Witness: C3 at a concrete reachable rope. -/
theorem C3_witness :
    SizeMin
      (rootMin ((Rope.new : Rope Nat Int).insert (fun t : Nat => (t : Int)) 9 [0]).root)
      ((Rope.new : Rope Nat Int).insert (fun t : Nat => (t : Int)) 9 [0]).root ∧
    ∃ hh, Shape ((Rope.new : Rope Nat Int).insert (fun t : Nat => (t : Int)) 9 [0]).root hh :=
  C3_balance_invariant (fun t : Nat => (t : Int))
    (.insert .new (.leaf 0 [] (by decide)))

/-- Witness: C5 at a concrete rope, position and element. -/
theorem C5_witness :
    ∃ r2, ((Rope.new : Rope Nat Int).insert (fun t : Nat => (t : Int)) 5 [0]).remove_at
        (fun t : Nat => (t : Int)) [0] = some (5, r2) ∧
      r2.offset_len = ((Rope.new : Rope Nat Int).offset_len : Int) ∧
      r2.toList = (Rope.new : Rope Nat Int).toList :=
  C5_removal_inverse (fun t : Nat => (t : Int)) 5 (valid_new _)
    (.leaf 0 [] (by decide)) (.leaf 0 [5] (by decide))

/-- Witness: C6 at a concrete underflowed node with an overpopulated right
sibling — the rotation moves the sibling's first element across. -/
theorem C6_witness :
    rebalance (fun t : Nat => (t : Int)) [36]
        [.leaf [1, 2, 3, 4, 5, 6, 7, 8],
          .leaf [9, 10, 11, 12, 13, 14, 15, 16, 17]] 0 =
      some ([45],
        [.leaf [1, 2, 3, 4, 5, 6, 7, 8, 9],
          .leaf [10, 11, 12, 13, 14, 15, 16, 17]], false) :=
  (C6_rebalancing_strategy (fun t : Nat => (t : Int)) [36]
      [.leaf [1, 2, 3, 4, 5, 6, 7, 8],
        .leaf [9, 10, 11, 12, 13, 14, 15, 16, 17]] 0
      (by decide) (by decide)).1 (by decide) (by decide)

/-- Witness: C8's non-empty guarantee at a concrete rope. -/
theorem C8_witness :
    (∃ x, (Rope.fromList (fun t : Nat => (t : Int)) [1, 2, 3]).pop_front
        (fun t : Nat => (t : Int)) = some x) ∧
    (∃ x, (Rope.fromList (fun t : Nat => (t : Int)) [1, 2, 3]).pop_back
        (fun t : Nat => (t : Int)) = some x) :=
  (C8_empty_queries (fun t : Nat => (t : Int))).2.2.2.2.2.2.2
    (Rope.fromList (fun t : Nat => (t : Int)) [1, 2, 3])
    ((fromList_ok (fun t : Nat => (t : Int)) [1, 2, 3]).1) (by decide)

/-- Witness: C10 at a concrete rope and update function. -/
theorem C10_witness :
    ∃ e r', ((Rope.fromList (fun t : Nat => (t : Int)) [1, 2, 3]).toList[1]? =
        some e) ∧
      (Rope.fromList (fun t : Nat => (t : Int)) [1, 2, 3]).update_at_with
        (fun t : Nat => (t : Int)) [1] (fun t => (t + 10, t)) = some ((e + 10, e).2, r') ∧
      r'.toList = (Rope.fromList (fun t : Nat => (t : Int)) [1, 2, 3]).toList.set
        1 (e + 10, e).1 ∧
      r'.toList.length =
        (Rope.fromList (fun t : Nat => (t : Int)) [1, 2, 3]).toList.length ∧
      (∀ q, q ≠ 1 → r'.toList[q]? =
        (Rope.fromList (fun t : Nat => (t : Int)) [1, 2, 3]).toList[q]?) ∧
      UpdShape ((fun t : Nat => (t : Int)) (e + 10, e).1 + -((fun t : Nat => (t : Int)) e))
        (e + 10, e).1 [1]
        (Rope.fromList (fun t : Nat => (t : Int)) [1, 2, 3]).root r'.root ∧
      r'.len = (Rope.fromList (fun t : Nat => (t : Int)) [1, 2, 3]).len +
        ((fun t : Nat => (t : Int)) (e + 10, e).1 + -((fun t : Nat => (t : Int)) e)) :=
  C10_update_frame (fun t : Nat => (t : Int)) (fun t => (t + 10, t))
    ((fromList_ok (fun t : Nat => (t : Int)) [1, 2, 3]).1)
    (.leaf 1 [1, 2, 3] (by decide))

/-- **C2** — Search correctness: for a chain-monotone predicate `f` over the
cumulative boundary offsets, `search_by` returns `none` exactly when `f`
holds already at offset zero; returns `(end, offset_len)` when no real
element's right boundary satisfies `f`; and otherwise returns a cursor
addressing the first element whose right-boundary offset satisfies `f`
together with that element's left-boundary (start) offset.  The two derived
entry points are exactly `search_by` of the corresponding comparator
predicates. -/
theorem C2_search_correctness [AddCommGroup O] (tf : T → O) {r : Rope T O}
    (hv : Valid tf r) (f : O → Bool)
    (hmono : ∀ j k, j ≤ k → k ≤ r.toList.length →
      f (offSum tf (r.toList.take j)) = true →
      f (offSum tf (r.toList.take k)) = true) :
    (f 0 = true → r.search_by tf f = none) ∧
    (f 0 = false → f r.len = false →
      r.search_by tf f = some (r.end_cursor, r.len)) ∧
    (f 0 = false → f r.len = true →
      ∃ cur q, q < r.toList.length ∧
        r.search_by tf f = some (cur, offSum tf (r.toList.take q)) ∧
        ElemPath cur r.root q ∧
        f (offSum tf (r.toList.take (q + 1))) = true ∧
        ∀ j, j < q → f (offSum tf (r.toList.take (j + 1))) = false) ∧
    (∀ g : O → Ordering, r.inclusive_lower_bound_by tf g =
      r.search_by tf (fun o => g o == Ordering.gt)) ∧
    (∀ g : O → Ordering, r.inclusive_upper_bound_by tf g =
      r.search_by tf (fun o => g o != Ordering.lt)) := by
  refine ⟨?_, ?_, ?_, fun g => rfl, fun g => rfl⟩
  · intro h0
    rw [Rope.search_by, if_pos h0]
  · intro h0 hl
    rw [Rope.search_by, if_neg (by simp [h0]), if_pos (by simp [hl])]
  · intro h0 hl
    obtain ⟨h, hs⟩ := hv.shape
    have hB : f (0 + offSum tf r.root.toList) = true := by
      rw [zero_add, show offSum tf r.root.toList = offSum tf r.toList from rfl,
        ← hv.len_eq]
      exact hl
    have hmono0 : ∀ j k, j ≤ k → k ≤ r.root.toList.length →
        f (0 + offSum tf (r.root.toList.take j)) = true →
        f (0 + offSum tf (r.root.toList.take k)) = true := by
      intro j k hjk hk hj
      rw [zero_add]
      rw [zero_add] at hj
      exact hmono j k hjk hk hj
    obtain ⟨cur, q, hqlt, heq, hpath, hhit, hpre⟩ :=
      search_go_ok tf f hs 0 hv.offsets hmono0 h0 hB
    refine ⟨cur, q, hqlt, ?_, hpath, ?_, ?_⟩
    · rw [Rope.search_by, if_neg (by simp [h0]), if_neg (by simp [hl]), heq]
      rw [zero_add]
      rfl
    · rw [← zero_add (offSum tf (r.toList.take (q + 1)))]
      exact hhit
    · intro j hj
      rw [← zero_add (offSum tf (r.toList.take (j + 1)))]
      exact hpre j hj

/-- Witness: C2's main branch at a concrete rope and monotone predicate. -/
theorem C2_witness :
    ∃ cur q, q < (Rope.fromList (fun _ : Nat => (1 : Int)) [5, 6, 7]).toList.length ∧
      (Rope.fromList (fun _ : Nat => (1 : Int)) [5, 6, 7]).search_by
          (fun _ : Nat => (1 : Int)) (fun o => decide (2 ≤ o)) =
        some (cur, offSum (fun _ : Nat => (1 : Int))
          ((Rope.fromList (fun _ : Nat => (1 : Int)) [5, 6, 7]).toList.take q)) ∧
      ElemPath cur (Rope.fromList (fun _ : Nat => (1 : Int)) [5, 6, 7]).root q ∧
      decide (2 ≤ offSum (fun _ : Nat => (1 : Int))
        ((Rope.fromList (fun _ : Nat => (1 : Int)) [5, 6, 7]).toList.take (q + 1))) =
        true ∧
      ∀ j, j < q → decide (2 ≤ offSum (fun _ : Nat => (1 : Int))
        ((Rope.fromList (fun _ : Nat => (1 : Int)) [5, 6, 7]).toList.take (j + 1))) =
        false :=
  (C2_search_correctness (fun _ : Nat => (1 : Int))
      ((fromList_ok (fun _ : Nat => (1 : Int)) [5, 6, 7]).1)
      (fun o => decide (2 ≤ o))
      (by
        intro j k hjk hk hj
        have hk3 : k ≤ 3 := hk
        interval_cases k <;> interval_cases j <;> revert hj <;> decide)).2.2.1
    (by decide) (by decide)

end RopeModel
